import Mathlib

/-!
Verification of the suffixlemmatizer statistical engine (src/Model.cpp).

Strings are modelled as lists of bytes (`List Nat`, each entry a byte value),
since the C++ code works byte-wise on `std::string` and cuts suffixes at
UTF-8 codepoint boundaries.  `long` counters are modelled as `Int`; the
`double` probabilities of `compute_prob` are modelled as exact rationals.

The three frequency tables are `std::unordered_map` in the source (declared
in Model.hpp), so their iteration order is hash- and insertion-dependent and
unspecified.  The embedding represents table *contents* as association lists
kept sorted by lexicographic byte order — a canonical representative of the
map contents.  Functions that iterate a table (`Model.save`, the candidate
scan of `Model.lemmatize`) traverse this canonical order, which is one
admissible iteration order; the spec itself states its tie rule relative to
iteration order.  Statements that depend on the emission order are proved
with explicit quantification over reorderings of the tables (see the
serialization theorems), so they hold for every iteration order the source's
containers may produce.
-/

namespace Suflem

/-- Byte strings, one `Nat` per byte. -/
abbrev Str := List Nat

/-- True/false positive count pair, as in `std::pair long long`. -/
abbrev Counts := Int × Int

/-- C `isspace` for the default locale: space and the five control codes 9..13. -/
def isSpace (c : Nat) : Bool := c == 32 || (decide (9 ≤ c) && decide (c ≤ 13))

/-- The ltrim helper of Model.cpp: erase leading whitespace bytes. -/
def ltrim (s : Str) : Str := s.dropWhile isSpace

/-- The rtrim helper of Model.cpp: erase trailing whitespace bytes. -/
def rtrim (s : Str) : Str := (s.reverse.dropWhile isSpace).reverse

/-- The trim helper of Model.cpp: `ltrim(rtrim(s))`. -/
def trimStr (s : Str) : Str := ltrim (rtrim s)

/-- Does byte `c` match one of the six sequence-initial bit patterns checked by
`store_codepoints` (`0xxxxxxx`, `110xxxxx`, `1110xxxx`, `11110xxx`,
`111110xx`, `1111110x`)? -/
def isStarter (c : Nat) : Bool :=
  (c >>> 7 == 0) || (c >>> 5 == 0x6) || (c >>> 4 == 0xE) ||
  (c >>> 3 == 0x1E) || (c >>> 2 == 0x3E) || (c >>> 1 == 0x7E)

/-- Is byte `c` a UTF-8 continuation byte `10xxxxxx`? -/
def isCont (c : Nat) : Bool := c >>> 6 == 0x2

/-- Worker for `store_codepoints`: walks the bytes keeping the current index. -/
def storeCpAux : Str → Nat → Option (List Nat)
  | [], _ => some []
  | c :: rest, i =>
    if isStarter c then
      match storeCpAux rest (i + 1) with
      | some v => some (i :: v)
      | none => none
    else if isCont c && i != 0 then storeCpAux rest (i + 1)
    else none

/-- `store_codepoints` of Model.cpp: indices of codepoint-initial bytes, or
failure (the function returning `false`) on a decode error. -/
def store_codepoints (s : Str) : Option (List Nat) := storeCpAux s 0

/-- Byte-range equality `a[i] == b[i]` for `lo ≤ i < hi`, as in the inner loop
of `common_prefix_size`. -/
def bytesEqRange (a b : Str) (lo hi : Nat) : Bool :=
  (List.range' lo (hi - lo)).all (fun i => a.getD i 0 == b.getD i 0)

/-- Loop of `common_prefix_size`; `fuel` counts the remaining iterations up to
`N = min (length acodepoints) (length bcodepoints)`, `j` is the loop counter
and `preflen` the number of bytes already compared. -/
def cpsGo (a b : Str) (ac bc : List Nat) : Nat → Nat → Nat → Nat
  | 0, j, _ => j
  | fuel + 1, j, preflen =>
    let aj := ac.getD j 0
    if aj ≠ bc.getD j 0 then j
    else if ¬ bytesEqRange a b preflen aj then j
    else cpsGo a b ac bc fuel (j + 1) aj

/-- `common_prefix_size` of Model.cpp. -/
def common_prefix_size (a b : Str) (ac bc : List Nat) : Nat :=
  cpsGo a b ac bc (min ac.length bc.length) 0 0

/-- `compute_prob` of Model.cpp, `tp / (tp + fp)` with exact arithmetic. -/
def compute_prob (p : Counts) : Rat := (p.1 : Rat) / ((p.1 + p.2 : Int) : Rat)

/-- Lexicographic strict order on byte strings (`std::string` `operator<`),
used as the canonical key order of the association-list representation of the
source's unordered tables. -/
def strLt : Str → Str → Bool
  | [], [] => false
  | [], _ :: _ => true
  | _ :: _, [] => false
  | a :: as, b :: bs => if a < b then true else if b < a then false else strLt as bs

/-- First value stored under key `k` in an association list (the table's
`find`/`count` lookup; lookup is order-independent). -/
def alFind {α : Type} (k : Str) : List (Str × α) → Option α
  | [] => none
  | (k', v) :: rest => if k = k' then some v else alFind k rest

/-- Insert into a sorted association list, modelling `operator[]` of the
source's map followed by a modification `f` of the stored value; `v0` is the
value-initialized entry used when the key is absent.  The sorted placement
keeps the representation canonical; the map's own contents are
order-independent. -/
def alInsertWith {α : Type} (f : α → α) (v0 : α) (k : Str) :
    List (Str × α) → List (Str × α)
  | [] => [(k, f v0)]
  | (k', v) :: rest =>
    if strLt k k' then (k, f v0) :: (k', v) :: rest
    else if k = k' then (k', f v) :: rest
    else (k', v) :: alInsertWith f v0 k rest

/-- Flat `string -> (tp, fp)` table. -/
abbrev FlatMap := List (Str × Counts)

/-- Nested replacement table `inflectedSuffix -> lemmaSuffix -> (tp, fp)`. -/
abbrev RepMap := List (Str × FlatMap)

/-- Add a count delta to a count pair. -/
def addC (d p : Counts) : Counts := (p.1 + d.1, p.2 + d.2)

/-- The frequency store of Model.cpp. -/
structure Model where
  replacements : RepMap
  lemcounts : FlatMap
  infcounts : FlatMap
  max_suffix_size : Nat
  is_trimmed : Bool
deriving DecidableEq

/-- `Model::update_replacement`: `_replacements[inf][lem]` accumulates `(tp, fp)`. -/
def Model.update_replacement (m : Model) (inf lem : Str) (tp fp : Int) : Model :=
  { m with replacements :=
      alInsertWith (alInsertWith (addC (tp, fp)) (0, 0) lem) [] inf m.replacements }

/-- `Model::update_inflected`: `_infcounts[inf]` accumulates `(tp, fp)`. -/
def Model.update_inflected (m : Model) (inf : Str) (tp fp : Int) : Model :=
  { m with infcounts := alInsertWith (addC (tp, fp)) (0, 0) inf m.infcounts }

/-- `Model::update_lemma`: `_lemcounts[lem]` accumulates `(tp, fp)`. -/
def Model.update_lemma (m : Model) (lem : Str) (tp fp : Int) : Model :=
  { m with lemcounts := alInsertWith (addC (tp, fp)) (0, 0) lem m.lemcounts }

/-- Errors thrown by `Model::update` and `Model::lemmatize`. -/
inductive SufErr
  | decoding
  | frozen
deriving DecidableEq

/-- Suffix of `s` starting at boundary index `min (length cp - 1) i` of the
sentinel-appended boundary list `cp`, as in the trainer's
`inf.substr(infcodepoints[std::min(infsize-1, i)])`. -/
def sufAt (s : Str) (cp : List Nat) (i : Nat) : Str :=
  s.drop (cp.getD (min (cp.length - 1) i) 0)

/-- Descending list of suffix-start indices visited by the training loop
`for (long i = n-2 ; i >= m ; --i)` with `m = max(n - (maxsuf+1), 0)`. -/
def trainIndices (n maxsuf : Nat) : List Nat :=
  (List.range' (n - (maxsuf + 1)) (n - 1 - (n - (maxsuf + 1)))).reverse

/-- Body of the training loop at index `i`. -/
def trainStep (inf lem : Str) (infcp lemcp : List Nat) (pfx : Nat) (count : Int)
    (md : Model) (i : Nat) : Model :=
  let infsuf := sufAt inf infcp i
  let lemsuf := sufAt lem lemcp i
  let md1 := if i + 1 ≤ pfx then md.update_replacement infsuf lemsuf count 0
             else md.update_replacement infsuf lemsuf 0 count
  let md2 := md1.update_lemma lemsuf count 0
  let md3 := md2.update_lemma infsuf 0 count
  let md4 := md3.update_inflected infsuf count 0
  md4.update_inflected lemsuf 0 count

/-- `Model::update` of Model.cpp: the trainer for one
`(inflected, lemma, count)` triple. -/
def Model.update (m : Model) (inflected lemWord : Str) (count : Int) :
    Except SufErr Model :=
  if m.is_trimmed then .error .frozen else
  let inf := 36 :: inflected
  let lem := 36 :: lemWord
  match store_codepoints inf, store_codepoints lem with
  | some icp, some lcp =>
    let infcp := icp ++ [inf.length]
    let lemcp := lcp ++ [lem.length]
    let n := max infcp.length lemcp.length
    let pfx := common_prefix_size inf lem infcp lemcp
    .ok ((trainIndices n m.max_suffix_size).foldl
          (trainStep inf lem infcp lemcp pfx count) m)
  | _, _ => .error .decoding

/-- One candidate check of the inner replacement loop of `Model::lemmatize`:
the accumulator holds `(best_prob, best_lemma, iter_found)`. -/
def candStep (lemc : FlatMap) (inf : Str) (cut : Nat) (prB : Rat)
    (acc : Rat × Str × Bool) (cand : Str × Counts) : Rat × Str × Bool :=
  match alFind cand.1 lemc with
  | none => acc
  | some lc =>
    let prA := compute_prob lc
    let prBA := compute_prob cand.2
    let prAB := prBA * prA / prB
    if acc.1 < prAB then (prAB, inf.take cut ++ cand.1, true) else acc

/-- Outer loop of `Model::lemmatize` over the suffix-start indices. -/
def lemLoop (md : Model) (inf : Str) (cps : List Nat) : List Nat → Option Str
  | [] => none
  | i :: rest =>
    let infsuf := inf.drop (cps.getD i 0)
    match alFind infsuf md.infcounts with
    | none => lemLoop md inf cps rest
    | some bc =>
      match alFind infsuf md.replacements with
      | none => lemLoop md inf cps rest
      | some inner =>
        let r := inner.foldl (candStep md.lemcounts inf (cps.getD i 0) (compute_prob bc))
                  (0, [], false)
        if r.2.2 then some (r.2.1.drop 1) else lemLoop md inf cps rest

/-- `Model::lemmatize` of Model.cpp. -/
def Model.lemmatize (md : Model) (inflected : Str) : Except SufErr Str :=
  let inf := trimStr (36 :: inflected)
  match store_codepoints inf with
  | none => .error .decoding
  | some cp0 =>
    let cps := cp0 ++ [inf.length]
    match lemLoop md inf cps (List.range cps.length) with
    | some r => .ok r
    | none => .ok inflected

/-- `Model::trim` of Model.cpp. -/
def Model.trim (m : Model) : Model :=
  if m.is_trimmed then m else
  { replacements :=
      ((m.replacements.map (fun e => (e.1, e.2.filter (fun p => p.2.1 ≠ 0)))).filter
        (fun e => ¬ e.2.isEmpty)),
    lemcounts := m.lemcounts.filter (fun p => p.2.1 ≠ 0),
    infcounts := m.infcounts.filter (fun p => p.2.1 ≠ 0),
    max_suffix_size := m.max_suffix_size,
    is_trimmed := true }

/-- Fuel-driven worker for decimal rendering; `fuel` bounds the digit count. -/
def natDecFuel : Nat → Nat → Str
  | 0, _ => []
  | fuel + 1, n => if n < 10 then [48 + n] else natDecFuel fuel (n / 10) ++ [48 + n % 10]

/-- Decimal digits (most significant first) of a natural number, as printed by
`fprintf` with `%ld`. -/
def natDec (n : Nat) : Str := natDecFuel (n + 1) n

/-- `%ld` rendering of a (possibly negative) long. -/
def intDec (i : Int) : Str := if i < 0 then 45 :: natDec (-i).toNat else natDec i.toNat

/-- The `<key>\t<tp>\t<fp>\n` lines written by `Model::save` for a flat table. -/
def saveFlat (t : FlatMap) : Str :=
  t.foldr (fun e acc => e.1 ++ 9 :: intDec e.2.1 ++ 9 :: intDec e.2.2 ++ 10 :: acc) []

/-- The outer-key blocks written by `Model::save` for the replacement table. -/
def saveReps (t : RepMap) : Str :=
  t.foldr (fun e acc => e.1 ++ 9 :: natDec e.2.length ++ 10 :: saveFlat e.2 ++ acc) []

/-- `Model::save` of Model.cpp, producing the bytes written to the file when
the tables are iterated in the canonical order of this representation.  The
source's `std::unordered_map` iteration order is unspecified, so an arbitrary
emission order is the same function applied to a model whose table lists are
permuted accordingly; the serialization theorems below quantify over such
permutations. -/
def Model.save (m : Model) : Str :=
  natDec m.max_suffix_size ++ 9 :: (if m.is_trimmed then [49] else [48]) ++ [10]
  ++ natDec m.lemcounts.length ++ [10]
  ++ saveFlat m.lemcounts
  ++ natDec m.infcounts.length ++ [10]
  ++ saveFlat m.infcounts
  ++ natDec m.replacements.length ++ [10]
  ++ saveReps m.replacements

/-- Is byte `c` an ASCII decimal digit? -/
def isDigit (c : Nat) : Bool := decide (48 ≤ c) && decide (c ≤ 57)

/-- Greedy digit run consumed by `%ld`, folded into a value. -/
def parseDigits : Str → Nat → Nat × Str
  | [], acc => (acc, [])
  | c :: rest, acc =>
    if isDigit c then parseDigits rest (acc * 10 + (c - 48)) else (acc, c :: rest)

/-- The `%ld` (and `%d`) conversion of `fscanf`: skip whitespace, optional
sign, at least one digit, greedy. -/
def parseLong (s : Str) : Option (Int × Str) :=
  match s.dropWhile isSpace with
  | [] => none
  | 43 :: rest =>
    match rest with
    | c :: _ => if isDigit c then some (((parseDigits rest 0).1 : Int), (parseDigits rest 0).2)
                else none
    | [] => none
  | 45 :: rest =>
    match rest with
    | c :: _ => if isDigit c then some (-((parseDigits rest 0).1 : Int), (parseDigits rest 0).2)
                else none
    | [] => none
  | c :: rest =>
    if isDigit c then some (((parseDigits (c :: rest) 0).1 : Int), (parseDigits (c :: rest) 0).2)
    else none

/-- Split off up to `fuel` leading non-tab bytes (the `%1024[^\t]` conversion
takes at most 1024 bytes). -/
def spanNonTab : Nat → Str → (Str × Str)
  | 0, s => ([], s)
  | _, [] => ([], [])
  | fuel + 1, c :: rest =>
    if c == 9 then ([], c :: rest)
    else
      let p := spanNonTab fuel rest
      (c :: p.1, p.2)

/-- The `%1024[^\t]` conversion of `fscanf`: fails when no byte matches. -/
def parseKeyField (s : Str) : Option (Str × Str) :=
  let p := spanNonTab 1024 s
  if p.1.isEmpty then none else some (p.1, p.2)

/-- Read `k` flat-table entries, replaying each through `app` as
`Model::load` does; each line is parsed with `%1024[^\t]\t%ld\t%ld%*[^\n]`
and the key is passed through `trim`. -/
def loadFlatEntries (app : Model → Str → Int → Int → Model) :
    Nat → Model → Str → Option (Model × Str)
  | 0, md, s => some (md, s)
  | k + 1, md, s =>
    match parseKeyField s with
    | none => none
    | some (key, s1) =>
      match parseLong s1 with
      | none => none
      | some (tp, s2) =>
        match parseLong s2 with
        | none => none
        | some (fp, s3) =>
          loadFlatEntries app k (app md (trimStr key) tp fp)
            (s3.dropWhile (fun c => c != 10))

/-- Read `k` outer replacement blocks (`%1024[^\t]\t%ld%*[^\n]` then the
inner entries). -/
def loadRepOuter : Nat → Model → Str → Option (Model × Str)
  | 0, md, s => some (md, s)
  | k + 1, md, s =>
    match parseKeyField s with
    | none => none
    | some (okey, s1) =>
      match parseLong s1 with
      | none => none
      | some (numl, s2) =>
        match loadFlatEntries
                (fun md lem tp fp => md.update_replacement (trimStr okey) lem tp fp)
                numl.toNat md (s2.dropWhile (fun c => c != 10)) with
        | none => none
        | some (md2, s3) => loadRepOuter k md2 s3

/-- `Model::load` of Model.cpp, reading from the given byte stream; `none`
models every thrown `runtime_error` (including the constructor's
`max_suffix_size` range check). -/
def Model.load (s : Str) : Option Model :=
  match parseLong s with
  | none => none
  | some (maxsuf, s1) =>
    match parseLong s1 with
    | none => none
    | some (tr, s2) =>
      if maxsuf < 1 ∨ 1024 < maxsuf then none else
      let md0 : Model :=
        { replacements := [], lemcounts := [], infcounts := [],
          max_suffix_size := maxsuf.toNat, is_trimmed := decide (tr ≠ 0) }
      match parseLong (s2.dropWhile (fun c => c == 10)) with
      | none => none
      | some (numlem, s4) =>
        match loadFlatEntries (fun md k tp fp => md.update_lemma k tp fp)
                numlem.toNat md0 (s4.dropWhile (fun c => c == 10)) with
        | none => none
        | some (md1, s5) =>
          match parseLong s5 with
          | none => none
          | some (numinf, s6) =>
            match loadFlatEntries (fun md k tp fp => md.update_inflected k tp fp)
                    numinf.toNat md1 (s6.dropWhile (fun c => c == 10)) with
            | none => none
            | some (md2, s7) =>
              match parseLong s7 with
              | none => none
              | some (numrep, s8) =>
                match loadRepOuter numrep.toNat md2
                        (s8.dropWhile (fun c => c == 10)) with
                | none => none
                | some (md3, _) => some md3

/-- Lookup with the default `(0, 0)` pair, for stating accumulation facts. -/
def getPair (t : FlatMap) (k : Str) : Counts := (alFind k t).getD (0, 0)

/-- Nested lookup with the default `(0, 0)` pair. -/
def getPair2 (t : RepMap) (k1 k2 : Str) : Counts :=
  ((alFind k1 t).bind (fun inner => alFind k2 inner)).getD (0, 0)

/-- Are the keys of an association list strictly ascending (the invariant of
the canonical sorted representation of an unordered table)? -/
def keysSortedB {α : Type} : List (Str × α) → Bool
  | [] => true
  | [_] => true
  | a :: b :: rest => strLt a.1 b.1 && keysSortedB (b :: rest)

/-- All three tables (and every inner replacement table) sorted. -/
def Model.sortedB (m : Model) : Bool :=
  keysSortedB m.lemcounts && keysSortedB m.infcounts && keysSortedB m.replacements &&
  m.replacements.all (fun e => keysSortedB e.2)

/-- All true-positive counts non-negative, the §3 data-model invariant. -/
def Model.tpNonneg (m : Model) : Bool :=
  m.lemcounts.all (fun e => decide (0 ≤ e.2.1)) &&
  m.infcounts.all (fun e => decide (0 ≤ e.2.1)) &&
  m.replacements.all (fun e => e.2.all (fun p => decide (0 ≤ p.2.1)))

/-- Is every byte either a recognized sequence-initial byte or a continuation
byte?  This characterizes the bytes the segmenter can step over. -/
def bytesOk (s : Str) : Bool := s.all (fun c => isStarter c || isCont c)

/-- One continuation byte expected by a two-byte sequence. -/
def utf8Cont1 : Str → Option Str
  | c1 :: r => if isCont c1 then some r else none
  | [] => none

/-- Two continuation bytes expected by a three-byte sequence. -/
def utf8Cont2 : Str → Option Str
  | c1 :: c2 :: r => if isCont c1 && isCont c2 then some r else none
  | _ => none

/-- Three continuation bytes expected by a four-byte sequence. -/
def utf8Cont3 : Str → Option Str
  | c1 :: c2 :: c3 :: r => if isCont c1 && isCont c2 && isCont c3 then some r else none
  | _ => none

/-- Consume one complete UTF-8 sequence, returning the remaining bytes. -/
def utf8Step : Str → Option Str
  | [] => none
  | c :: rest =>
    if c < 0x80 then some rest
    else if c < 0xC0 then none
    else if c < 0xE0 then utf8Cont1 rest
    else if c < 0xF0 then utf8Cont2 rest
    else if c < 0xF8 then utf8Cont3 rest
    else none

/-- Fuel-driven worker for UTF-8 validity. -/
def validUTF8Fuel : Nat → Str → Bool
  | _, [] => true
  | 0, _ :: _ => false
  | fuel + 1, c :: rest =>
    match utf8Step (c :: rest) with
    | some r => validUTF8Fuel fuel r
    | none => false

/-- Modelled from the spec: byte-pattern validity of UTF-8 (1- to 4-byte
sequences, each lead byte followed by the right number of continuation
bytes). -/
def ValidUTF8 (s : Str) : Bool := validUTF8Fuel s.length s

/-- Exact characterization of when `store_codepoints` fails: the first byte is
not sequence-initial, or a later byte matches neither an initial-byte
pattern nor the continuation pattern. -/
def segFails : Str → Bool
  | [] => false
  | c :: rest => !(isStarter c) || rest.any (fun b => !(isStarter b) && !(isCont b))

/-- Is a list of boundary offsets strictly increasing? -/
def strictIncrB : List Nat → Bool
  | [] => true
  | [_] => true
  | a :: b :: rest => decide (a < b) && strictIncrB (b :: rest)

/-- The bytes of `s` in offset range `[lo, hi)`. -/
def slice (s : Str) (lo hi : Nat) : Str := (s.drop lo).take (hi - lo)

/-- Modelled from the spec: the number of leading codepoints shared verbatim by
two strings, given their sentinel-appended boundary lists — consecutive
boundary pairs delimit a codepoint's byte span, and spans must agree
byte-exactly. -/
def sharedCount (a b : Str) : List Nat → List Nat → Nat
  | j1 :: j2 :: r1, k1 :: k2 :: r2 =>
    if slice a j1 j2 = slice b k1 k2 then sharedCount a b (j2 :: r1) (k2 :: r2) + 1
    else 0
  | _, _ => 0

/-- Fuel-driven worker for the descending index run. -/
def specDescendFuel : Nat → Nat → Nat → List Nat
  | 0, _, _ => []
  | fuel + 1, a, b =>
    if a < b then [] else if a = b then [a] else a :: specDescendFuel fuel (a - 1) b

/-- Descending run of indices from `a` down to `b` (empty when `a < b`), as the
spec phrases the training enumeration. -/
def specDescend (a b : Nat) : List Nat := specDescendFuel (a + 1) a b

/-- The trainer with its suffix-start enumeration abstracted, used to compare
`Model::update` against the spec's description of the index range. -/
def updateViaIndices (idx : Nat → Nat → List Nat) (m : Model)
    (inflected lemWord : Str) (count : Int) : Except SufErr Model :=
  if m.is_trimmed then .error .frozen else
  let inf := 36 :: inflected
  let lem := 36 :: lemWord
  match store_codepoints inf, store_codepoints lem with
  | some icp, some lcp =>
    let infcp := icp ++ [inf.length]
    let lemcp := lcp ++ [lem.length]
    let n := max infcp.length lemcp.length
    let pfx := common_prefix_size inf lem infcp lemcp
    .ok ((idx n m.max_suffix_size).foldl
          (trainStep inf lem infcp lemcp pfx count) m)
  | _, _ => .error .decoding

/-- Modelled from the spec (claim wording): suffix-start indices from `n-2`
down to `max (n - maxSuffixSize - 2) 0`. -/
def specIndicesClaimed (n maxsuf : Nat) : List Nat := specDescend (n - 2) (n - (maxsuf + 2))

/-- Suffix-start indices from `n-2` down to `max (n - maxSuffixSize - 1) 0`,
the bound the code actually uses. -/
def specIndicesFixed (n maxsuf : Nat) : List Nat := specDescend (n - 2) (n - (maxsuf + 1))

/-- Modelled from the spec: the scored candidates available at one suffix of
the marked word — present `inflectedCounts` entry, present nested
replacement entries, present `lemmaCounts` entries, scored
`(prBA * prA) / prB`; otherwise no candidates. -/
def specScoreList (md : Model) (infsuf : Str) : List (Str × Rat) :=
  match alFind infsuf md.infcounts, alFind infsuf md.replacements with
  | some bc, some inner =>
    inner.filterMap (fun cand =>
      (alFind cand.1 md.lemcounts).map (fun lc =>
        (cand.1, compute_prob cand.2 * compute_prob lc / compute_prob bc)))
  | _, _ => []

/-- Highest candidate score (at least 0). -/
def specBestScore (L : List (Str × Rat)) : Rat := (L.map (fun c => c.2)).foldl max 0

/-- Modelled from the spec: lemmatization as claimed — scan suffix-start
indices upward, stop at the first index where some candidate scores
strictly positively, answer with the fixed prefix plus the
highest-scoring candidate (first one on ties) minus the leading marker
byte; fall back to the unmodified input. -/
def specResult (md : Model) (inflected : Str) : Str :=
  let inf := trimStr (36 :: inflected)
  match store_codepoints inf with
  | none => inflected
  | some cp0 =>
    let cps := cp0 ++ [inf.length]
    match (List.range cps.length).find? (fun i =>
        (specScoreList md (inf.drop (cps.getD i 0))).any (fun c => decide (0 < c.2))) with
    | none => inflected
    | some i =>
      let L := specScoreList md (inf.drop (cps.getD i 0))
      match L.find? (fun c => decide (specBestScore L ≤ c.2)) with
      | none => inflected
      | some w => (inf.take (cps.getD i 0) ++ w.1).drop 1

/-- First candidate beating the running maximum `p`, with the running maximum
updated along the way; mirrors the best-tracking fold of the inner
candidate loop. -/
def pickBest (p : Rat) : List (Str × Rat) → Option (Str × Rat)
  | [] => none
  | c :: rest => if p < c.2 then some ((pickBest c.2 rest).getD c) else pickBest p rest

/-- The best-tracking step of the candidate loop on an already scored
candidate. -/
def bestStep (inf : Str) (cut : Nat) (acc : Rat × Str × Bool) (c : Str × Rat) :
    Rat × Str × Bool :=
  if acc.1 < c.2 then (c.2, inf.take cut ++ c.1, true) else acc

/-- A key the text format can carry faithfully: non-empty, at most 1023 bytes,
no tab or newline byte, and no whitespace byte at either end (the loader
passes every parsed key through `trim`). -/
def goodKey (k : Str) : Bool :=
  !k.isEmpty && decide (k.length ≤ 1023) &&
  k.all (fun c => c != 9 && c != 10) &&
  !(isSpace (k.headD 0)) && !(isSpace (k.getLastD 0))

/-- Every key of every table is format-safe. -/
def Model.goodKeys (m : Model) : Bool :=
  m.lemcounts.all (fun e => goodKey e.1) &&
  m.infcounts.all (fun e => goodKey e.1) &&
  m.replacements.all (fun e => goodKey e.1 && e.2.all (fun p => goodKey p.1))

/-- A model the serialization claim can quantify over: sorted tables,
format-safe keys, no empty inner replacement map (the loader recreates an
outer key only through its inner entries), and an in-range
`max_suffix_size`. -/
def Model.goodB (m : Model) : Bool :=
  m.sortedB && m.goodKeys && m.replacements.all (fun e => !e.2.isEmpty) &&
  decide (1 ≤ m.max_suffix_size) && decide (m.max_suffix_size ≤ 1024)

/-- Apply a list of keyed count additions to a flat table, left to right. -/
def applyOps : List (Str × Counts) → FlatMap → FlatMap
  | [], t => t
  | o :: ops, t => applyOps ops (alInsertWith (addC o.2) (0, 0) o.1 t)

/-- Total delta contributed at key `k` by a list of additions. -/
def opsSum (k : Str) : List (Str × Counts) → Counts
  | [] => (0, 0)
  | o :: ops => if o.1 = k then addC o.2 (opsSum k ops) else opsSum k ops

/-- Does some addition target key `k`? -/
def opsTouches (k : Str) (ops : List (Str × Counts)) : Bool :=
  ops.any (fun o => decide (o.1 = k))

/-- The flat-table additions performed by the training loop over the index
list: `(f i, (c, 0))` then `(g i, (0, c))` for each index. -/
def twoKeyOps (f g : Nat → Str) (c : Int) : List Nat → List (Str × Counts)
  | [] => []
  | i :: rest => (f i, (c, 0)) :: (g i, (0, c)) :: twoKeyOps f g c rest

/-- Apply a list of pair-keyed count additions to the nested table. -/
def applyOps2 : List ((Str × Str) × Counts) → RepMap → RepMap
  | [], t => t
  | o :: ops, t =>
    applyOps2 ops (alInsertWith (alInsertWith (addC o.2) (0, 0) o.1.2) [] o.1.1 t)

/-- Total delta contributed at a key pair. -/
def opsSum2 (k1 k2 : Str) : List ((Str × Str) × Counts) → Counts
  | [] => (0, 0)
  | o :: ops =>
    if o.1.1 = k1 ∧ o.1.2 = k2 then addC o.2 (opsSum2 k1 k2 ops) else opsSum2 k1 k2 ops

/-- Does some nested addition target the key pair? -/
def touches2 (k1 k2 : Str) (ops : List ((Str × Str) × Counts)) : Bool :=
  ops.any (fun o => decide (o.1.1 = k1 ∧ o.1.2 = k2))

/-- Does some nested addition target outer key `k1`? -/
def touchesOuter (k1 : Str) (ops : List ((Str × Str) × Counts)) : Bool :=
  ops.any (fun o => decide (o.1.1 = k1))

/-- The nested-table additions performed by the training loop. -/
def repOps (fI fL : Nat → Str) (pfx : Nat) (c : Int) : List Nat → List ((Str × Str) × Counts)
  | [] => []
  | i :: rest =>
    ((fI i, fL i), if i + 1 ≤ pfx then (c, 0) else (0, c)) :: repOps fI fL pfx c rest

/-- Option-valued nested lookup. -/
def getOpt2 (t : RepMap) (k1 k2 : Str) : Option Counts :=
  (alFind k1 t).bind (fun inner => alFind k2 inner)

/-- The empty model of a given `max_suffix_size`. -/
def emptyModel (k : Nat) : Model :=
  { replacements := [], lemcounts := [], infcounts := [],
    max_suffix_size := k, is_trimmed := false }

/-- The model obtained by training `("ab", "a", 1)` on a fresh store with
`max_suffix_size = 4`; its marked strings have different codepoint
counts. -/
def exTrainedAB : Model :=
  ((emptyModel 4).update [97, 98] [97] 1).toOption.getD (emptyModel 4)

/-- A frozen store used to exercise the update primitives after `trim`. -/
def exTrimmed : Model :=
  { replacements := [], lemcounts := [], infcounts := [],
    max_suffix_size := 4, is_trimmed := true }

/-- A small sorted store with format-safe keys. -/
def exGood : Model :=
  { replacements := [([98], [([99], (2, 1))]), ([100], [([101], (1, 0)), ([102], (0, 3))])],
    lemcounts := [([99], (2, 0))],
    infcounts := [([98], (2, 1)), ([100], (4, 0))],
    max_suffix_size := 4, is_trimmed := false }

/-- The same store with its tables listed in a different order: a second
admissible iteration order of the source's unordered containers. -/
def exGoodPerm : Model :=
  { replacements := [([100], [([102], (0, 3)), ([101], (1, 0))]), ([98], [([99], (2, 1))])],
    lemcounts := [([99], (2, 0))],
    infcounts := [([100], (4, 0)), ([98], (2, 1))],
    max_suffix_size := 4, is_trimmed := false }

/-- The model obtained by training `("a\tb", "a", 1)` on a fresh store: the
inflected word contains a tab byte, so several stored suffix keys embed a
tab. -/
def exTrainedTab : Model :=
  ((emptyModel 4).update [97, 9, 98] [97] 1).toOption.getD (emptyModel 4)

end Suflem

namespace Suflem

/-! Order lemmas for the canonical key comparison. -/

theorem strLt_irrefl (a : Str) : strLt a a = false := by
  induction a with
  | nil => rfl
  | cons c as ih => simp [strLt, ih]

theorem strLt_cons {x y : Nat} {as bs : Str} :
    strLt (x :: as) (y :: bs) = true ↔ (x < y ∨ (x = y ∧ strLt as bs = true)) := by
  simp only [strLt]
  by_cases h1 : x < y
  · simp [h1]
  · by_cases h2 : y < x
    · have hx : x ≠ y := by omega
      simp [h1, h2, hx]
    · have hx : x = y := by omega
      simp [h1, h2, hx]

theorem strLt_trans {a b c : Str} (h1 : strLt a b = true) (h2 : strLt b c = true) :
    strLt a c = true := by
  induction a generalizing b c with
  | nil =>
    cases b with
    | nil => simp [strLt] at h1
    | cons y bs =>
      cases c with
      | nil => simp [strLt] at h2
      | cons z cs => simp [strLt]
  | cons x as ih =>
    cases b with
    | nil => simp [strLt] at h1
    | cons y bs =>
      cases c with
      | nil => simp [strLt] at h2
      | cons z cs =>
        rw [strLt_cons] at h1 h2 ⊢
        rcases h1 with h1 | ⟨he1, h1⟩
        · rcases h2 with h2 | ⟨he2, h2⟩
          · exact Or.inl (by omega)
          · exact Or.inl (by omega)
        · rcases h2 with h2 | ⟨he2, h2⟩
          · exact Or.inl (by omega)
          · exact Or.inr ⟨by omega, ih h1 h2⟩

theorem strLt_total (a b : Str) : a = b ∨ strLt a b = true ∨ strLt b a = true := by
  induction a generalizing b with
  | nil =>
    cases b with
    | nil => exact Or.inl rfl
    | cons y bs => exact Or.inr (Or.inl (by simp [strLt]))
  | cons x as ih =>
    cases b with
    | nil => exact Or.inr (Or.inr (by simp [strLt]))
    | cons y bs =>
      by_cases hxy : x = y
      · subst hxy
        rcases ih bs with h | h | h
        · exact Or.inl (by rw [h])
        · exact Or.inr (Or.inl (strLt_cons.mpr (Or.inr ⟨rfl, h⟩)))
        · exact Or.inr (Or.inr (strLt_cons.mpr (Or.inr ⟨rfl, h⟩)))
      · by_cases hlt : x < y
        · exact Or.inr (Or.inl (strLt_cons.mpr (Or.inl hlt)))
        · exact Or.inr (Or.inr (strLt_cons.mpr (Or.inl (by omega))))

theorem strLt_ne {a b : Str} (h : strLt a b = true) : a ≠ b := by
  intro he
  subst he
  rw [strLt_irrefl] at h
  exact Bool.false_ne_true h

/-! Sortedness as `Pairwise`. -/

theorem keysSortedB_pairwise {α : Type} {t : List (Str × α)} (h : keysSortedB t = true) :
    List.Pairwise (fun a b => strLt a.1 b.1 = true) t := by
  induction t with
  | nil => exact List.Pairwise.nil
  | cons a t ih =>
    cases t with
    | nil => simp
    | cons b t' =>
      rw [keysSortedB, Bool.and_eq_true] at h
      have hp := ih h.2
      refine List.Pairwise.cons ?_ hp
      intro x hx
      rcases List.mem_cons.mp hx with rfl | hx'
      · exact h.1
      · exact strLt_trans h.1 (List.rel_of_pairwise_cons hp hx')

theorem pairwise_keysSortedB {α : Type} {t : List (Str × α)}
    (h : List.Pairwise (fun a b => strLt a.1 b.1 = true) t) : keysSortedB t = true := by
  induction t with
  | nil => rfl
  | cons a t ih =>
    cases t with
    | nil => rfl
    | cons b t' =>
      rw [List.pairwise_cons] at h
      rw [keysSortedB, Bool.and_eq_true]
      exact ⟨h.1 b (by simp), ih h.2⟩

/-! Lookup and insertion lemmas for the map model. -/

theorem alFind_cons {α : Type} (k k' : Str) (v : α) (t : List (Str × α)) :
    alFind k ((k', v) :: t) = if k = k' then some v else alFind k t := rfl

theorem alFind_eq_none {α : Type} {t : List (Str × α)} {k : Str}
    (h : ∀ e ∈ t, e.1 ≠ k) : alFind k t = none := by
  induction t with
  | nil => rfl
  | cons e t ih =>
    obtain ⟨k0, v⟩ := e
    rw [alFind_cons, if_neg (fun he => h (k0, v) (by simp) (by simp [he.symm]))]
    exact ih (fun e he => h e (List.mem_cons_of_mem _ he))

theorem alFind_insert_other {α : Type} (f : α → α) (v0 : α) (k k' : Str)
    (t : List (Str × α)) (hne : k' ≠ k) :
    alFind k' (alInsertWith f v0 k t) = alFind k' t := by
  induction t with
  | nil => simp [alInsertWith, alFind_cons, hne, alFind]
  | cons e t ih =>
    obtain ⟨k0, v⟩ := e
    rw [alInsertWith]
    by_cases h1 : strLt k k0 = true
    · rw [if_pos h1, alFind_cons, if_neg hne]
    · rw [if_neg h1]
      by_cases h2 : k = k0
      · rw [if_pos h2, alFind_cons, alFind_cons, ← h2, if_neg hne, if_neg hne]
      · rw [if_neg h2, alFind_cons, alFind_cons, ih]

theorem alFind_insert_self {α : Type} (f : α → α) (v0 : α) (k : Str)
    {t : List (Str × α)} (hs : List.Pairwise (fun a b => strLt a.1 b.1 = true) t) :
    alFind k (alInsertWith f v0 k t) = some (f ((alFind k t).getD v0)) := by
  induction t with
  | nil => simp [alInsertWith, alFind_cons, alFind]
  | cons e t ih =>
    obtain ⟨k0, v⟩ := e
    rw [List.pairwise_cons] at hs
    rw [alInsertWith]
    by_cases h1 : strLt k k0 = true
    · rw [if_pos h1, alFind_cons, if_pos rfl]
      have hne : k ≠ k0 := strLt_ne h1
      have hnone : alFind k t = none :=
        alFind_eq_none (fun e he => Ne.symm (strLt_ne (strLt_trans h1 (hs.1 e he))))
      rw [alFind_cons, if_neg hne, hnone]
      rfl
    · rw [if_neg h1]
      by_cases h2 : k = k0
      · rw [if_pos h2, alFind_cons, if_pos h2, alFind_cons, if_pos h2]
        rfl
      · rw [if_neg h2, alFind_cons, if_neg h2, alFind_cons, if_neg h2]
        exact ih hs.2

theorem mem_alInsertWith {α : Type} {f : α → α} {v0 : α} {k : Str}
    {t : List (Str × α)} {e : Str × α} (he : e ∈ alInsertWith f v0 k t) :
    e.1 = k ∨ e ∈ t := by
  induction t with
  | nil =>
    simp only [alInsertWith, List.mem_singleton] at he
    exact Or.inl (by rw [he])
  | cons a t ih =>
    obtain ⟨k0, v⟩ := a
    rw [alInsertWith] at he
    by_cases h1 : strLt k k0 = true
    · rw [if_pos h1] at he
      rcases List.mem_cons.mp he with rfl | he'
      · exact Or.inl rfl
      · exact Or.inr he'
    · rw [if_neg h1] at he
      by_cases h2 : k = k0
      · rw [if_pos h2] at he
        rcases List.mem_cons.mp he with rfl | he'
        · exact Or.inl h2.symm
        · exact Or.inr (List.mem_cons_of_mem _ he')
      · rw [if_neg h2] at he
        rcases List.mem_cons.mp he with rfl | he'
        · exact Or.inr (by simp)
        · rcases ih he' with h | h
          · exact Or.inl h
          · exact Or.inr (List.mem_cons_of_mem _ h)

theorem pairwise_alInsertWith {α : Type} {f : α → α} {v0 : α} {k : Str}
    {t : List (Str × α)} (hs : List.Pairwise (fun a b => strLt a.1 b.1 = true) t) :
    List.Pairwise (fun a b => strLt a.1 b.1 = true) (alInsertWith f v0 k t) := by
  induction t with
  | nil => simp [alInsertWith]
  | cons a t ih =>
    obtain ⟨k0, v⟩ := a
    rw [List.pairwise_cons] at hs
    rw [alInsertWith]
    by_cases h1 : strLt k k0 = true
    · rw [if_pos h1]
      refine List.Pairwise.cons ?_ (List.Pairwise.cons hs.1 hs.2)
      intro e he
      rcases List.mem_cons.mp he with rfl | he'
      · exact h1
      · exact strLt_trans h1 (hs.1 e he')
    · rw [if_neg h1]
      by_cases h2 : k = k0
      · rw [if_pos h2]
        exact List.Pairwise.cons hs.1 hs.2
      · rw [if_neg h2]
        refine List.Pairwise.cons ?_ (ih hs.2)
        intro e he
        rcases mem_alInsertWith he with h | h
        · rw [h]
          rcases strLt_total k k0 with h' | h' | h'
          · exact absurd h' h2
          · exact absurd h' h1
          · exact h'
        · exact hs.1 e h

theorem alExt {α : Type} : ∀ {t u : List (Str × α)},
    List.Pairwise (fun a b => strLt a.1 b.1 = true) t →
    List.Pairwise (fun a b => strLt a.1 b.1 = true) u →
    (∀ k, alFind k t = alFind k u) → t = u
  | [], [], _, _, _ => rfl
  | [], (k, v) :: u, _, _, h => by
    have := h k
    rw [alFind_cons, if_pos rfl] at this
    exact absurd this (by simp [alFind])
  | (k, v) :: t, [], _, _, h => by
    have := h k
    rw [alFind_cons, if_pos rfl] at this
    exact absurd this (by simp [alFind])
  | (k, v) :: t, (k2, v2) :: u, ht, hu, h => by
    rw [List.pairwise_cons] at ht hu
    have hkk : k = k2 := by
      rcases strLt_total k k2 with he | hlt | hgt
      · exact he
      · exfalso
        have h1 := h k
        rw [alFind_cons, if_pos rfl, alFind_cons, if_neg (strLt_ne hlt)] at h1
        have : alFind k u = none :=
          alFind_eq_none (fun e he => Ne.symm (strLt_ne (strLt_trans hlt (hu.1 e he))))
        rw [this] at h1
        exact Option.noConfusion h1
      · exfalso
        have h1 := h k2
        rw [alFind_cons, if_neg (strLt_ne hgt), alFind_cons, if_pos rfl] at h1
        have : alFind k2 t = none :=
          alFind_eq_none (fun e he => Ne.symm (strLt_ne (strLt_trans hgt (ht.1 e he))))
        rw [this] at h1
        exact Option.noConfusion h1
    subst hkk
    have hvv : v = v2 := by
      have h1 := h k
      rw [alFind_cons, if_pos rfl, alFind_cons, if_pos rfl] at h1
      exact Option.some.inj h1
    subst hvv
    have htail : t = u := by
      refine alExt ht.2 hu.2 (fun k' => ?_)
      by_cases hk' : k' = k
      · subst hk'
        rw [alFind_eq_none (fun e he => Ne.symm (strLt_ne (ht.1 e he))),
          alFind_eq_none (fun e he => Ne.symm (strLt_ne (hu.1 e he)))]
      · have h1 := h k'
        rw [alFind_cons, if_neg hk', alFind_cons, if_neg hk'] at h1
        exact h1
    rw [htail]

theorem alFind_mem {α : Type} : ∀ {t : List (Str × α)} {k : Str} {v : α},
    alFind k t = some v → (k, v) ∈ t
  | [], _, _, h => by exact Option.noConfusion h
  | (k0, v0) :: t, k, v, h => by
    rw [alFind_cons] at h
    by_cases he : k = k0
    · rw [if_pos he] at h
      rw [he, Option.some.inj h]
      simp
    · rw [if_neg he] at h
      exact List.mem_cons_of_mem _ (alFind_mem h)

/-- Split `Model.sortedB` into its four components. -/
theorem sortedB_parts {m : Model} (h : m.sortedB = true) :
    keysSortedB m.lemcounts = true ∧ keysSortedB m.infcounts = true ∧
    keysSortedB m.replacements = true ∧ ∀ e ∈ m.replacements, keysSortedB e.2 = true := by
  rw [Model.sortedB, Bool.and_eq_true, Bool.and_eq_true, Bool.and_eq_true] at h
  refine ⟨h.1.1.1, h.1.1.2, h.1.2, fun e he => ?_⟩
  exact List.all_eq_true.mp h.2 e he

/-- C7 counterexample: the three update primitives succeed and mutate a store
whose `isTrimmed` flag is set, instead of failing with `FrozenModelError`. -/
theorem C7_counterexample :
    exTrimmed.is_trimmed = true ∧
    (exTrimmed.update_lemma [97] 1 0).lemcounts = [([97], (1, 0))] ∧
    (exTrimmed.update_inflected [97] 1 0).infcounts = [([97], (1, 0))] ∧
    (exTrimmed.update_replacement [97] [98] 1 0).replacements = [([97], [([98], (1, 0))])] := by
  decide

/-- C7 amended: `update_replacement`, `update_inflected` and `update_lemma`
additively accumulate into the corresponding table entry (creating it with
zero counts if absent) regardless of `isTrimmed`; the `FrozenModelError`
rejection of a trimmed store is performed by `Model::update`, not by the
primitives. -/
theorem C7_amended (m : Model) (k k2 : Str) (tp fp : Int) (hs : m.sortedB = true) :
    (alFind k (m.update_lemma k tp fp).lemcounts = some (addC (tp, fp) (getPair m.lemcounts k))
      ∧ (∀ k', k' ≠ k → alFind k' (m.update_lemma k tp fp).lemcounts = alFind k' m.lemcounts)
      ∧ (m.update_lemma k tp fp).is_trimmed = m.is_trimmed)
    ∧ (alFind k (m.update_inflected k tp fp).infcounts = some (addC (tp, fp) (getPair m.infcounts k))
      ∧ (∀ k', k' ≠ k → alFind k' (m.update_inflected k tp fp).infcounts = alFind k' m.infcounts)
      ∧ (m.update_inflected k tp fp).is_trimmed = m.is_trimmed)
    ∧ (getPair2 (m.update_replacement k k2 tp fp).replacements k k2
        = addC (tp, fp) (getPair2 m.replacements k k2)
      ∧ (m.update_replacement k k2 tp fp).is_trimmed = m.is_trimmed)
    ∧ (∀ inflected lemWord c, m.is_trimmed = true →
        m.update inflected lemWord c = Except.error SufErr.frozen) := by
  obtain ⟨hl, hi, hr, hr2⟩ := sortedB_parts hs
  refine ⟨⟨?_, ?_, rfl⟩, ⟨?_, ?_, rfl⟩, ⟨?_, rfl⟩, ?_⟩
  · exact alFind_insert_self _ _ _ (keysSortedB_pairwise hl)
  · intro k' hne
    exact alFind_insert_other _ _ _ _ _ hne
  · exact alFind_insert_self _ _ _ (keysSortedB_pairwise hi)
  · intro k' hne
    exact alFind_insert_other _ _ _ _ _ hne
  · have houter :
        alFind k (m.update_replacement k k2 tp fp).replacements
          = some (alInsertWith (addC (tp, fp)) (0, 0) k2 ((alFind k m.replacements).getD [])) :=
      alFind_insert_self _ _ _ (keysSortedB_pairwise hr)
    have hinner : List.Pairwise (fun a b => strLt a.1 b.1 = true)
        ((alFind k m.replacements).getD []) := by
      cases hfind : alFind k m.replacements with
      | none => simp
      | some inner =>
        simp only [Option.getD_some]
        exact keysSortedB_pairwise (hr2 _ (alFind_mem hfind))
    have hbase : (alFind k2 ((alFind k m.replacements).getD [])).getD (0, 0)
        = getPair2 m.replacements k k2 := by
      cases hfind : alFind k m.replacements with
      | none => simp [getPair2, hfind, alFind]
      | some inner => simp [getPair2, hfind]
    rw [getPair2, houter]
    simp only [Option.some_bind]
    rw [alFind_insert_self _ _ _ hinner, Option.getD_some, hbase]
  · intro inflected lemWord c htr
    rw [Model.update, if_pos htr]

/-- C6: `trim` is a guarded no-op on an already trimmed store, sets the flag,
is idempotent, and on an untrimmed store keeps exactly the entries with
non-zero true-positive count (dropping emptied outer replacement keys);
with the data-model invariant that counts are non-negative, every
surviving entry has strictly positive `tp`. -/
theorem C6_trim (m : Model) (hnn : m.tpNonneg = true) :
    (m.is_trimmed = true → m.trim = m)
    ∧ m.trim.is_trimmed = true
    ∧ m.trim.trim = m.trim
    ∧ (m.is_trimmed = false →
        ((∀ e, e ∈ m.trim.lemcounts ↔ (e ∈ m.lemcounts ∧ e.2.1 ≠ 0))
        ∧ (∀ e, e ∈ m.trim.infcounts ↔ (e ∈ m.infcounts ∧ e.2.1 ≠ 0))
        ∧ (∀ e, e ∈ m.trim.replacements ↔
            (∃ inner0, (e.1, inner0) ∈ m.replacements
              ∧ e.2 = inner0.filter (fun p => decide (p.2.1 ≠ 0)) ∧ e.2 ≠ []))
        ∧ (∀ e ∈ m.trim.lemcounts, 0 < e.2.1)
        ∧ (∀ e ∈ m.trim.infcounts, 0 < e.2.1)
        ∧ (∀ e ∈ m.trim.replacements, ∀ p ∈ e.2, 0 < p.2.1))) := by
  rw [Model.tpNonneg, Bool.and_eq_true, Bool.and_eq_true] at hnn
  have hguard : ∀ m' : Model, m'.is_trimmed = true → m'.trim = m' := by
    intro m' h
    rw [Model.trim, if_pos h]
  refine ⟨hguard m, ?_, ?_, ?_⟩
  · by_cases h : m.is_trimmed = true
    · rw [hguard m h]; exact h
    · rw [Model.trim, if_neg h]
  · by_cases h : m.is_trimmed = true
    · rw [hguard m h]
      exact hguard m h
    · apply hguard
      rw [Model.trim, if_neg h]
  · intro hfalse
    have hne : ¬ (m.is_trimmed = true) := by rw [hfalse]; exact Bool.false_ne_true
    rw [Model.trim, if_neg hne]
    refine ⟨?_, ?_, ?_, ?_, ?_, ?_⟩
    · intro e
      simp only [List.mem_filter, decide_eq_true_eq]
    · intro e
      simp only [List.mem_filter, decide_eq_true_eq]
    · intro e
      simp only [List.mem_filter, List.mem_map, Bool.not_eq_true']
      constructor
      · rintro ⟨⟨e0, he0, rfl⟩, hne'⟩
        refine ⟨e0.2, he0, rfl, ?_⟩
        intro hnil
        rw [hnil] at hne'
        exact Bool.noConfusion hne'
      · rintro ⟨inner0, hmem, heq, hnonnil⟩
        obtain ⟨k1, inner1⟩ := e
        simp only at heq
        subst heq
        refine ⟨⟨(k1, inner0), hmem, rfl⟩, ?_⟩
        simpa using hnonnil
    · intro e he
      rw [List.mem_filter, decide_eq_true_eq] at he
      have h0 := List.all_eq_true.mp hnn.1.1 e he.1
      rw [decide_eq_true_eq] at h0
      omega
    · intro e he
      rw [List.mem_filter, decide_eq_true_eq] at he
      have h0 := List.all_eq_true.mp hnn.1.2 e he.1
      rw [decide_eq_true_eq] at h0
      omega
    · intro e he p hp
      rw [List.mem_filter] at he
      obtain ⟨e0, he0, heq⟩ := List.mem_map.mp he.1
      subst heq
      simp only [List.mem_filter, decide_eq_true_eq] at hp
      have h0 := List.all_eq_true.mp hnn.2 e0 he0
      have h1 := List.all_eq_true.mp h0 p hp.1
      rw [decide_eq_true_eq] at h1
      omega

/-- C10: training `("ab", "a", 1)` — marked strings with different codepoint
counts — records the empty string as a key in both flat tables, with
strictly positive `tp` in the lemma table, and that key survives
`trim()`. -/
theorem C10_emptySuffixKeys :
    ((emptyModel 4).update [97, 98] [97] 1).toOption = some exTrainedAB
    ∧ alFind [] exTrainedAB.lemcounts = some (1, 0)
    ∧ (0 : Int) < (1 : Int)
    ∧ alFind [] exTrainedAB.infcounts = some (0, 1)
    ∧ alFind [] exTrainedAB.trim.lemcounts = some (1, 0) := by
  decide

/-- C7 amended witness: concrete sorted store, the lemma-table primitive
accumulates while nothing rejects. -/
theorem C7_amended_witness :
    exGood.sortedB = true ∧
    alFind [99] (exGood.update_lemma [99] 2 3).lemcounts
      = some (addC (2, 3) (getPair exGood.lemcounts [99])) :=
  ⟨by decide, (C7_amended exGood [99] [100] 2 3 (by decide)).1.1⟩

/-- C6 witness: the trained example store is non-negative, and its trim sets
the flag and is idempotent. -/
theorem C6_trim_witness :
    exTrainedAB.tpNonneg = true ∧ exTrainedAB.trim.is_trimmed = true ∧
    exTrainedAB.trim.trim = exTrainedAB.trim :=
  ⟨by decide, (C6_trim exTrainedAB (by decide)).2.1, (C6_trim exTrainedAB (by decide)).2.2.1⟩

/-! The training index range (claim C5). -/

theorem specDescendFuel_eq (fuel : Nat) : ∀ a b : Nat, a < b + fuel →
    specDescendFuel fuel a b = (List.range' b (a + 1 - b)).reverse := by
  induction fuel with
  | zero =>
    intro a b h
    have h0 : a + 1 - b = 0 := by omega
    rw [h0]
    rfl
  | succ fuel ih =>
    intro a b h
    rw [specDescendFuel]
    by_cases h1 : a < b
    · rw [if_pos h1]
      have h0 : a + 1 - b = 0 := by omega
      rw [h0]
      rfl
    · rw [if_neg h1]
      by_cases h2 : a = b
      · rw [if_pos h2]
        subst h2
        have h0 : a + 1 - a = 1 := by omega
        rw [h0]
        rfl
      · rw [if_neg h2]
        rw [ih (a - 1) b (by omega)]
        have h3 : a - 1 + 1 - b = a - b := by omega
        have h4 : a + 1 - b = (a - b) + 1 := by omega
        rw [h3, h4, List.range'_concat]
        rw [List.reverse_append]
        have h5 : b + 1 * (a - b) = a := by omega
        rw [h5]
        rfl

theorem specDescend_eq_range' (a b : Nat) :
    specDescend a b = (List.range' b (a + 1 - b)).reverse :=
  specDescendFuel_eq (a + 1) a b (by omega)

theorem trainIndices_eq_fixed (n maxsuf : Nat) (h : 2 ≤ n) :
    trainIndices n maxsuf = specIndicesFixed n maxsuf := by
  rw [trainIndices, specIndicesFixed, specDescend_eq_range']
  have heq : n - 2 + 1 - (n - (maxsuf + 1)) = n - 1 - (n - (maxsuf + 1)) := by omega
  rw [heq]

theorem store_codepoints_marked {x : Str} {v : List Nat}
    (h : store_codepoints (36 :: x) = some v) : ∃ v', v = 0 :: v' := by
  rw [store_codepoints, storeCpAux] at h
  rw [if_pos (by rfl : isStarter 36 = true)] at h
  cases hx : storeCpAux x 1 with
  | none => rw [hx] at h; exact Option.noConfusion h
  | some v1 =>
    rw [hx] at h
    exact ⟨v1, (Option.some.inj h).symm⟩

/-- C5 counterexample: with `max_suffix_size = 1` and marked strings of 4 and
3 boundary entries (`n = 4`), the code enumerates only index 2, while the
claimed lower bound `max(n - maxSuffixSize - 2, 0) = 1` would also visit
index 1 and record four lemma-table keys instead of two. -/
theorem C5_counterexample :
    trainIndices 4 1 = [2]
    ∧ specIndicesClaimed 4 1 = [2, 1]
    ∧ ((emptyModel 1).update [97, 98] [97] 1).toOption.map (fun m => m.lemcounts.length)
        = some 2
    ∧ (updateViaIndices specIndicesClaimed (emptyModel 1) [97, 98] [97] 1).toOption.map
        (fun m => m.lemcounts.length) = some 4 := by
  decide

/-- C5 amended: the trainer enumerates `i` from `n-2` down to
`max (n - maxSuffixSize - 1) 0` inclusive (not `- 2`), with each suffix cut
at the boundary with index `min (L - 1) i` of the sentinel-appended
boundary list of length `L`. -/
theorem C5_amended (m : Model) (inflected lemWord : Str) (count : Int) :
    m.update inflected lemWord count
      = updateViaIndices specIndicesFixed m inflected lemWord count := by
  rw [Model.update, updateViaIndices]
  by_cases ht : m.is_trimmed = true
  · rw [if_pos ht, if_pos ht]
  · rw [if_neg ht, if_neg ht]
    cases hi : store_codepoints (36 :: inflected) with
    | none => simp only [hi]
    | some icp =>
      cases hl : store_codepoints (36 :: lemWord) with
      | none => simp only [hi, hl]
      | some lcp =>
        simp only [hi, hl]
        obtain ⟨v', hv⟩ := store_codepoints_marked hi
        rw [trainIndices_eq_fixed]
        subst hv
        simp only [List.length_append, List.length_cons, List.length_singleton]
        omega

/-! The segmenter (claim C9). -/

theorem isStarter_ascii {c : Nat} (h : c < 0x80) : isStarter c = true := by
  have h7 : c >>> 7 = 0 := by
    rw [Nat.shiftRight_eq_div_pow]
    exact Nat.div_eq_of_lt (by omega)
  rw [isStarter, h7]
  rfl

theorem isStarter_lead2 {c : Nat} (h1 : 0xC0 ≤ c) (h2 : c < 0xE0) : isStarter c = true := by
  have h5 : c >>> 5 = 6 := by
    rw [Nat.shiftRight_eq_div_pow]
    exact Nat.div_eq_of_lt_le (by omega) (by omega)
  rw [isStarter, h5]
  simp

theorem isStarter_lead3 {c : Nat} (h1 : 0xE0 ≤ c) (h2 : c < 0xF0) : isStarter c = true := by
  have h4 : c >>> 4 = 14 := by
    rw [Nat.shiftRight_eq_div_pow]
    exact Nat.div_eq_of_lt_le (by omega) (by omega)
  rw [isStarter, h4]
  simp

theorem isStarter_lead4 {c : Nat} (h1 : 0xF0 ≤ c) (h2 : c < 0xF8) : isStarter c = true := by
  have h3 : c >>> 3 = 30 := by
    rw [Nat.shiftRight_eq_div_pow]
    exact Nat.div_eq_of_lt_le (by omega) (by omega)
  rw [isStarter, h3]
  simp

/-- A successful `utf8Step` splits off a non-empty block of segmentable bytes
whose first byte is sequence-initial. -/
theorem utf8Step_props {s r : Str} (h : utf8Step s = some r) :
    ∃ pre, s = pre ++ r ∧ 0 < pre.length ∧ bytesOk pre = true
      ∧ isStarter (pre.headD 0) = true := by
  cases s with
  | nil => exact Option.noConfusion h
  | cons c rest =>
    rw [utf8Step] at h
    by_cases h1 : c < 0x80
    · rw [if_pos h1] at h
      refine ⟨[c], ?_, by simp, ?_, ?_⟩
      · rw [Option.some.inj h]
        rfl
      · rw [bytesOk, List.all_cons, isStarter_ascii h1]
        rfl
      · simpa using isStarter_ascii h1
    · rw [if_neg h1] at h
      by_cases h2 : c < 0xC0
      · rw [if_pos h2] at h
        exact Option.noConfusion h
      · rw [if_neg h2] at h
        by_cases h3 : c < 0xE0
        · rw [if_pos h3] at h
          cases rest with
          | nil => exact Option.noConfusion h
          | cons c1 r1 =>
            rw [utf8Cont1] at h
            by_cases hc1 : isCont c1 = true
            · rw [if_pos hc1] at h
              refine ⟨[c, c1], ?_, by simp, ?_, ?_⟩
              · rw [Option.some.inj h]
                rfl
              · rw [bytesOk, List.all_cons, List.all_cons,
                  isStarter_lead2 (by omega) (by omega), hc1]
                simp
              · simpa using isStarter_lead2 (by omega) (by omega)
            · rw [if_neg hc1] at h
              exact Option.noConfusion h
        · rw [if_neg h3] at h
          by_cases h4 : c < 0xF0
          · rw [if_pos h4] at h
            cases rest with
            | nil => exact Option.noConfusion h
            | cons c1 rest1 =>
              cases rest1 with
              | nil => exact Option.noConfusion h
              | cons c2 r2 =>
                rw [utf8Cont2] at h
                by_cases hc12 : (isCont c1 && isCont c2) = true
                · rw [if_pos hc12] at h
                  rw [Bool.and_eq_true] at hc12
                  refine ⟨[c, c1, c2], ?_, by simp, ?_, ?_⟩
                  · rw [Option.some.inj h]
                    rfl
                  · rw [bytesOk, List.all_cons, List.all_cons, List.all_cons,
                      isStarter_lead3 (by omega) (by omega), hc12.1, hc12.2]
                    simp
                  · simpa using isStarter_lead3 (by omega) (by omega)
                · rw [if_neg hc12] at h
                  exact Option.noConfusion h
          · rw [if_neg h4] at h
            by_cases h5 : c < 0xF8
            · rw [if_pos h5] at h
              cases rest with
              | nil => exact Option.noConfusion h
              | cons c1 rest1 =>
                cases rest1 with
                | nil => exact Option.noConfusion h
                | cons c2 rest2 =>
                  cases rest2 with
                  | nil => exact Option.noConfusion h
                  | cons c3 r3 =>
                    rw [utf8Cont3] at h
                    by_cases hc123 : (isCont c1 && isCont c2 && isCont c3) = true
                    · rw [if_pos hc123] at h
                      rw [Bool.and_eq_true, Bool.and_eq_true] at hc123
                      refine ⟨[c, c1, c2, c3], ?_, by simp, ?_, ?_⟩
                      · rw [Option.some.inj h]
                        rfl
                      · rw [bytesOk, List.all_cons, List.all_cons, List.all_cons,
                          List.all_cons, isStarter_lead4 (by omega) (by omega),
                          hc123.1.1, hc123.1.2, hc123.2]
                        simp
                      · simpa using isStarter_lead4 (by omega) (by omega)
                    · rw [if_neg hc123] at h
                      exact Option.noConfusion h
            · rw [if_neg h5] at h
              exact Option.noConfusion h

theorem validUTF8Fuel_bytesOk : ∀ (fuel : Nat) (s : Str),
    validUTF8Fuel fuel s = true → bytesOk s = true := by
  intro fuel
  induction fuel with
  | zero =>
    intro s h
    cases s with
    | nil => rfl
    | cons c rest => exact Bool.noConfusion h
  | succ fuel ih =>
    intro s h
    cases s with
    | nil => rfl
    | cons c rest =>
      rw [validUTF8Fuel] at h
      cases hstep : utf8Step (c :: rest) with
      | none =>
        rw [hstep] at h
        exact Bool.noConfusion h
      | some r =>
        rw [hstep] at h
        obtain ⟨pre, hpre, hlen, hok, hhd⟩ := utf8Step_props hstep
        have hr := ih r h
        rw [hpre, bytesOk, List.all_append]
        rw [bytesOk] at hok hr
        rw [hok, hr]
        rfl

theorem validUTF8_bytesOk {s : Str} (h : ValidUTF8 s = true) : bytesOk s = true :=
  validUTF8Fuel_bytesOk s.length s h

theorem validUTF8_headStarter {c : Nat} {rest : Str}
    (h : ValidUTF8 (c :: rest) = true) : isStarter c = true := by
  rw [ValidUTF8, List.length_cons, validUTF8Fuel] at h
  cases hstep : utf8Step (c :: rest) with
  | none =>
    rw [hstep] at h
    exact Bool.noConfusion h
  | some r =>
    obtain ⟨pre, hpre, hlen, hok, hhd⟩ := utf8Step_props hstep
    cases pre with
    | nil => simp at hlen
    | cons p0 ptail =>
      have hp0 : p0 = c := by
        have := congrArg (fun l => l.headD 0) hpre
        simpa using this.symm
      rw [← hp0]
      simpa using hhd

theorem bytesOk_noBad {s : Str} (h : bytesOk s = true) :
    s.any (fun b => !(isStarter b) && !(isCont b)) = false := by
  induction s with
  | nil => rfl
  | cons c rest ih =>
    rw [bytesOk, List.all_cons, Bool.and_eq_true] at h
    rw [List.any_cons, ih h.2, Bool.or_false]
    have h1 := h.1
    rw [Bool.or_eq_true] at h1
    rcases h1 with hs | hc
    · rw [hs]
      rfl
    · rw [hc]
      simp

theorem storeCpAux_pos_none : ∀ {s : Str} {i0 : Nat}, 0 < i0 →
    (storeCpAux s i0 = none ↔ s.any (fun b => !(isStarter b) && !(isCont b)) = true) := by
  intro s
  induction s with
  | nil =>
    intro i0 _
    constructor
    · intro h
      exact Option.noConfusion h
    · intro h
      exact Bool.noConfusion h
  | cons c rest ih =>
    intro i0 hi0
    rw [storeCpAux, List.any_cons]
    by_cases hs : isStarter c = true
    · rw [if_pos hs, hs]
      simp only [Bool.not_true, Bool.false_and, Bool.false_or]
      cases hx : storeCpAux rest (i0 + 1) with
      | none =>
        rw [← ih (by omega : 0 < i0 + 1), hx]
      | some v1 =>
        constructor
        · intro h
          exact Option.noConfusion h
        · intro h
          rw [← ih (by omega : 0 < i0 + 1), hx] at h
          exact Option.noConfusion h
    · rw [if_neg hs]
      have hi0' : (i0 != 0) = true := by
        rw [bne_iff_ne]
        omega
      by_cases hc : isCont c = true
      · have hcond : (isCont c && i0 != 0) = true := by
          rw [hc, hi0']
          rfl
        rw [if_pos hcond]
        rw [Bool.not_eq_true] at hs
        rw [hs, hc]
        simp only [Bool.not_false, Bool.true_and, Bool.not_true, Bool.false_or]
        exact ih (by omega)
      · have hcond : ¬ ((isCont c && i0 != 0) = true) := by
          rw [Bool.not_eq_true] at hc
          rw [hc]
          simp
        rw [if_neg hcond]
        rw [Bool.not_eq_true] at hs hc
        rw [hs, hc]
        simp

theorem store_codepoints_none_iff (s : Str) :
    store_codepoints s = none ↔ segFails s = true := by
  cases s with
  | nil =>
    rw [store_codepoints, storeCpAux, segFails]
    constructor
    · intro h
      exact Option.noConfusion h
    · intro h
      exact Bool.noConfusion h
  | cons c rest =>
    rw [store_codepoints, storeCpAux, segFails]
    by_cases hs : isStarter c = true
    · rw [if_pos hs, hs]
      simp only [Bool.not_true, Bool.false_or]
      cases hx : storeCpAux rest 1 with
      | none =>
        rw [← storeCpAux_pos_none (by omega : (0:Nat) < 1), hx]
      | some v1 =>
        constructor
        · intro h
          exact Option.noConfusion h
        · intro h
          rw [← storeCpAux_pos_none (by omega : (0:Nat) < 1), hx] at h
          exact Option.noConfusion h
    · rw [if_neg hs]
      have hcond : ¬ ((isCont c && (0:Nat) != 0) = true) := by
        simp
      rw [if_neg hcond]
      rw [Bool.not_eq_true] at hs
      rw [hs]
      simp

theorem storeCpAux_bounds : ∀ {s : Str} {i0 : Nat} {v : List Nat},
    storeCpAux s i0 = some v →
    List.Pairwise (· < ·) v ∧ ∀ x ∈ v, i0 ≤ x ∧ x < i0 + s.length := by
  intro s
  induction s with
  | nil =>
    intro i0 v h
    rw [storeCpAux] at h
    rw [← Option.some.inj h]
    exact ⟨List.Pairwise.nil, by intro x hx; exact absurd hx (List.not_mem_nil x)⟩
  | cons c rest ih =>
    intro i0 v h
    rw [storeCpAux] at h
    by_cases hs : isStarter c = true
    · rw [if_pos hs] at h
      cases hx : storeCpAux rest (i0 + 1) with
      | none => rw [hx] at h; exact Option.noConfusion h
      | some v1 =>
        rw [hx] at h
        obtain ⟨hp, hb⟩ := ih hx
        rw [← Option.some.inj h]
        constructor
        · exact List.Pairwise.cons (fun x hx' => by have := hb x hx'; omega) hp
        · intro x hx'
          rcases List.mem_cons.mp hx' with rfl | hx''
          · simp only [List.length_cons]
            omega
          · have := hb x hx''
            simp only [List.length_cons]
            omega
    · rw [if_neg hs] at h
      by_cases hcond : (isCont c && i0 != 0) = true
      · rw [if_pos hcond] at h
        obtain ⟨hp, hb⟩ := ih h
        refine ⟨hp, fun x hx' => ?_⟩
        have := hb x hx'
        simp only [List.length_cons]
        omega
      · rw [if_neg hcond] at h
        exact Option.noConfusion h

theorem pairwise_strictIncrB : ∀ {l : List Nat},
    List.Pairwise (· < ·) l → strictIncrB l = true := by
  intro l h
  induction l with
  | nil => rfl
  | cons a t ih =>
    cases t with
    | nil => rfl
    | cons b t' =>
      rw [List.pairwise_cons] at h
      rw [strictIncrB, Bool.and_eq_true]
      exact ⟨by rw [decide_eq_true_eq]; exact h.1 b (by simp), ih h.2⟩

/-- C9 counterexample: the one-byte string consisting of the lead byte `0xC3`
of a two-byte sequence, with its continuation byte missing, is not valid
UTF-8, yet the segmenter succeeds on it instead of failing. -/
theorem C9_counterexample :
    ValidUTF8 [195] = false ∧ store_codepoints [195] = some [0] := by
  decide

/-- C9 amended: on valid UTF-8 the segmenter succeeds with strictly increasing
boundaries whose sentinel-appended last entry is the byte length; it fails
exactly when the first byte is not sequence-initial or some byte matches
neither an initial-byte pattern nor the continuation pattern — a string
merely ending mid-sequence is accepted. -/
theorem C9_amended (s : Str) :
    (ValidUTF8 s = true → ∃ v, store_codepoints s = some v
      ∧ strictIncrB (v ++ [s.length]) = true
      ∧ (v ++ [s.length]).getLastD 0 = s.length)
    ∧ (store_codepoints s = none ↔ segFails s = true) := by
  constructor
  · intro hv
    have hsf : segFails s = false := by
      cases s with
      | nil => rfl
      | cons c rest =>
        rw [segFails]
        rw [validUTF8_headStarter hv]
        have hb := validUTF8_bytesOk hv
        rw [bytesOk, List.all_cons, Bool.and_eq_true] at hb
        rw [bytesOk_noBad hb.2]
        rfl
    have hns : ¬ (store_codepoints s = none) := by
      rw [store_codepoints_none_iff, hsf]
      exact Bool.false_ne_true
    cases hsc : store_codepoints s with
    | none => exact absurd hsc hns
    | some v =>
      refine ⟨v, rfl, ?_, List.getLastD_concat _ _ _⟩
      rw [store_codepoints] at hsc
      obtain ⟨hp, hb⟩ := storeCpAux_bounds hsc
      apply pairwise_strictIncrB
      rw [List.pairwise_append]
      refine ⟨hp, by simp, ?_⟩
      intro a ha b hb'
      rw [List.mem_singleton] at hb'
      subst hb'
      have := hb a ha
      omega
  · exact store_codepoints_none_iff s

/-! Common-prefix size (claim C4). -/

theorem bytesEqRange_iff {a b : Str} {lo hi : Nat} :
    bytesEqRange a b lo hi = true ↔ ∀ i, lo ≤ i → i < hi → a.getD i 0 = b.getD i 0 := by
  rw [bytesEqRange, List.all_eq_true]
  constructor
  · intro h i h1 h2
    have hm : i ∈ List.range' lo (hi - lo) := by
      rw [List.mem_range'_1]
      omega
    exact beq_iff_eq.mp (h i hm)
  · intro h i hm
    rw [List.mem_range'_1] at hm
    exact beq_iff_eq.mpr (h i hm.1 (by omega))

theorem slice_getElem {a : Str} (s e i : Nat) :
    (slice a s e)[i]? = if i < e - s then a[s + i]? else none := by
  rw [slice, List.getElem?_take]
  by_cases h : i < e - s
  · rw [if_pos h, if_pos h, List.getElem?_drop]
  · rw [if_neg h, if_neg h]

theorem slice_length {a : Str} {s e : Nat} (hea : e ≤ a.length) :
    (slice a s e).length = e - s := by
  rw [slice, List.length_take, List.length_drop, Nat.min_def]
  split
  · rfl
  · omega

theorem slice_eq_iff {a b : Str} {s e : Nat} (hea : e ≤ a.length) (heb : e ≤ b.length) :
    slice a s e = slice b s e ↔ (∀ i, s ≤ i → i < e → a.getD i 0 = b.getD i 0) := by
  constructor
  · intro h i h1 h2
    have hc := congrArg (fun l => l[i - s]?) h
    simp only [slice_getElem] at hc
    rw [if_pos (by omega : i - s < e - s), if_pos (by omega : i - s < e - s)] at hc
    have hsi : s + (i - s) = i := by omega
    rw [hsi] at hc
    rw [List.getD_eq_getElem?_getD, List.getD_eq_getElem?_getD, hc]
  · intro h
    apply List.ext_getElem?
    intro n
    rw [slice_getElem, slice_getElem]
    by_cases hn : n < e - s
    · rw [if_pos hn, if_pos hn]
      have h1 : s + n < e := by omega
      have h2 := h (s + n) (by omega) h1
      rw [List.getD_eq_getElem?_getD, List.getD_eq_getElem?_getD] at h2
      rw [List.getElem?_eq_getElem (by omega : s + n < a.length),
        List.getElem?_eq_getElem (by omega : s + n < b.length)] at h2 ⊢
      simp only [Option.getD_some] at h2
      rw [h2]
    · rw [if_neg hn, if_neg hn]

theorem cpsGo_cons (a b : Str) (x y : Nat) (ac bc : List Nat) :
    ∀ (fuel j preflen : Nat),
    cpsGo a b (x :: ac) (y :: bc) fuel (j + 1) preflen
      = cpsGo a b ac bc fuel j preflen + 1 := by
  intro fuel
  induction fuel with
  | zero =>
    intro j preflen
    rfl
  | succ fuel ih =>
    intro j preflen
    rw [cpsGo, cpsGo]
    simp only [List.getD_cons_succ]
    by_cases h1 : ac.getD j 0 ≠ bc.getD j 0
    · rw [if_pos h1, if_pos h1]
    · rw [if_neg h1, if_neg h1]
      by_cases h2 : ¬ bytesEqRange a b preflen (ac.getD j 0) = true
      · rw [if_pos h2, if_pos h2]
      · rw [if_neg h2, if_neg h2]
        exact ih (j + 1) (ac.getD j 0)

theorem cpsGo_sharedCount (a b : Str) :
    ∀ (ta : List Nat) (tb : List Nat) (s : Nat),
    List.Pairwise (· < ·) (s :: ta) → List.Pairwise (· < ·) (s :: tb) →
    (∀ x ∈ s :: ta, x ≤ a.length) → (∀ x ∈ s :: tb, x ≤ b.length) →
    cpsGo a b ta tb (min ta.length tb.length) 0 s = sharedCount a b (s :: ta) (s :: tb) := by
  intro ta
  induction ta with
  | nil =>
    intro tb s _ _ _ _
    rw [List.length_nil, Nat.zero_min]
    rfl
  | cons e1 ta' ih =>
    intro tb s hpa hpb hba hbb
    cases tb with
    | nil =>
      rw [List.length_nil, Nat.min_zero]
      rfl
    | cons f1 tb' =>
      rw [List.length_cons, List.length_cons, Nat.succ_min_succ]
      rw [cpsGo]
      simp only [List.getD_cons_zero]
      have hse1 : s < e1 := (List.pairwise_cons.mp hpa).1 e1 (by simp)
      have hsf1 : s < f1 := (List.pairwise_cons.mp hpb).1 f1 (by simp)
      have he1a : e1 ≤ a.length := hba e1 (by simp)
      have hf1b : f1 ≤ b.length := hbb f1 (by simp)
      by_cases h1 : e1 ≠ f1
      · rw [if_pos h1]
        have hne : ¬ (slice a s e1 = slice b s f1) := by
          intro he
          have hlen := congrArg List.length he
          rw [slice_length he1a, slice_length hf1b] at hlen
          omega
        rw [sharedCount, if_neg hne]
      · push_neg at h1
        subst h1
        by_cases h2 : bytesEqRange a b s e1 = true
        · have hcond : ¬ (¬ bytesEqRange a b s e1 = true) := not_not_intro h2
          rw [if_neg (fun hh => hh rfl), if_neg hcond]
          rw [cpsGo_cons]
          rw [ih tb' e1 (List.Pairwise.of_cons hpa) (List.Pairwise.of_cons hpb)
            (fun x hx => hba x (List.mem_cons_of_mem _ hx))
            (fun x hx => hbb x (List.mem_cons_of_mem _ hx))]
          have hslice : slice a s e1 = slice b s e1 :=
            (slice_eq_iff he1a hf1b).mpr (bytesEqRange_iff.mp h2)
          rw [sharedCount, if_pos hslice]
        · rw [if_neg (fun hh => hh rfl), if_pos h2]
          have hne : ¬ (slice a s e1 = slice b s e1) := by
            intro he
            exact h2 (bytesEqRange_iff.mpr ((slice_eq_iff he1a hf1b).mp he))
          rw [sharedCount, if_neg hne]

theorem store_codepoints_sentinel {s : Str} {v : List Nat}
    (h : store_codepoints s = some v) : ∃ t, v ++ [s.length] = 0 :: t := by
  cases s with
  | nil =>
    rw [store_codepoints, storeCpAux] at h
    rw [← Option.some.inj h]
    exact ⟨[], rfl⟩
  | cons c rest =>
    rw [store_codepoints, storeCpAux] at h
    by_cases hs : isStarter c = true
    · rw [if_pos hs] at h
      cases hx : storeCpAux rest 1 with
      | none =>
        rw [hx] at h
        exact Option.noConfusion h
      | some v1 =>
        rw [hx] at h
        rw [← Option.some.inj h]
        exact ⟨v1 ++ [(c :: rest).length], rfl⟩
    · rw [if_neg hs, if_neg (by simp)] at h
      exact Option.noConfusion h

/-- C4 counterexample: on the one-codepoint strings `"x"` and `"y"` with their
sentinel-appended codepoint-index lists, the function returns 1, although
the strings share zero leading codepoints. -/
theorem C4_counterexample :
    common_prefix_size [120] [121] [0, 1] [0, 1] = 1
    ∧ sharedCount [120] [121] [0, 1] [0, 1] = 0
    ∧ store_codepoints [120] = some [0]
    ∧ store_codepoints [121] = some [0] := by
  decide

/-- C4 amended: on sentinel-appended codepoint-index lists,
`common_prefix_size` returns the number of leading codepoints shared
verbatim by the two strings plus one (the byte span of a codepoint is only
compared while processing the following boundary entry, so the count runs
one entry ahead). -/
theorem C4_amended (a b : Str) (va vb ac bc : List Nat)
    (ha : store_codepoints a = some va) (hb : store_codepoints b = some vb)
    (hac : ac = va ++ [a.length]) (hbc : bc = vb ++ [b.length]) :
    common_prefix_size a b ac bc = sharedCount a b ac bc + 1 := by
  obtain ⟨ta, hta⟩ := store_codepoints_sentinel ha
  obtain ⟨tb, htb⟩ := store_codepoints_sentinel hb
  rw [store_codepoints] at ha hb
  obtain ⟨hpa0, hba0⟩ := storeCpAux_bounds ha
  obtain ⟨hpb0, hbb0⟩ := storeCpAux_bounds hb
  have hpa : List.Pairwise (· < ·) (0 :: ta) := by
    rw [← hta]
    rw [List.pairwise_append]
    refine ⟨hpa0, by simp, ?_⟩
    intro x hx y hy
    rw [List.mem_singleton] at hy
    subst hy
    have := hba0 x hx
    omega
  have hpb : List.Pairwise (· < ·) (0 :: tb) := by
    rw [← htb]
    rw [List.pairwise_append]
    refine ⟨hpb0, by simp, ?_⟩
    intro x hx y hy
    rw [List.mem_singleton] at hy
    subst hy
    have := hbb0 x hx
    omega
  have hba : ∀ x ∈ 0 :: ta, x ≤ a.length := by
    rw [← hta]
    intro x hx
    rcases List.mem_append.mp hx with hx' | hx'
    · have := hba0 x hx'
      omega
    · rw [List.mem_singleton] at hx'
      omega
  have hbb : ∀ x ∈ 0 :: tb, x ≤ b.length := by
    rw [← htb]
    intro x hx
    rcases List.mem_append.mp hx with hx' | hx'
    · have := hbb0 x hx'
      omega
    · rw [List.mem_singleton] at hx'
      omega
  rw [hac, hbc, hta, htb]
  rw [common_prefix_size]
  rw [List.length_cons, List.length_cons, Nat.succ_min_succ]
  rw [cpsGo]
  simp only [List.getD_cons_zero]
  rw [if_neg (fun hh => hh rfl)]
  have h00 : bytesEqRange a b 0 0 = true := rfl
  rw [if_neg (not_not_intro h00)]
  rw [cpsGo_cons]
  rw [cpsGo_sharedCount a b ta tb 0 hpa hpb hba hbb]

/-- C4 amended witness: `"ab"` versus `"ac"` share one leading codepoint and
the function returns 2. -/
theorem C4_amended_witness :
    common_prefix_size [97, 98] [97, 99] [0, 1, 2] [0, 1, 2]
      = sharedCount [97, 98] [97, 99] [0, 1, 2] [0, 1, 2] + 1 :=
  C4_amended [97, 98] [97, 99] [0, 1] [0, 1] [0, 1, 2] [0, 1, 2]
    (by decide) (by decide) (by decide) (by decide)

/-! Accumulation behaviour of one training step (claim C2). -/

theorem addC_zero (p : Counts) : addC (0, 0) p = p := by
  cases p
  simp [addC]

theorem getPair_insertAdd {t : FlatMap}
    (hp : List.Pairwise (fun x y => strLt x.1 y.1 = true) t) (d : Counts) (k k' : Str) :
    getPair (alInsertWith (addC d) (0, 0) k t) k'
      = addC (if k' = k then d else (0, 0)) (getPair t k') := by
  by_cases he : k' = k
  · subst he
    rw [if_pos rfl, getPair, alFind_insert_self _ _ _ hp, Option.getD_some, getPair]
  · rw [if_neg he, getPair, alFind_insert_other _ _ _ _ _ he, addC_zero, getPair]

theorem getPair2_insertRep {reps : RepMap}
    (hp : List.Pairwise (fun x y => strLt x.1 y.1 = true) reps)
    (hin : ∀ e ∈ reps, List.Pairwise (fun x y => strLt x.1 y.1 = true) e.2)
    (k k2 : Str) (d : Counts) :
    getPair2 (alInsertWith (alInsertWith (addC d) (0, 0) k2) [] k reps) k k2
      = addC d (getPair2 reps k k2) := by
  have houter := alFind_insert_self (alInsertWith (addC d) (0, 0) k2) [] k hp
  have hinner : List.Pairwise (fun x y => strLt x.1 y.1 = true) ((alFind k reps).getD []) := by
    cases hfind : alFind k reps with
    | none => simp
    | some inner =>
      simp only [Option.getD_some]
      exact hin _ (alFind_mem hfind)
  have hbase : (alFind k2 ((alFind k reps).getD [])).getD (0, 0) = getPair2 reps k k2 := by
    cases hfind : alFind k reps with
    | none => simp [getPair2, hfind, alFind]
    | some inner => simp [getPair2, hfind]
  rw [getPair2, houter]
  simp only [Option.some_bind]
  rw [alFind_insert_self _ _ _ hinner, Option.getD_some, hbase]

/-- C2: a training call on a non-trimmed store with decodable strings is the
fold of the per-index step over the enumerated indices, and each step
records the replacement pair as `(count, 0)` exactly when
`i <= prefixLen - 1` and `(0, count)` otherwise, while the flat tables
accumulate `(count, 0)` for the own-role suffix and `(0, count)` for the
other-role suffix. -/
theorem C2_update_records (m : Model) (inflected lemWord : Str) (count : Int)
    (icp lcp : List Nat)
    (htr : m.is_trimmed = false) (hcnt : 0 < count)
    (hi : store_codepoints (36 :: inflected) = some icp)
    (hl : store_codepoints (36 :: lemWord) = some lcp) :
    (m.update inflected lemWord count = Except.ok
      ((trainIndices
          (max (icp ++ [(36 :: inflected : Str).length]).length
               (lcp ++ [(36 :: lemWord : Str).length]).length) m.max_suffix_size).foldl
        (trainStep (36 :: inflected) (36 :: lemWord)
          (icp ++ [(36 :: inflected : Str).length]) (lcp ++ [(36 :: lemWord : Str).length])
          (common_prefix_size (36 :: inflected) (36 :: lemWord)
            (icp ++ [(36 :: inflected : Str).length]) (lcp ++ [(36 :: lemWord : Str).length]))
          count) m))
    ∧ (∀ (inf lem : Str) (infcp lemcp : List Nat) (pfx : Nat) (md : Model) (i : Nat),
        md.sortedB = true →
        (getPair2 (trainStep inf lem infcp lemcp pfx count md i).replacements
            (sufAt inf infcp i) (sufAt lem lemcp i)
          = addC (if i + 1 ≤ pfx then (count, 0) else (0, count))
              (getPair2 md.replacements (sufAt inf infcp i) (sufAt lem lemcp i)))
        ∧ (∀ k, getPair (trainStep inf lem infcp lemcp pfx count md i).lemcounts k
            = addC (if k = sufAt inf infcp i then (0, count) else (0, 0))
                (addC (if k = sufAt lem lemcp i then (count, 0) else (0, 0))
                  (getPair md.lemcounts k)))
        ∧ (∀ k, getPair (trainStep inf lem infcp lemcp pfx count md i).infcounts k
            = addC (if k = sufAt lem lemcp i then (0, count) else (0, 0))
                (addC (if k = sufAt inf infcp i then (count, 0) else (0, 0))
                  (getPair md.infcounts k)))) := by
  constructor
  · rw [Model.update, if_neg (by rw [htr]; exact Bool.false_ne_true)]
    simp only [hi, hl]
  · intro inf lem infcp lemcp pfx md i hs
    obtain ⟨hlB, hiB, hrB, hr2B⟩ := sortedB_parts hs
    obtain ⟨mr, ml, mi, mm, mt⟩ := md
    simp only [Model.sortedB] at hs
    have hlp := keysSortedB_pairwise hlB
    have hip := keysSortedB_pairwise hiB
    have hrp := keysSortedB_pairwise hrB
    refine ⟨?_, ?_, ?_⟩
    · by_cases hc : i + 1 ≤ pfx
      · simp only [trainStep, Model.update_lemma, Model.update_inflected,
          Model.update_replacement, if_pos hc]
        exact getPair2_insertRep hrp (fun e he => keysSortedB_pairwise (hr2B e he)) _ _ _
      · simp only [trainStep, Model.update_lemma, Model.update_inflected,
          Model.update_replacement, if_neg hc]
        exact getPair2_insertRep hrp (fun e he => keysSortedB_pairwise (hr2B e he)) _ _ _
    · intro k
      by_cases hc : i + 1 ≤ pfx
      · simp only [trainStep, Model.update_lemma, Model.update_inflected,
          Model.update_replacement, if_pos hc]
        rw [getPair_insertAdd (pairwise_alInsertWith hlp) (0, count) (sufAt inf infcp i) k,
          getPair_insertAdd hlp (count, 0) (sufAt lem lemcp i) k]
      · simp only [trainStep, Model.update_lemma, Model.update_inflected,
          Model.update_replacement, if_neg hc]
        rw [getPair_insertAdd (pairwise_alInsertWith hlp) (0, count) (sufAt inf infcp i) k,
          getPair_insertAdd hlp (count, 0) (sufAt lem lemcp i) k]
    · intro k
      by_cases hc : i + 1 ≤ pfx
      · simp only [trainStep, Model.update_lemma, Model.update_inflected,
          Model.update_replacement, if_pos hc]
        rw [getPair_insertAdd (pairwise_alInsertWith hip) (0, count) (sufAt lem lemcp i) k,
          getPair_insertAdd hip (count, 0) (sufAt inf infcp i) k]
      · simp only [trainStep, Model.update_lemma, Model.update_inflected,
          Model.update_replacement, if_neg hc]
        rw [getPair_insertAdd (pairwise_alInsertWith hip) (0, count) (sufAt lem lemcp i) k,
          getPair_insertAdd hip (count, 0) (sufAt inf infcp i) k]

/-- C2 witness: training `("ab", "a", 1)` on a fresh store; at index 2 the
empty lemma suffix receives `(1, 0)` in the lemma table. -/
theorem C2_witness :
    (emptyModel 4).is_trimmed = false ∧ (0 : Int) < 1 ∧
    getPair (trainStep [36, 97, 98] [36, 97] [0, 1, 2, 3] [0, 1, 2] 3 1 (emptyModel 4) 2).lemcounts []
      = addC (if ([] : Str) = sufAt [36, 97, 98] [0, 1, 2, 3] 2 then (0, 1) else (0, 0))
          (addC (if ([] : Str) = sufAt [36, 97] [0, 1, 2] 2 then (1, 0) else (0, 0))
            (getPair (emptyModel 4).lemcounts [])) :=
  ⟨rfl, by decide,
    ((C2_update_records (emptyModel 4) [97, 98] [97] 1 [0, 1, 2] [0, 1] rfl (by decide)
        (by decide) (by decide)).2 [36, 97, 98] [36, 97] [0, 1, 2, 3] [0, 1, 2] 3
        (emptyModel 4) 2 (by decide)).2.1 []⟩

/-! The inferencer (claim C1). -/

theorem le_foldl_max : ∀ (L : List Rat) (p : Rat), p ≤ L.foldl max p := by
  intro L
  induction L with
  | nil =>
    intro p
    exact le_refl p
  | cons q rest ih =>
    intro p
    rw [List.foldl_cons]
    exact le_trans (le_max_left p q) (ih (max p q))

theorem foldl_max_mem : ∀ (L : List Rat) (p : Rat), L.foldl max p = p ∨ L.foldl max p ∈ L := by
  intro L
  induction L with
  | nil =>
    intro p
    exact Or.inl rfl
  | cons q rest ih =>
    intro p
    rw [List.foldl_cons]
    rcases ih (max p q) with h | h
    · rw [h]
      rcases max_choice p q with h2 | h2
      · exact Or.inl h2
      · rw [h2]
        exact Or.inr (by simp)
    · exact Or.inr (List.mem_cons_of_mem _ h)

theorem elem_le_foldl_max : ∀ (L : List Rat) (p x : Rat), x ∈ L → x ≤ L.foldl max p := by
  intro L
  induction L with
  | nil =>
    intro p x hx
    exact absurd hx (List.not_mem_nil x)
  | cons q rest ih =>
    intro p x hx
    rw [List.foldl_cons]
    rcases List.mem_cons.mp hx with rfl | hx'
    · exact le_trans (le_max_right p x) (le_foldl_max _ _)
    · exact ih _ x hx'

theorem any_pos_iff (L : List (Str × Rat)) :
    (L.any (fun c => decide (0 < c.2)) = true) ↔ 0 < specBestScore L := by
  rw [specBestScore, List.any_eq_true]
  constructor
  · rintro ⟨c, hc, hpos⟩
    rw [decide_eq_true_eq] at hpos
    exact lt_of_lt_of_le hpos
      (elem_le_foldl_max _ 0 c.2 (List.mem_map.mpr ⟨c, hc, rfl⟩))
  · intro h
    rcases foldl_max_mem (L.map (fun c => c.2)) 0 with he | hm
    · rw [he] at h
      exact absurd h (lt_irrefl 0)
    · obtain ⟨c, hc, hc2⟩ := List.mem_map.mp hm
      exact ⟨c, hc, by rw [decide_eq_true_eq, hc2]; exact h⟩

theorem pickBest_eq : ∀ (L : List (Str × Rat)) (p : Rat),
    pickBest p L = if p < (L.map (fun c => c.2)).foldl max p then
      L.find? (fun c => decide ((L.map (fun c => c.2)).foldl max p ≤ c.2))
    else none := by
  intro L
  induction L with
  | nil =>
    intro p
    rw [pickBest]
    simp
  | cons c rest ih =>
    intro p
    rw [pickBest, List.map_cons, List.foldl_cons]
    by_cases h : p < c.2
    · rw [if_pos h, max_eq_right (le_of_lt h)]
      have ihq := ih c.2
      by_cases h2 : c.2 < (rest.map (fun x => x.2)).foldl max c.2
      · rw [if_pos h2] at ihq
        rw [ihq]
        have hmem : (rest.map (fun x => x.2)).foldl max c.2 ∈ rest.map (fun x => x.2) := by
          rcases foldl_max_mem (rest.map (fun x => x.2)) c.2 with he | hm
          · exact absurd he.symm (ne_of_lt h2)
          · exact hm
        obtain ⟨cw, hcw, hcw2⟩ := List.mem_map.mp hmem
        have hex : ∃ x ∈ rest,
            decide ((rest.map (fun x => x.2)).foldl max c.2 ≤ x.2) = true :=
          ⟨cw, hcw, by simp [hcw2]⟩
        obtain ⟨w, hw⟩ := Option.isSome_iff_exists.mp (List.find?_isSome.mpr hex)
        rw [hw, Option.getD_some]
        rw [if_pos (lt_trans h h2)]
        rw [List.find?_cons_of_neg _ (by
          simp only [decide_eq_true_eq]
          exact not_le.mpr h2)]
        rw [hw]
      · rw [if_neg h2] at ihq
        rw [ihq, Option.getD_none]
        have hM : (rest.map (fun x => x.2)).foldl max c.2 = c.2 :=
          le_antisymm (not_lt.mp h2) (le_foldl_max _ _)
        rw [hM, if_pos h]
        rw [List.find?_cons_of_pos _ (by simp)]
    · rw [if_neg h, max_eq_left (not_lt.mp h)]
      rw [ih p]
      by_cases h2 : p < (rest.map (fun x => x.2)).foldl max p
      · rw [if_pos h2, if_pos h2]
        rw [List.find?_cons_of_neg _ (by
          simp only [decide_eq_true_eq]
          exact not_le.mpr (lt_of_le_of_lt (not_lt.mp h) h2))]
      · rw [if_neg h2, if_neg h2]

theorem foldl_bestStep (inf : Str) (cut : Nat) :
    ∀ (L : List (Str × Rat)) (p : Rat) (b0 : Str) (f0 : Bool),
    L.foldl (bestStep inf cut) (p, b0, f0)
      = match pickBest p L with
        | none => (p, b0, f0)
        | some w => (w.2, inf.take cut ++ w.1, true) := by
  intro L
  induction L with
  | nil =>
    intro p b0 f0
    rfl
  | cons c rest ih =>
    intro p b0 f0
    rw [List.foldl_cons, pickBest]
    by_cases h : p < c.2
    · rw [if_pos h]
      rw [show bestStep inf cut (p, b0, f0) c = (c.2, inf.take cut ++ c.1, true) from by
        rw [bestStep, if_pos h]]
      rw [ih c.2 (inf.take cut ++ c.1) true]
      cases hp : pickBest c.2 rest with
      | none => rw [Option.getD_none]
      | some w => rw [Option.getD_some]
    · rw [if_neg h]
      rw [show bestStep inf cut (p, b0, f0) c = (p, b0, f0) from by
        rw [bestStep, if_neg h]]
      exact ih p b0 f0

theorem foldl_candStep (lemc : FlatMap) (inf : Str) (cut : Nat) (prB : Rat) :
    ∀ (inner : FlatMap) (acc : Rat × Str × Bool),
    inner.foldl (candStep lemc inf cut prB) acc
      = (inner.filterMap (fun cand => (alFind cand.1 lemc).map (fun lc =>
          (cand.1, compute_prob cand.2 * compute_prob lc / prB)))).foldl
          (bestStep inf cut) acc := by
  intro inner
  induction inner with
  | nil =>
    intro acc
    rfl
  | cons cand rest ih =>
    intro acc
    cases hf : alFind cand.1 lemc with
    | none =>
      rw [List.foldl_cons,
        show candStep lemc inf cut prB acc cand = acc from by rw [candStep, hf]]
      rw [ih acc, List.filterMap_cons]
      simp [hf]
    | some lc =>
      rw [List.foldl_cons,
        show candStep lemc inf cut prB acc cand
            = bestStep inf cut acc (cand.1, compute_prob cand.2 * compute_prob lc / prB) from by
          rw [candStep, hf, bestStep]]
      rw [ih, List.filterMap_cons]
      simp [hf]

theorem lemLoop_eq_spec (md : Model) (inf : Str) (cps : List Nat) :
    ∀ idxs : List Nat,
    lemLoop md inf cps idxs
      = match idxs.find? (fun i =>
            (specScoreList md (inf.drop (cps.getD i 0))).any (fun c => decide (0 < c.2))) with
        | none => none
        | some i =>
          match (specScoreList md (inf.drop (cps.getD i 0))).find?
              (fun c => decide (specBestScore (specScoreList md (inf.drop (cps.getD i 0))) ≤ c.2)) with
          | none => none
          | some w => some ((inf.take (cps.getD i 0) ++ w.1).drop 1) := by
  intro idxs
  induction idxs with
  | nil => rfl
  | cons i rest ih =>
    simp only [lemLoop]
    cases hinf : alFind (inf.drop (cps.getD i 0)) md.infcounts with
    | none =>
      have hL : specScoreList md (inf.drop (cps.getD i 0)) = [] := by
        rw [specScoreList, hinf]
      rw [List.find?_cons_of_neg _ (by rw [hL]; simp)]
      exact ih
    | some bc =>
      cases hrep : alFind (inf.drop (cps.getD i 0)) md.replacements with
      | none =>
        have hL : specScoreList md (inf.drop (cps.getD i 0)) = [] := by
          rw [specScoreList, hinf, hrep]
        rw [List.find?_cons_of_neg _ (by rw [hL]; simp)]
        exact ih
      | some inner =>
        have hL : specScoreList md (inf.drop (cps.getD i 0))
            = inner.filterMap (fun cand => (alFind cand.1 md.lemcounts).map (fun lc =>
                (cand.1, compute_prob cand.2 * compute_prob lc / compute_prob bc))) := by
          rw [specScoreList, hinf, hrep]
        simp only []
        rw [foldl_candStep, ← hL, foldl_bestStep]
        have hfold : List.foldl max 0 ((specScoreList md (inf.drop (cps.getD i 0))).map
            (fun c => c.2)) = specBestScore (specScoreList md (inf.drop (cps.getD i 0))) := rfl
        by_cases h2 : 0 < specBestScore (specScoreList md (inf.drop (cps.getD i 0)))
        · have hpb := pickBest_eq (specScoreList md (inf.drop (cps.getD i 0))) 0
          rw [hfold, if_pos h2] at hpb
          have hmem : specBestScore (specScoreList md (inf.drop (cps.getD i 0)))
              ∈ (specScoreList md (inf.drop (cps.getD i 0))).map (fun c => c.2) := by
            rcases foldl_max_mem ((specScoreList md (inf.drop (cps.getD i 0))).map
                (fun c => c.2)) 0 with he | hm
            · rw [hfold] at he
              rw [he] at h2
              exact absurd h2 (lt_irrefl 0)
            · rw [hfold] at hm
              exact hm
          obtain ⟨cw, hcw, hcw2⟩ := List.mem_map.mp hmem
          have hex : ∃ x ∈ specScoreList md (inf.drop (cps.getD i 0)),
              decide (specBestScore (specScoreList md (inf.drop (cps.getD i 0))) ≤ x.2)
                = true := ⟨cw, hcw, by simp [hcw2]⟩
          obtain ⟨w, hw⟩ := Option.isSome_iff_exists.mp (List.find?_isSome.mpr hex)
          rw [hpb, hw]
          rw [@List.find?_cons_of_pos _
            (fun j => (specScoreList md (inf.drop (cps.getD j 0))).any
              (fun c => decide (0 < c.2))) i rest ((any_pos_iff _).mpr h2)]
          simp only []
          rw [hw]
          simp
        · have hpb := pickBest_eq (specScoreList md (inf.drop (cps.getD i 0))) 0
          rw [hfold, if_neg h2] at hpb
          rw [hpb]
          rw [@List.find?_cons_of_neg _
            (fun j => (specScoreList md (inf.drop (cps.getD j 0))).any
              (fun c => decide (0 < c.2))) i rest (by
                intro hh
                exact h2 ((any_pos_iff _).mp hh))]
          exact ih

theorem rtrim_marked (x : Str) : rtrim (36 :: x) = 36 :: rtrim x := by
  rw [rtrim, rtrim]
  rw [show (36 :: x).reverse = x.reverse ++ [36] from by simp]
  rw [List.dropWhile_append]
  by_cases h : (List.dropWhile isSpace x.reverse).isEmpty = true
  · rw [if_pos h]
    have h' : List.dropWhile isSpace x.reverse = [] := by
      cases hd : List.dropWhile isSpace x.reverse with
      | nil => rfl
      | cons a l =>
        rw [hd] at h
        exact Bool.noConfusion h
    rw [h']
    rfl
  · rw [if_neg h]
    rw [List.reverse_append]
    rfl

theorem trimStr_marked (x : Str) : trimStr (36 :: x) = 36 :: rtrim x := by
  rw [trimStr, rtrim_marked, ltrim, List.dropWhile_cons]
  rw [show isSpace 36 = false from rfl]
  rw [if_neg Bool.false_ne_true]

theorem bytesOk_rtrim {x : Str} (h : bytesOk x = true) : bytesOk (rtrim x) = true := by
  rw [bytesOk, List.all_eq_true] at h ⊢
  intro c hc
  apply h
  rw [rtrim, List.mem_reverse] at hc
  have := List.Sublist.mem hc (List.dropWhile_sublist _)
  rwa [List.mem_reverse] at this

theorem store_marked_ok {x : Str} (h : bytesOk x = true) :
    ∃ v, store_codepoints (36 :: x) = some v := by
  have hsf : segFails (36 :: x) = false := by
    rw [segFails]
    rw [show isStarter 36 = true from rfl]
    rw [bytesOk_noBad h]
    rfl
  have hns : ¬ (store_codepoints (36 :: x) = none) := by
    rw [store_codepoints_none_iff, hsf]
    exact Bool.false_ne_true
  cases hsc : store_codepoints (36 :: x) with
  | none => exact absurd hsc hns
  | some v => exact ⟨v, rfl⟩

/-- C1: on valid UTF-8 input, `lemmatize` never fails and returns exactly the
spec-described result: scanning suffix-start indices upward over the
marker-prefixed, trimmed word, it stops at the first index where some
candidate (present in all three tables) attains a strictly positive score
`(prBA * prA) / prB`, answers with the fixed prefix plus the
highest-scoring candidate (first one on ties) minus the leading marker
byte, and otherwise returns the original input unchanged. -/
theorem C1_lemmatize (md : Model) (inflected : Str) (hv : ValidUTF8 inflected = true) :
    md.lemmatize inflected = Except.ok (specResult md inflected) := by
  have hok : bytesOk (rtrim inflected) = true := bytesOk_rtrim (validUTF8_bytesOk hv)
  obtain ⟨v, hvv⟩ := store_marked_ok hok
  rw [Model.lemmatize, specResult, trimStr_marked]
  simp only [hvv]
  rw [lemLoop_eq_spec]
  cases hfind : (List.range (v ++ [(36 :: rtrim inflected : Str).length]).length).find?
      (fun i => (specScoreList md ((36 :: rtrim inflected : Str).drop
          ((v ++ [(36 :: rtrim inflected : Str).length]).getD i 0))).any
        (fun c => decide (0 < c.2))) with
  | none => rfl
  | some i =>
    simp only []
    cases hw : (specScoreList md ((36 :: rtrim inflected : Str).drop
        ((v ++ [(36 :: rtrim inflected : Str).length]).getD i 0))).find?
        (fun c => decide (specBestScore (specScoreList md ((36 :: rtrim inflected : Str).drop
          ((v ++ [(36 :: rtrim inflected : Str).length]).getD i 0))) ≤ c.2)) with
    | none => rfl
    | some w => rfl

/-- C1 witness: on the store `exGood`, lemmatizing the word `"b"` applies the
`"b" -> "c"` rule and matches the spec result. -/
theorem C1_witness :
    ValidUTF8 [98] = true ∧
    exGood.lemmatize [98] = Except.ok (specResult exGood [98]) :=
  ⟨by decide, C1_lemmatize exGood [98] (by decide)⟩

/-! Additivity of training (claim C8). -/

theorem addC_addC (a b p : Counts) : addC a (addC b p) = addC (addC a b) p := by
  cases a
  cases b
  cases p
  simp [addC]
  omega

theorem addC_comm (a b : Counts) : addC a b = addC b a := by
  cases a
  cases b
  simp [addC]
  omega

theorem addC_right_zero (d : Counts) : addC d (0, 0) = d := by
  cases d
  simp [addC]

theorem applyOps_sorted : ∀ (ops : List (Str × Counts)) (t : FlatMap),
    List.Pairwise (fun x y => strLt x.1 y.1 = true) t →
    List.Pairwise (fun x y => strLt x.1 y.1 = true) (applyOps ops t) := by
  intro ops
  induction ops with
  | nil =>
    intro t ht
    exact ht
  | cons o ops ih =>
    intro t ht
    rw [applyOps]
    exact ih _ (pairwise_alInsertWith ht)

theorem opsSum_untouched : ∀ {k : Str} {ops : List (Str × Counts)},
    opsTouches k ops = false → opsSum k ops = (0, 0) := by
  intro k ops
  induction ops with
  | nil =>
    intro _
    rfl
  | cons o ops ih =>
    intro h
    rw [opsTouches, List.any_cons, Bool.or_eq_false_iff] at h
    rw [opsSum, if_neg (by
      intro he
      rw [he] at h
      simp at h)]
    exact ih (by rw [opsTouches]; exact h.2)

theorem alFind_applyOps : ∀ (ops : List (Str × Counts)) (t : FlatMap),
    List.Pairwise (fun x y => strLt x.1 y.1 = true) t → ∀ k,
    alFind k (applyOps ops t)
      = if opsTouches k ops then some (addC (opsSum k ops) ((alFind k t).getD (0, 0)))
        else alFind k t := by
  intro ops
  induction ops with
  | nil =>
    intro t ht k
    rw [applyOps, if_neg (by rw [opsTouches]; simp)]
  | cons o ops ih =>
    intro t ht k
    obtain ⟨k0, d⟩ := o
    rw [applyOps, ih _ (pairwise_alInsertWith ht) k]
    by_cases hk : k0 = k
    · subst hk
      have hfind : alFind k0 (alInsertWith (addC d) (0, 0) k0 t)
          = some (addC d ((alFind k0 t).getD (0, 0))) := alFind_insert_self _ _ _ ht
      have htouch : opsTouches k0 ((k0, d) :: ops) = true := by
        rw [opsTouches, List.any_cons]
        simp
      rw [htouch, if_pos rfl, opsSum, if_pos rfl]
      by_cases ht2 : opsTouches k0 ops = true
      · rw [if_pos ht2, hfind, Option.getD_some, addC_addC, addC_comm (opsSum k0 ops) d,
          ← addC_addC]
      · rw [if_neg ht2, hfind]
        rw [Bool.not_eq_true] at ht2
        rw [opsSum_untouched ht2, addC_right_zero]
    · have hother : alFind k (alInsertWith (addC d) (0, 0) k0 t) = alFind k t :=
        alFind_insert_other _ _ _ _ _ (fun he => hk he.symm)
      have htouch : opsTouches k ((k0, d) :: ops) = opsTouches k ops := by
        rw [opsTouches, opsTouches, List.any_cons]
        simp [hk]
      rw [hother, htouch, opsSum, if_neg hk]

theorem twoKeyOps_touch (f g : Nat → Str) (c c' : Int) (k : Str) : ∀ L : List Nat,
    opsTouches k (twoKeyOps f g c L) = opsTouches k (twoKeyOps f g c' L) := by
  intro L
  induction L with
  | nil => rfl
  | cons i rest ih =>
    rw [twoKeyOps, twoKeyOps, opsTouches, opsTouches,
      List.any_cons, List.any_cons, List.any_cons, List.any_cons]
    rw [opsTouches, opsTouches] at ih
    rw [ih]

theorem twoKeyOps_sum_add (f g : Nat → Str) (c1 c2 : Int) (k : Str) : ∀ L : List Nat,
    addC (opsSum k (twoKeyOps f g c2 L)) (opsSum k (twoKeyOps f g c1 L))
      = opsSum k (twoKeyOps f g (c1 + c2) L) := by
  intro L
  induction L with
  | nil => rfl
  | cons i rest ih =>
    simp only [twoKeyOps, opsSum]
    by_cases hf : f i = k
    · by_cases hg : g i = k
      · simp only [if_pos hf, if_pos hg]
        rw [← ih]
        generalize opsSum k (twoKeyOps f g c2 rest) = S2
        generalize opsSum k (twoKeyOps f g c1 rest) = S1
        cases S2
        cases S1
        simp [addC]
        omega
      · simp only [if_pos hf, if_neg hg]
        rw [← ih]
        generalize opsSum k (twoKeyOps f g c2 rest) = S2
        generalize opsSum k (twoKeyOps f g c1 rest) = S1
        cases S2
        cases S1
        simp [addC]
        omega
    · by_cases hg : g i = k
      · simp only [if_neg hf, if_pos hg]
        rw [← ih]
        generalize opsSum k (twoKeyOps f g c2 rest) = S2
        generalize opsSum k (twoKeyOps f g c1 rest) = S1
        cases S2
        cases S1
        simp [addC]
        omega
      · simp only [if_neg hf, if_neg hg]
        exact ih

theorem foldl_trainStep_tables (inf lem : Str) (infcp lemcp : List Nat) (pfx : Nat)
    (c : Int) : ∀ (L : List Nat) (md : Model),
    ((L.foldl (trainStep inf lem infcp lemcp pfx c) md).lemcounts
        = applyOps (twoKeyOps (sufAt lem lemcp) (sufAt inf infcp) c L) md.lemcounts)
    ∧ ((L.foldl (trainStep inf lem infcp lemcp pfx c) md).infcounts
        = applyOps (twoKeyOps (sufAt inf infcp) (sufAt lem lemcp) c L) md.infcounts)
    ∧ ((L.foldl (trainStep inf lem infcp lemcp pfx c) md).replacements
        = applyOps2 (repOps (sufAt inf infcp) (sufAt lem lemcp) pfx c L) md.replacements)
    ∧ ((L.foldl (trainStep inf lem infcp lemcp pfx c) md).is_trimmed = md.is_trimmed)
    ∧ ((L.foldl (trainStep inf lem infcp lemcp pfx c) md).max_suffix_size
        = md.max_suffix_size) := by
  intro L
  induction L with
  | nil =>
    intro md
    exact ⟨rfl, rfl, rfl, rfl, rfl⟩
  | cons i rest ih =>
    intro md
    rw [List.foldl_cons]
    obtain ⟨ih1, ih2, ih3, ih4, ih5⟩ := ih (trainStep inf lem infcp lemcp pfx c md i)
    obtain ⟨mr, ml, mi, mm, mt⟩ := md
    by_cases hc : i + 1 ≤ pfx
    · refine ⟨?_, ?_, ?_, ?_, ?_⟩
      · rw [ih1, twoKeyOps, applyOps, applyOps]
        congr 1
        simp only [trainStep, Model.update_replacement, Model.update_lemma,
          Model.update_inflected, if_pos hc]
      · rw [ih2, twoKeyOps, applyOps, applyOps]
        congr 1
        simp only [trainStep, Model.update_replacement, Model.update_lemma,
          Model.update_inflected, if_pos hc]
      · rw [ih3, repOps, applyOps2]
        rw [if_pos hc]
        congr 1
        simp only [trainStep, Model.update_replacement, Model.update_lemma,
          Model.update_inflected, if_pos hc]
      · rw [ih4]
        simp only [trainStep, Model.update_replacement, Model.update_lemma,
          Model.update_inflected, if_pos hc]
      · rw [ih5]
        simp only [trainStep, Model.update_replacement, Model.update_lemma,
          Model.update_inflected, if_pos hc]
    · refine ⟨?_, ?_, ?_, ?_, ?_⟩
      · rw [ih1, twoKeyOps, applyOps, applyOps]
        congr 1
        simp only [trainStep, Model.update_replacement, Model.update_lemma,
          Model.update_inflected, if_neg hc]
      · rw [ih2, twoKeyOps, applyOps, applyOps]
        congr 1
        simp only [trainStep, Model.update_replacement, Model.update_lemma,
          Model.update_inflected, if_neg hc]
      · rw [ih3, repOps, applyOps2]
        rw [if_neg hc]
        congr 1
        simp only [trainStep, Model.update_replacement, Model.update_lemma,
          Model.update_inflected, if_neg hc]
      · rw [ih4]
        simp only [trainStep, Model.update_replacement, Model.update_lemma,
          Model.update_inflected, if_neg hc]
      · rw [ih5]
        simp only [trainStep, Model.update_replacement, Model.update_lemma,
          Model.update_inflected, if_neg hc]

theorem mem_alInsertWith_strong {α : Type} {f : α → α} {v0 : α} {k : Str} :
    ∀ {t : List (Str × α)} {e : Str × α}, e ∈ alInsertWith f v0 k t →
    e ∈ t ∨ (e.1 = k ∧ (e.2 = f v0 ∨ ∃ v, (k, v) ∈ t ∧ e.2 = f v)) := by
  intro t
  induction t with
  | nil =>
    intro e he
    simp only [alInsertWith, List.mem_singleton] at he
    subst he
    exact Or.inr ⟨rfl, Or.inl rfl⟩
  | cons a t ih =>
    intro e he
    obtain ⟨k0, v⟩ := a
    rw [alInsertWith] at he
    by_cases h1 : strLt k k0 = true
    · rw [if_pos h1] at he
      rcases List.mem_cons.mp he with rfl | he'
      · exact Or.inr ⟨rfl, Or.inl rfl⟩
      · exact Or.inl he'
    · rw [if_neg h1] at he
      by_cases h2 : k = k0
      · rw [if_pos h2] at he
        rcases List.mem_cons.mp he with rfl | he'
        · refine Or.inr ⟨h2.symm, Or.inr ⟨v, ?_, rfl⟩⟩
          rw [h2]
          exact List.mem_cons_self _ _
        · exact Or.inl (List.mem_cons_of_mem _ he')
      · rw [if_neg h2] at he
        rcases List.mem_cons.mp he with rfl | he'
        · exact Or.inl (List.mem_cons_self _ _)
        · rcases ih he' with h | ⟨he1, hv⟩
          · exact Or.inl (List.mem_cons_of_mem _ h)
          · refine Or.inr ⟨he1, ?_⟩
            rcases hv with hv | ⟨v', hv', he2⟩
            · exact Or.inl hv
            · exact Or.inr ⟨v', List.mem_cons_of_mem _ hv', he2⟩

theorem nestIns_sorted {t : RepMap}
    (hp : List.Pairwise (fun x y => strLt x.1 y.1 = true) t)
    (hin : ∀ e ∈ t, List.Pairwise (fun x y => strLt x.1 y.1 = true) e.2)
    (k1 k2 : Str) (d : Counts) :
    List.Pairwise (fun x y => strLt x.1 y.1 = true)
      (alInsertWith (alInsertWith (addC d) (0, 0) k2) [] k1 t)
    ∧ ∀ e ∈ alInsertWith (alInsertWith (addC d) (0, 0) k2) [] k1 t,
        List.Pairwise (fun x y => strLt x.1 y.1 = true) e.2 := by
  refine ⟨pairwise_alInsertWith hp, ?_⟩
  intro e he
  rcases mem_alInsertWith_strong he with h | ⟨he1, hv⟩
  · exact hin e h
  · rcases hv with hv | ⟨v, hvmem, hv2⟩
    · rw [hv]
      exact pairwise_alInsertWith List.Pairwise.nil
    · rw [hv2]
      exact pairwise_alInsertWith (hin (k1, v) hvmem)

theorem getOpt2_nestIns (t : RepMap)
    (hp : List.Pairwise (fun x y => strLt x.1 y.1 = true) t)
    (hin : ∀ e ∈ t, List.Pairwise (fun x y => strLt x.1 y.1 = true) e.2)
    (k1 k2 : Str) (d : Counts) (k1' k2' : Str) :
    getOpt2 (alInsertWith (alInsertWith (addC d) (0, 0) k2) [] k1 t) k1' k2'
      = if k1' = k1 ∧ k2' = k2 then some (addC d ((getOpt2 t k1 k2).getD (0, 0)))
        else getOpt2 t k1' k2' := by
  by_cases h1 : k1' = k1
  · subst h1
    have houter := alFind_insert_self (alInsertWith (addC d) (0, 0) k2) [] k1' hp
    have hinner : List.Pairwise (fun x y => strLt x.1 y.1 = true)
        ((alFind k1' t).getD []) := by
      cases hfind : alFind k1' t with
      | none => simp
      | some inner =>
        simp only [Option.getD_some]
        exact hin _ (alFind_mem hfind)
    by_cases h2 : k2' = k2
    · subst h2
      rw [if_pos ⟨rfl, rfl⟩]
      rw [getOpt2, houter, Option.some_bind]
      rw [alFind_insert_self _ _ _ hinner]
      have hbase : (alFind k2' ((alFind k1' t).getD [])).getD (0, 0)
          = (getOpt2 t k1' k2').getD (0, 0) := by
        cases hfind : alFind k1' t with
        | none => simp [getOpt2, hfind, alFind]
        | some inner => simp [getOpt2, hfind]
      rw [hbase]
    · rw [if_neg (fun hh => h2 hh.2)]
      rw [getOpt2, houter, Option.some_bind]
      rw [alFind_insert_other _ _ _ _ _ h2]
      rw [getOpt2]
      cases hfind : alFind k1' t with
      | none => simp [hfind, alFind]
      | some inner => simp [hfind]
  · rw [if_neg (fun hh => h1 hh.1)]
    rw [getOpt2, getOpt2, alFind_insert_other _ _ _ _ _ h1]

theorem alFind_nestIns_none (t : RepMap)
    (hp : List.Pairwise (fun x y => strLt x.1 y.1 = true) t)
    (k1 k2 : Str) (d : Counts) (k1' : Str) :
    (alFind k1' (alInsertWith (alInsertWith (addC d) (0, 0) k2) [] k1 t) = none)
      ↔ (alFind k1' t = none ∧ k1' ≠ k1) := by
  by_cases h1 : k1' = k1
  · subst h1
    rw [alFind_insert_self _ _ _ hp]
    constructor
    · intro h
      exact Option.noConfusion h
    · rintro ⟨_, hne⟩
      exact absurd rfl hne
  · rw [alFind_insert_other _ _ _ _ _ h1]
    constructor
    · intro h
      exact ⟨h, h1⟩
    · intro h
      exact h.1

theorem opsSum2_untouched : ∀ {k1 k2 : Str} {ops : List ((Str × Str) × Counts)},
    touches2 k1 k2 ops = false → opsSum2 k1 k2 ops = (0, 0) := by
  intro k1 k2 ops
  induction ops with
  | nil =>
    intro _
    rfl
  | cons o ops ih =>
    intro h
    rw [touches2, List.any_cons, Bool.or_eq_false_iff] at h
    rw [opsSum2, if_neg (fun he => (decide_eq_false_iff_not.mp h.1) he)]
    exact ih (by rw [touches2]; exact h.2)

theorem applyOps2_char : ∀ (ops : List ((Str × Str) × Counts)) (t : RepMap),
    List.Pairwise (fun x y => strLt x.1 y.1 = true) t →
    (∀ e ∈ t, List.Pairwise (fun x y => strLt x.1 y.1 = true) e.2) →
    (List.Pairwise (fun x y => strLt x.1 y.1 = true) (applyOps2 ops t)
      ∧ (∀ e ∈ applyOps2 ops t, List.Pairwise (fun x y => strLt x.1 y.1 = true) e.2))
    ∧ (∀ k1 k2, getOpt2 (applyOps2 ops t) k1 k2
        = if touches2 k1 k2 ops
          then some (addC (opsSum2 k1 k2 ops) ((getOpt2 t k1 k2).getD (0, 0)))
          else getOpt2 t k1 k2)
    ∧ (∀ k1, (alFind k1 (applyOps2 ops t) = none)
        ↔ (alFind k1 t = none ∧ touchesOuter k1 ops = false)) := by
  intro ops
  induction ops with
  | nil =>
    intro t hp hin
    refine ⟨⟨hp, hin⟩, ?_, ?_⟩
    · intro k1 k2
      rw [if_neg (by rw [touches2]; simp)]
      rfl
    · intro k1
      rw [touchesOuter, show applyOps2 ([] : List ((Str × Str) × Counts)) t = t from rfl]
      simp
  | cons o ops ih =>
    intro t hp hin
    obtain ⟨⟨ok1, ok2⟩, d⟩ := o
    rw [applyOps2]
    obtain ⟨hs1, hs2⟩ := nestIns_sorted hp hin ok1 ok2 d
    obtain ⟨hps, hchar, hpres⟩ := ih _ hs1 hs2
    refine ⟨hps, ?_, ?_⟩
    · intro k1 k2
      rw [hchar k1 k2]
      rw [getOpt2_nestIns t hp hin ok1 ok2 d k1 k2]
      by_cases hko : k1 = ok1 ∧ k2 = ok2
      · rw [if_pos hko]
        have htouch : touches2 k1 k2 (((ok1, ok2), d) :: ops) = true := by
          rw [touches2, List.any_cons]
          rw [decide_eq_true (show (((ok1, ok2), d) : (Str × Str) × Counts).1.1 = k1
            ∧ (((ok1, ok2), d) : (Str × Str) × Counts).1.2 = k2 from
            ⟨hko.1.symm, hko.2.symm⟩)]
          rw [Bool.true_or]
        rw [htouch, if_pos rfl]
        rw [opsSum2, if_pos (⟨hko.1.symm, hko.2.symm⟩ :
          (((ok1, ok2), d) : (Str × Str) × Counts).1.1 = k1
            ∧ (((ok1, ok2), d) : (Str × Str) × Counts).1.2 = k2)]
        obtain ⟨hk1, hk2⟩ := hko
        subst hk1
        subst hk2
        by_cases ht2 : touches2 k1 k2 ops = true
        · rw [if_pos ht2, Option.getD_some]
          rw [addC_addC, addC_comm (opsSum2 k1 k2 ops) d, ← addC_addC]
        · rw [if_neg ht2]
          rw [Bool.not_eq_true] at ht2
          rw [opsSum2_untouched ht2, addC_right_zero]
      · rw [if_neg hko]
        have htouch : touches2 k1 k2 (((ok1, ok2), d) :: ops) = touches2 k1 k2 ops := by
          rw [touches2, touches2, List.any_cons]
          have hd : decide ((((ok1, ok2), d) : (Str × Str) × Counts).1.1 = k1
              ∧ (((ok1, ok2), d) : (Str × Str) × Counts).1.2 = k2) = false := by
            rw [decide_eq_false_iff_not]
            intro hh
            exact hko ⟨hh.1.symm, hh.2.symm⟩
          rw [hd]
          simp
        rw [htouch, opsSum2, if_neg (fun hh :
          (((ok1, ok2), d) : (Str × Str) × Counts).1.1 = k1
            ∧ (((ok1, ok2), d) : (Str × Str) × Counts).1.2 = k2 =>
          hko ⟨hh.1.symm, hh.2.symm⟩)]
    · intro k1
      rw [hpres k1]
      rw [alFind_nestIns_none t hp ok1 ok2 d k1]
      rw [touchesOuter, touchesOuter, List.any_cons]
      constructor
      · rintro ⟨⟨hfn, hne⟩, hto⟩
        refine ⟨hfn, ?_⟩
        rw [Bool.or_eq_false_iff]
        refine ⟨?_, hto⟩
        rw [decide_eq_false_iff_not]
        exact fun he => hne he.symm
      · rintro ⟨hfn, h⟩
        rw [Bool.or_eq_false_iff] at h
        refine ⟨⟨hfn, ?_⟩, h.2⟩
        intro he
        rw [decide_eq_false_iff_not] at h
        exact h.1 he.symm

theorem repExt {t u : RepMap}
    (hpt : List.Pairwise (fun x y => strLt x.1 y.1 = true) t)
    (hint : ∀ e ∈ t, List.Pairwise (fun x y => strLt x.1 y.1 = true) e.2)
    (hpu : List.Pairwise (fun x y => strLt x.1 y.1 = true) u)
    (hinu : ∀ e ∈ u, List.Pairwise (fun x y => strLt x.1 y.1 = true) e.2)
    (hpres : ∀ k1, alFind k1 t = none ↔ alFind k1 u = none)
    (hpair : ∀ k1 k2, getOpt2 t k1 k2 = getOpt2 u k1 k2) : t = u := by
  apply alExt hpt hpu
  intro k1
  cases hft : alFind k1 t with
  | none =>
    cases hfu : alFind k1 u with
    | none => rfl
    | some iu =>
      rw [(hpres k1).mp hft] at hfu
      exact Option.noConfusion hfu
  | some it =>
    cases hfu : alFind k1 u with
    | none =>
      rw [(hpres k1).mpr hfu] at hft
      exact Option.noConfusion hft
    | some iu =>
      have hinner : it = iu := by
        apply alExt (hint _ (alFind_mem hft)) (hinu _ (alFind_mem hfu))
        intro k2
        have hp2 := hpair k1 k2
        rw [getOpt2, getOpt2, hft, hfu] at hp2
        simpa using hp2
      rw [hinner]

theorem opsSum2_cons (x y : Str) (d : Counts) (ops : List ((Str × Str) × Counts))
    (k1 k2 : Str) :
    opsSum2 k1 k2 (((x, y), d) :: ops)
      = if x = k1 ∧ y = k2 then addC d (opsSum2 k1 k2 ops) else opsSum2 k1 k2 ops := rfl

theorem touches2_cons (x y : Str) (d : Counts) (ops : List ((Str × Str) × Counts))
    (k1 k2 : Str) :
    touches2 k1 k2 (((x, y), d) :: ops)
      = (decide (x = k1 ∧ y = k2) || touches2 k1 k2 ops) := rfl

theorem touchesOuter_cons (x y : Str) (d : Counts) (ops : List ((Str × Str) × Counts))
    (k1 : Str) :
    touchesOuter k1 (((x, y), d) :: ops) = (decide (x = k1) || touchesOuter k1 ops) := rfl

theorem touches2_repOps (fI fL : Nat → Str) (pfx : Nat) (c c' : Int) (k1 k2 : Str) :
    ∀ L : List Nat,
    touches2 k1 k2 (repOps fI fL pfx c L) = touches2 k1 k2 (repOps fI fL pfx c' L) := by
  intro L
  induction L with
  | nil => rfl
  | cons i rest ih =>
    rw [repOps, repOps, touches2_cons, touches2_cons, ih]

theorem touchesOuter_repOps (fI fL : Nat → Str) (pfx : Nat) (c c' : Int) (k1 : Str) :
    ∀ L : List Nat,
    touchesOuter k1 (repOps fI fL pfx c L) = touchesOuter k1 (repOps fI fL pfx c' L) := by
  intro L
  induction L with
  | nil => rfl
  | cons i rest ih =>
    rw [repOps, repOps, touchesOuter_cons, touchesOuter_cons, ih]

theorem addC_exchange (a b c d : Counts) :
    addC (addC a b) (addC c d) = addC (addC a c) (addC b d) := by
  obtain ⟨a1, a2⟩ := a
  obtain ⟨b1, b2⟩ := b
  obtain ⟨c1, c2⟩ := c
  obtain ⟨d1, d2⟩ := d
  simp only [addC, Prod.mk.injEq]
  constructor <;> ring

theorem repOps_sum_add (fI fL : Nat → Str) (pfx : Nat) (c1 c2 : Int) (k1 k2 : Str) :
    ∀ L : List Nat,
    addC (opsSum2 k1 k2 (repOps fI fL pfx c2 L)) (opsSum2 k1 k2 (repOps fI fL pfx c1 L))
      = opsSum2 k1 k2 (repOps fI fL pfx (c1 + c2) L) := by
  intro L
  induction L with
  | nil => simp [repOps, opsSum2, addC]
  | cons i rest ih =>
    rw [repOps, repOps, repOps, opsSum2_cons, opsSum2_cons, opsSum2_cons]
    by_cases hk : fI i = k1 ∧ fL i = k2
    · rw [if_pos hk, if_pos hk, if_pos hk]
      rw [addC_exchange, ih]
      by_cases hle : i + 1 ≤ pfx
      · rw [if_pos hle, if_pos hle, if_pos hle]
        have hd : addC ((c2 : Int), (0 : Int)) ((c1 : Int), (0 : Int))
            = ((c1 + c2 : Int), (0 : Int)) := by
          simp [addC]
        rw [hd]
      · rw [if_neg hle, if_neg hle, if_neg hle]
        have hd : addC ((0 : Int), (c2 : Int)) ((0 : Int), (c1 : Int))
            = ((0 : Int), (c1 + c2 : Int)) := by
          simp [addC]
        rw [hd]
    · rw [if_neg hk, if_neg hk, if_neg hk]
      exact ih

theorem applyOps_twoKey_add (f g : Nat → Str) (c1 c2 : Int) (L : List Nat) (t : FlatMap)
    (ht : List.Pairwise (fun x y => strLt x.1 y.1 = true) t) :
    applyOps (twoKeyOps f g c2 L) (applyOps (twoKeyOps f g c1 L) t)
      = applyOps (twoKeyOps f g (c1 + c2) L) t := by
  apply alExt (applyOps_sorted _ _ (applyOps_sorted _ _ ht)) (applyOps_sorted _ _ ht)
  intro k
  rw [alFind_applyOps (twoKeyOps f g c2 L) (applyOps (twoKeyOps f g c1 L) t)
    (applyOps_sorted _ _ ht) k]
  rw [alFind_applyOps (twoKeyOps f g c1 L) t ht k]
  rw [alFind_applyOps (twoKeyOps f g (c1 + c2) L) t ht k]
  rw [twoKeyOps_touch f g c2 (c1 + c2) k L, twoKeyOps_touch f g c1 (c1 + c2) k L]
  by_cases htc : opsTouches k (twoKeyOps f g (c1 + c2) L) = true
  · rw [if_pos htc, if_pos htc, if_pos htc, Option.getD_some, addC_addC,
      twoKeyOps_sum_add f g c1 c2 k L]
  · rw [if_neg htc, if_neg htc, if_neg htc]

theorem applyOps2_rep_add (fI fL : Nat → Str) (pfx : Nat) (c1 c2 : Int) (L : List Nat)
    (t : RepMap)
    (hp : List.Pairwise (fun x y => strLt x.1 y.1 = true) t)
    (hin : ∀ e ∈ t, List.Pairwise (fun x y => strLt x.1 y.1 = true) e.2) :
    applyOps2 (repOps fI fL pfx c2 L) (applyOps2 (repOps fI fL pfx c1 L) t)
      = applyOps2 (repOps fI fL pfx (c1 + c2) L) t := by
  obtain ⟨⟨hp1, hin1⟩, hchar1, hpres1⟩ := applyOps2_char (repOps fI fL pfx c1 L) t hp hin
  obtain ⟨⟨hp2, hin2⟩, hchar2, hpres2⟩ :=
    applyOps2_char (repOps fI fL pfx c2 L) _ hp1 hin1
  obtain ⟨⟨hp12, hin12⟩, hchar12, hpres12⟩ :=
    applyOps2_char (repOps fI fL pfx (c1 + c2) L) t hp hin
  apply repExt hp2 hin2 hp12 hin12
  · intro k1
    rw [hpres2 k1, hpres1 k1, hpres12 k1]
    rw [touchesOuter_repOps fI fL pfx c2 (c1 + c2) k1 L,
      touchesOuter_repOps fI fL pfx c1 (c1 + c2) k1 L]
    constructor
    · rintro ⟨⟨hfn, hT⟩, _⟩
      exact ⟨hfn, hT⟩
    · rintro ⟨hfn, hT⟩
      exact ⟨⟨hfn, hT⟩, hT⟩
  · intro k1 k2
    rw [hchar2 k1 k2, hchar1 k1 k2, hchar12 k1 k2]
    rw [touches2_repOps fI fL pfx c2 (c1 + c2) k1 k2 L,
      touches2_repOps fI fL pfx c1 (c1 + c2) k1 k2 L]
    by_cases htc : touches2 k1 k2 (repOps fI fL pfx (c1 + c2) L) = true
    · rw [if_pos htc, if_pos htc, if_pos htc, Option.getD_some, addC_addC,
        repOps_sum_add fI fL pfx c1 c2 k1 k2 L]
    · rw [if_neg htc, if_neg htc, if_neg htc]

theorem modelExt (a b : Model) (h1 : a.replacements = b.replacements)
    (h2 : a.lemcounts = b.lemcounts) (h3 : a.infcounts = b.infcounts)
    (h4 : a.max_suffix_size = b.max_suffix_size) (h5 : a.is_trimmed = b.is_trimmed) :
    a = b := by
  cases a
  cases b
  rw [Model.mk.injEq]
  exact ⟨h1, h2, h3, h4, h5⟩

theorem foldl_trainStep_add (inf lem : Str) (infcp lemcp : List Nat) (pfx : Nat)
    (c1 c2 : Int) (L : List Nat) (md : Model) (hs : md.sortedB = true) :
    L.foldl (trainStep inf lem infcp lemcp pfx c2)
        (L.foldl (trainStep inf lem infcp lemcp pfx c1) md)
      = L.foldl (trainStep inf lem infcp lemcp pfx (c1 + c2)) md := by
  obtain ⟨hlB, hiB, hrB, hr2B⟩ := sortedB_parts hs
  have hlp := keysSortedB_pairwise hlB
  have hip := keysSortedB_pairwise hiB
  have hrp := keysSortedB_pairwise hrB
  have hrin : ∀ e ∈ md.replacements, List.Pairwise (fun x y => strLt x.1 y.1 = true) e.2 :=
    fun e he => keysSortedB_pairwise (hr2B e he)
  have hT1 := foldl_trainStep_tables inf lem infcp lemcp pfx c1 L md
  have hT2 := foldl_trainStep_tables inf lem infcp lemcp pfx c2 L
    (L.foldl (trainStep inf lem infcp lemcp pfx c1) md)
  have hT12 := foldl_trainStep_tables inf lem infcp lemcp pfx (c1 + c2) L md
  apply modelExt
  · rw [hT2.2.2.1, hT1.2.2.1, hT12.2.2.1]
    exact applyOps2_rep_add _ _ _ _ _ _ _ hrp hrin
  · rw [hT2.1, hT1.1, hT12.1]
    exact applyOps_twoKey_add _ _ _ _ _ _ hlp
  · rw [hT2.2.1, hT1.2.1, hT12.2.1]
    exact applyOps_twoKey_add _ _ _ _ _ _ hip
  · rw [hT2.2.2.2.2, hT1.2.2.2.2, hT12.2.2.2.2]
  · rw [hT2.2.2.2.1, hT1.2.2.2.1, hT12.2.2.2.1]

/-- C8: on a sorted non-trimmed store, training the same `(inflected, lemma)`
pair twice with positive counts `c1` then `c2` produces exactly the model of a
single training call with count `c1 + c2` (identical frequency tables,
`max_suffix_size` and trim flag). -/
theorem C8_additivity (m : Model) (inflected lemWord : Str) (c1 c2 : Int)
    (icp lcp : List Nat)
    (hs : m.sortedB = true) (htr : m.is_trimmed = false)
    (hc1 : 0 < c1) (hc2 : 0 < c2)
    (hi : store_codepoints (36 :: inflected) = some icp)
    (hl : store_codepoints (36 :: lemWord) = some lcp) :
    (m.update inflected lemWord c1).bind (fun m1 => m1.update inflected lemWord c2)
      = m.update inflected lemWord (c1 + c2) := by
  have htrim1 := (foldl_trainStep_tables (36 :: inflected) (36 :: lemWord)
    (icp ++ [(36 :: inflected : Str).length]) (lcp ++ [(36 :: lemWord : Str).length])
    (common_prefix_size (36 :: inflected) (36 :: lemWord)
      (icp ++ [(36 :: inflected : Str).length]) (lcp ++ [(36 :: lemWord : Str).length]))
    c1 (trainIndices
      (max (icp ++ [(36 :: inflected : Str).length]).length
        (lcp ++ [(36 :: lemWord : Str).length]).length) m.max_suffix_size) m).2.2.2
  rw [Model.update, if_neg (by rw [htr]; exact Bool.false_ne_true)]
  simp only [hi, hl]
  simp only [Except.bind]
  rw [Model.update, if_neg (by rw [htrim1.1, htr]; exact Bool.false_ne_true)]
  simp only [hi, hl]
  rw [htrim1.2]
  rw [Model.update, if_neg (by rw [htr]; exact Bool.false_ne_true)]
  simp only [hi, hl]
  rw [foldl_trainStep_add (36 :: inflected) (36 :: lemWord)
    (icp ++ [(36 :: inflected : Str).length]) (lcp ++ [(36 :: lemWord : Str).length])
    (common_prefix_size (36 :: inflected) (36 :: lemWord)
      (icp ++ [(36 :: inflected : Str).length]) (lcp ++ [(36 :: lemWord : Str).length]))
    c1 c2 (trainIndices
      (max (icp ++ [(36 :: inflected : Str).length]).length
        (lcp ++ [(36 :: lemWord : Str).length]).length) m.max_suffix_size) m hs]

/-- Witness for C8: two trainings of `("ab", "a")` with counts 2 then 3 on a
fresh store coincide with one training with count 5. -/
theorem C8_witness :
    ((emptyModel 4).update [97, 98] [97] 2).bind (fun m1 => m1.update [97, 98] [97] 3)
      = (emptyModel 4).update [97, 98] [97] (2 + 3) :=
  C8_additivity (emptyModel 4) [97, 98] [97] 2 3 [0, 1, 2] [0, 1] (by decide) rfl
    (by decide) (by decide) (by decide) (by decide)

/-- C9 amended witness: a concrete valid UTF-8 string with a two-byte
codepoint. -/
theorem C9_amended_witness :
    ValidUTF8 [99, 195, 169] = true ∧
    (∃ v, store_codepoints [99, 195, 169] = some v
      ∧ strictIncrB (v ++ [([99, 195, 169] : Str).length]) = true
      ∧ (v ++ [([99, 195, 169] : Str).length]).getLastD 0 = ([99, 195, 169] : Str).length) :=
  ⟨by decide, (C9_amended [99, 195, 169]).1 (by decide)⟩

/-! Serialization round-trip (claim C3): decimal rendering and `%ld`. -/

theorem parseDigits_nonDigit {c : Nat} (hc : isDigit c = false) (r : Str) (acc : Nat) :
    parseDigits (c :: r) acc = (acc, c :: r) := by
  rw [parseDigits, if_neg (by rw [hc]; exact Bool.false_ne_true)]

theorem natDecFuel_all_digits : ∀ (fuel n : Nat), (natDecFuel fuel n).all isDigit = true := by
  intro fuel
  induction fuel with
  | zero =>
    intro n
    rfl
  | succ f ih =>
    intro n
    rw [natDecFuel]
    by_cases h : n < 10
    · rw [if_pos h]
      simp only [List.all_cons, List.all_nil, Bool.and_true]
      rw [isDigit]
      simp only [Bool.and_eq_true, decide_eq_true_eq]
      omega
    · rw [if_neg h]
      rw [List.all_append, ih (n / 10)]
      simp only [List.all_cons, List.all_nil, Bool.and_true, Bool.true_and]
      rw [isDigit]
      simp only [Bool.and_eq_true, decide_eq_true_eq]
      omega

theorem natDecFuel_ne_nil (fuel n : Nat) (hf : 0 < fuel) : natDecFuel fuel n ≠ [] := by
  cases fuel with
  | zero => omega
  | succ f =>
    rw [natDecFuel]
    by_cases h : n < 10
    · rw [if_pos h]
      exact List.cons_ne_nil _ _
    · rw [if_neg h]
      intro he
      exact List.cons_ne_nil _ _ (List.append_eq_nil.mp he).2

theorem parseDigits_natDecFuel : ∀ (fuel n acc : Nat) (rest : Str), n < 10 ^ fuel →
    parseDigits (natDecFuel fuel n ++ rest) acc
      = parseDigits rest (acc * 10 ^ (natDecFuel fuel n).length + n) := by
  intro fuel
  induction fuel with
  | zero =>
    intro n acc rest hn
    rw [pow_zero] at hn
    have hn0 : n = 0 := by omega
    subst hn0
    rw [show natDecFuel 0 0 = [] from rfl]
    rw [List.nil_append, List.length_nil, pow_zero, Nat.mul_one, Nat.add_zero]
  | succ f ih =>
    intro n acc rest hn
    rw [natDecFuel]
    by_cases h : n < 10
    · rw [if_pos h]
      rw [List.singleton_append]
      rw [parseDigits, if_pos (by
        rw [isDigit]
        simp only [Bool.and_eq_true, decide_eq_true_eq]
        omega)]
      rw [List.length_singleton, pow_one]
      have h48 : 48 + n - 48 = n := by omega
      rw [h48]
    · rw [if_neg h]
      have hdiv : n / 10 < 10 ^ f := by
        rw [pow_succ] at hn
        omega
      rw [List.append_assoc, List.singleton_append]
      rw [ih (n / 10) acc ((48 + n % 10) :: rest) hdiv]
      rw [parseDigits, if_pos (by
        rw [isDigit]
        simp only [Bool.and_eq_true, decide_eq_true_eq]
        omega)]
      rw [List.length_append, List.length_singleton]
      have harith : (acc * 10 ^ (natDecFuel f (n / 10)).length + n / 10) * 10
            + (48 + n % 10 - 48)
          = acc * 10 ^ ((natDecFuel f (n / 10)).length + 1) + n := by
        have h48 : 48 + n % 10 - 48 = n % 10 := by omega
        rw [h48, pow_succ]
        have hqr : n / 10 * 10 + n % 10 = n := by omega
        calc (acc * 10 ^ (natDecFuel f (n / 10)).length + n / 10) * 10 + n % 10
            = acc * (10 ^ (natDecFuel f (n / 10)).length * 10)
              + (n / 10 * 10 + n % 10) := by ring
          _ = acc * (10 ^ (natDecFuel f (n / 10)).length * 10) + n := by rw [hqr]
      rw [harith]

theorem parseDigits_natDec (n : Nat) {c : Nat} (hc : isDigit c = false) (rest : Str) :
    parseDigits (natDec n ++ c :: rest) 0 = (n, c :: rest) := by
  rw [natDec, parseDigits_natDecFuel (n + 1) n 0 (c :: rest)
    (lt_of_lt_of_le (Nat.lt_pow_self (by norm_num) n)
      (Nat.pow_le_pow_right (by norm_num) (Nat.le_succ n)))]
  rw [parseDigits_nonDigit hc]
  rw [Nat.zero_mul, Nat.zero_add]

theorem parseLong_digit {d : Nat} (hd : isDigit d = true) (r : Str) :
    parseLong (d :: r)
      = some (((parseDigits (d :: r) 0).1 : Int), (parseDigits (d :: r) 0).2) := by
  rw [isDigit, Bool.and_eq_true, decide_eq_true_eq, decide_eq_true_eq] at hd
  obtain ⟨h1, h2⟩ := hd
  interval_cases d <;> rfl

theorem parseLong_minus {d : Nat} (hd : isDigit d = true) (r : Str) :
    parseLong (45 :: d :: r)
      = some (-((parseDigits (d :: r) 0).1 : Int), (parseDigits (d :: r) 0).2) := by
  rw [isDigit, Bool.and_eq_true, decide_eq_true_eq, decide_eq_true_eq] at hd
  obtain ⟨h1, h2⟩ := hd
  interval_cases d <;> rfl

theorem natDec_cons (n : Nat) : ∃ d tl, natDec n = d :: tl ∧ isDigit d = true := by
  cases hnd : natDec n with
  | nil => exact absurd hnd (natDecFuel_ne_nil (n + 1) n (Nat.succ_pos n))
  | cons d tl =>
    refine ⟨d, tl, rfl, ?_⟩
    have hall := natDecFuel_all_digits (n + 1) n
    rw [show natDecFuel (n + 1) n = natDec n from rfl, hnd, List.all_cons,
      Bool.and_eq_true] at hall
    exact hall.1

theorem parseLong_natDec (n : Nat) {c : Nat} (hc : isDigit c = false) (rest : Str) :
    parseLong (natDec n ++ c :: rest) = some ((n : Int), c :: rest) := by
  obtain ⟨d, tl, hnd, hd⟩ := natDec_cons n
  rw [hnd, List.cons_append]
  rw [parseLong_digit hd]
  rw [← List.cons_append, ← hnd]
  rw [parseDigits_natDec n hc rest]

theorem parseLong_intDec (i : Int) {c : Nat} (hc : isDigit c = false) (rest : Str) :
    parseLong (intDec i ++ c :: rest) = some (i, c :: rest) := by
  rw [intDec]
  by_cases hi : i < 0
  · rw [if_pos hi]
    obtain ⟨d, tl, hnd, hd⟩ := natDec_cons (-i).toNat
    rw [List.cons_append, hnd, List.cons_append]
    rw [parseLong_minus hd]
    rw [← List.cons_append, ← hnd]
    rw [parseDigits_natDec (-i).toNat hc rest]
    show some (-(((-i).toNat : Int)), c :: rest) = some (i, c :: rest)
    rw [Int.toNat_of_nonneg (by omega : (0 : Int) ≤ -i), neg_neg]
  · rw [if_neg hi]
    rw [parseLong_natDec i.toNat hc rest]
    rw [Int.toNat_of_nonneg (by omega : (0 : Int) ≤ i)]

theorem dropWhile_spaces_append : ∀ (sp : Str), sp.all isSpace = true → ∀ (s : Str),
    (sp ++ s).dropWhile isSpace = s.dropWhile isSpace := by
  intro sp
  induction sp with
  | nil =>
    intro _ s
    rw [List.nil_append]
  | cons c sp ih =>
    intro hall s
    rw [List.all_cons, Bool.and_eq_true] at hall
    rw [List.cons_append, List.dropWhile_cons, if_pos hall.1]
    exact ih hall.2 s

theorem parseLong_spaces (sp : Str) (hsp : sp.all isSpace = true) (s : Str) :
    parseLong (sp ++ s) = parseLong s := by
  rw [parseLong, parseLong, dropWhile_spaces_append sp hsp s]

theorem bnot_true {b : Bool} (h : (!b) = true) : b = false := by
  cases b with
  | false => rfl
  | true => exact absurd h (by decide)

theorem strLt_asymm {a b : Str} (h : strLt a b = true) : strLt b a = false := by
  cases hba : strLt b a with
  | false => rfl
  | true => exact absurd (strLt_trans h hba) (by rw [strLt_irrefl a]; exact Bool.false_ne_true)

theorem spanNonTab_pre : ∀ (pre : Str) (fuel : Nat) (s : Str),
    pre.all (fun c => c != 9) = true → pre.length ≤ fuel →
    spanNonTab fuel (pre ++ 9 :: s) = (pre, 9 :: s) := by
  intro pre
  induction pre with
  | nil =>
    intro fuel s _ _
    cases fuel with
    | zero => rfl
    | succ f =>
      rw [List.nil_append, spanNonTab, if_pos (show (9 == 9) = true from rfl)]
  | cons c pre ih =>
    intro fuel s hall hlen
    rw [List.all_cons, Bool.and_eq_true] at hall
    have hc9 : (c == 9) = false := bnot_true hall.1
    cases fuel with
    | zero =>
      rw [List.length_cons] at hlen
      omega
    | succ f =>
      rw [List.cons_append]
      simp only [spanNonTab]
      rw [if_neg (by rw [hc9]; exact Bool.false_ne_true)]
      rw [ih f s hall.2 (by rw [List.length_cons] at hlen; omega)]

theorem parseKeyField_pre (pre : Str) (s : Str) (hne : pre ≠ [])
    (hnotab : pre.all (fun c => c != 9) = true) (hlen : pre.length ≤ 1024) :
    parseKeyField (pre ++ 9 :: s) = some (pre, 9 :: s) := by
  have hemp : pre.isEmpty = false := by
    cases pre with
    | nil => exact absurd rfl hne
    | cons a t => rfl
  simp [parseKeyField, spanNonTab_pre pre 1024 s hnotab hlen, hemp]

theorem ltrim_no_space (k : Str) (hh : isSpace (k.headD 0) = false) : ltrim k = k := by
  cases k with
  | nil => rfl
  | cons c t =>
    rw [List.headD_cons] at hh
    rw [ltrim, List.dropWhile_cons, if_neg (by rw [hh]; exact Bool.false_ne_true)]

theorem rtrim_no_space (k : Str) (hl : isSpace (k.getLastD 0) = false) : rtrim k = k := by
  rw [rtrim]
  cases hrev : k.reverse with
  | nil =>
    have hk : k = [] := by
      have := congrArg List.reverse hrev
      rwa [List.reverse_reverse, List.reverse_nil] at this
    rw [hk]
    rfl
  | cons c t =>
    have hk : k = t.reverse ++ [c] := by
      have := congrArg List.reverse hrev
      rwa [List.reverse_reverse, List.reverse_cons] at this
    have hc : isSpace c = false := by
      rw [hk, List.getLastD_concat] at hl
      exact hl
    rw [List.dropWhile_cons, if_neg (by rw [hc]; exact Bool.false_ne_true)]
    rw [List.reverse_cons]
    exact hk.symm

theorem trimStr_goodKey {k : Str} (hg : goodKey k = true) : trimStr k = k := by
  simp only [goodKey, Bool.and_eq_true] at hg
  obtain ⟨⟨⟨⟨hne, hlen⟩, hnl⟩, hhead⟩, hlast⟩ := hg
  rw [trimStr, rtrim_no_space k (bnot_true hlast)]
  exact ltrim_no_space k (bnot_true hhead)

theorem trimStr_nl_goodKey {k : Str} (hg : goodKey k = true) : trimStr (10 :: k) = k := by
  simp only [goodKey, Bool.and_eq_true] at hg
  obtain ⟨⟨⟨⟨hne, hlen⟩, hnl⟩, hhead⟩, hlast⟩ := hg
  cases k with
  | nil => exact absurd hne (by decide)
  | cons a t =>
    have hlast' : isSpace ((a :: t).getLastD 0) = false := bnot_true hlast
    rw [List.getLastD_cons] at hlast'
    have hl2 : isSpace ((10 :: a :: t).getLastD 0) = false := by
      rw [List.getLastD_cons, List.getLastD_cons]
      exact hlast'
    rw [trimStr, rtrim_no_space _ hl2, ltrim, List.dropWhile_cons,
      if_pos (show isSpace 10 = true from rfl)]
    exact ltrim_no_space _ (bnot_true hhead)

theorem alInsertWith_append_gt {α : Type} (f : α → α) (v0 : α) (k : Str) :
    ∀ (pre : List (Str × α)), (∀ e ∈ pre, strLt e.1 k = true) →
    alInsertWith f v0 k pre = pre ++ [(k, f v0)] := by
  intro pre
  induction pre with
  | nil =>
    intro _
    rfl
  | cons a pre ih =>
    intro hall
    obtain ⟨k0, v⟩ := a
    have hk0 : strLt k0 k = true := hall (k0, v) (List.mem_cons_self _ _)
    rw [alInsertWith, if_neg (by rw [strLt_asymm hk0]; exact Bool.false_ne_true),
      if_neg (fun he => strLt_ne hk0 he.symm), List.cons_append]
    rw [ih (fun e he => hall e (List.mem_cons_of_mem _ he))]

theorem alInsertWith_last_self {α : Type} (f : α → α) (v0 : α) (k : Str) (cur : α) :
    ∀ (pre : List (Str × α)), (∀ e ∈ pre, strLt e.1 k = true) →
    alInsertWith f v0 k (pre ++ [(k, cur)]) = pre ++ [(k, f cur)] := by
  intro pre
  induction pre with
  | nil =>
    intro _
    rw [List.nil_append, List.nil_append, alInsertWith,
      if_neg (by rw [strLt_irrefl k]; exact Bool.false_ne_true), if_pos rfl]
  | cons a pre ih =>
    intro hall
    obtain ⟨k0, v⟩ := a
    have hk0 : strLt k0 k = true := hall (k0, v) (List.mem_cons_self _ _)
    rw [List.cons_append, alInsertWith,
      if_neg (by rw [strLt_asymm hk0]; exact Bool.false_ne_true),
      if_neg (fun he => strLt_ne hk0 he.symm)]
    rw [ih (fun e he => hall e (List.mem_cons_of_mem _ he)), List.cons_append]

theorem saveFlat_cons (e : Str × Counts) (t : FlatMap) :
    saveFlat (e :: t)
      = e.1 ++ 9 :: intDec e.2.1 ++ 9 :: intDec e.2.2 ++ 10 :: saveFlat t := rfl

theorem saveReps_cons (e : Str × FlatMap) (t : RepMap) :
    saveReps (e :: t)
      = e.1 ++ 9 :: natDec e.2.length ++ 10 :: saveFlat e.2 ++ saveReps t := rfl

theorem parseLong_tab (s : Str) : parseLong (9 :: s) = parseLong s :=
  parseLong_spaces [9] rfl s

theorem parseLong_nl (s : Str) : parseLong (10 :: s) = parseLong s :=
  parseLong_spaces [10] rfl s

theorem goodKey_ne_nil {k : Str} (hg : goodKey k = true) : k ≠ [] := by
  simp only [goodKey, Bool.and_eq_true] at hg
  intro he
  subst he
  exact absurd hg.1.1.1.1 (by decide)

theorem goodKey_no_tab {k : Str} (hg : goodKey k = true) :
    k.all (fun c => c != 9) = true := by
  simp only [goodKey, Bool.and_eq_true] at hg
  have hnl := hg.1.1.2
  rw [List.all_eq_true] at hnl ⊢
  intro c hc
  have hcc := hnl c hc
  rw [Bool.and_eq_true] at hcc
  exact hcc.1

theorem goodKey_len {k : Str} (hg : goodKey k = true) : k.length ≤ 1023 := by
  simp only [goodKey, Bool.and_eq_true] at hg
  exact of_decide_eq_true hg.1.1.1.2

theorem loadFlatEntries_replay (app : Model → Str → Int → Int → Model) :
    ∀ (t : FlatMap) (md : Model) (rest : Str),
    t.all (fun e => goodKey e.1) = true →
    loadFlatEntries app t.length md (10 :: (saveFlat t ++ rest))
      = some (t.foldl (fun md e => app md e.1 e.2.1 e.2.2) md, 10 :: rest) := by
  intro t
  induction t with
  | nil =>
    intro md rest _
    rw [show saveFlat [] = ([] : Str) from rfl, List.nil_append]
    rfl
  | cons e t ih =>
    intro md rest hall
    rw [List.all_cons, Bool.and_eq_true] at hall
    have htab : (10 :: e.1).all (fun c => c != 9) = true := by
      rw [List.all_cons, goodKey_no_tab hall.1]
      rfl
    have hlen1024 : (10 :: e.1).length ≤ 1024 := by
      rw [List.length_cons]
      have := goodKey_len hall.1
      omega
    rw [List.length_cons, saveFlat_cons]
    simp only [List.append_assoc, List.cons_append]
    rw [← List.cons_append]
    rw [loadFlatEntries, parseKeyField_pre (10 :: e.1) _ (List.cons_ne_nil _ _)
      htab hlen1024]
    simp only []
    rw [parseLong_tab, parseLong_intDec e.2.1 (show isDigit 9 = false from rfl)]
    simp only []
    rw [parseLong_tab, parseLong_intDec e.2.2 (show isDigit 10 = false from rfl)]
    simp only []
    rw [List.dropWhile_cons, if_neg (by decide)]
    rw [trimStr_nl_goodKey hall.1]
    rw [ih _ rest hall.2]
    rw [List.foldl_cons]

theorem loadFlatEntries_replay_first (app : Model → Str → Int → Int → Model)
    (t : FlatMap) (md : Model) (rest : Str)
    (hall : t.all (fun e => goodKey e.1) = true) (hne : t ≠ []) :
    loadFlatEntries app t.length md (saveFlat t ++ rest)
      = some (t.foldl (fun md e => app md e.1 e.2.1 e.2.2) md, 10 :: rest) := by
  cases t with
  | nil => exact absurd rfl hne
  | cons e t =>
    rw [List.all_cons, Bool.and_eq_true] at hall
    rw [List.length_cons, saveFlat_cons]
    simp only [List.append_assoc, List.cons_append]
    rw [loadFlatEntries, parseKeyField_pre e.1 _ (goodKey_ne_nil hall.1)
      (goodKey_no_tab hall.1) (le_trans (goodKey_len hall.1) (by norm_num))]
    simp only []
    rw [parseLong_tab, parseLong_intDec e.2.1 (show isDigit 9 = false from rfl)]
    simp only []
    rw [parseLong_tab, parseLong_intDec e.2.2 (show isDigit 10 = false from rfl)]
    simp only []
    rw [List.dropWhile_cons, if_neg (by decide)]
    rw [trimStr_goodKey hall.1]
    rw [loadFlatEntries_replay app t _ rest hall.2]
    rw [List.foldl_cons]

theorem foldl_insert_sorted : ∀ (t : FlatMap) (pre : FlatMap),
    List.Pairwise (fun a b => strLt a.1 b.1 = true) (pre ++ t) →
    t.foldl (fun acc e => alInsertWith (addC e.2) (0, 0) e.1 acc) pre = pre ++ t := by
  intro t
  induction t with
  | nil =>
    intro pre _
    rw [List.foldl_nil, List.append_nil]
  | cons e t ih =>
    intro pre hp
    rw [List.foldl_cons]
    have hlt : ∀ x ∈ pre, strLt x.1 e.1 = true := fun x hx =>
      (List.pairwise_append.mp hp).2.2 x hx e (List.mem_cons_self _ _)
    rw [alInsertWith_append_gt _ _ _ pre hlt, addC_right_zero]
    have hEta : ((e.1, e.2) : Str × Counts) = e := rfl
    rw [hEta]
    rw [ih (pre ++ [e]) (by rw [List.append_assoc, List.singleton_append]; exact hp)]
    rw [List.append_assoc, List.singleton_append]

theorem replay_lemma_fields : ∀ (t : FlatMap) (md : Model),
    t.foldl (fun md e => md.update_lemma e.1 e.2.1 e.2.2) md
      = { md with lemcounts :=
            t.foldl (fun acc e => alInsertWith (addC e.2) (0, 0) e.1 acc) md.lemcounts } := by
  intro t
  induction t with
  | nil =>
    intro md
    rfl
  | cons e t ih =>
    intro md
    rw [List.foldl_cons, List.foldl_cons, ih]
    rfl

theorem replay_inflected_fields : ∀ (t : FlatMap) (md : Model),
    t.foldl (fun md e => md.update_inflected e.1 e.2.1 e.2.2) md
      = { md with infcounts :=
            t.foldl (fun acc e => alInsertWith (addC e.2) (0, 0) e.1 acc) md.infcounts } := by
  intro t
  induction t with
  | nil =>
    intro md
    rfl
  | cons e t ih =>
    intro md
    rw [List.foldl_cons, List.foldl_cons, ih]
    rfl

theorem replay_rep_block : ∀ (inner : FlatMap) (md : Model) (okey : Str),
    inner.foldl (fun md e => md.update_replacement okey e.1 e.2.1 e.2.2) md
      = { md with replacements :=
          (inner.foldl (fun acc e =>
            alInsertWith (alInsertWith (addC e.2) (0, 0) e.1) [] okey acc)
            md.replacements) } := by
  intro inner
  induction inner with
  | nil =>
    intro md okey
    rfl
  | cons e t ih =>
    intro md okey
    rw [List.foldl_cons, List.foldl_cons, ih]
    rfl

theorem replay_reps_fields : ∀ (blocks : RepMap) (md : Model),
    blocks.foldl (fun md blk =>
        blk.2.foldl (fun md e => md.update_replacement blk.1 e.1 e.2.1 e.2.2) md) md
      = { md with replacements :=
          (blocks.foldl (fun acc blk =>
            blk.2.foldl (fun acc e =>
              alInsertWith (alInsertWith (addC e.2) (0, 0) e.1) [] blk.1 acc) acc)
            md.replacements) } := by
  intro blocks
  induction blocks with
  | nil =>
    intro md
    rfl
  | cons blk blocks ih =>
    intro md
    rw [List.foldl_cons, List.foldl_cons, replay_rep_block, ih]

theorem foldl_insert_rep_inner : ∀ (rest : FlatMap) (cur : FlatMap) (pre : RepMap)
    (okey : Str), (∀ x ∈ pre, strLt x.1 okey = true) →
    List.Pairwise (fun a b => strLt a.1 b.1 = true) (cur ++ rest) →
    rest.foldl (fun acc e =>
        alInsertWith (alInsertWith (addC e.2) (0, 0) e.1) [] okey acc)
      (pre ++ [(okey, cur)])
      = pre ++ [(okey, cur ++ rest)] := by
  intro rest
  induction rest with
  | nil =>
    intro cur pre okey _ _
    rw [List.foldl_nil, List.append_nil]
  | cons e rest ih =>
    intro cur pre okey hpre hp
    rw [List.foldl_cons]
    rw [alInsertWith_last_self _ _ _ cur pre hpre]
    have hcur : ∀ x ∈ cur, strLt x.1 e.1 = true := fun x hx =>
      (List.pairwise_append.mp hp).2.2 x hx e (List.mem_cons_self _ _)
    rw [alInsertWith_append_gt _ _ _ cur hcur, addC_right_zero]
    have hEta : ((e.1, e.2) : Str × Counts) = e := rfl
    rw [hEta]
    rw [ih (cur ++ [e]) pre okey hpre
      (by rw [List.append_assoc, List.singleton_append]; exact hp)]
    rw [List.append_assoc, List.singleton_append]

theorem foldl_insert_rep_block (inner : FlatMap) (pre : RepMap) (okey : Str)
    (hpre : ∀ x ∈ pre, strLt x.1 okey = true)
    (hp : List.Pairwise (fun a b => strLt a.1 b.1 = true) inner)
    (hne : inner ≠ []) :
    inner.foldl (fun acc e =>
        alInsertWith (alInsertWith (addC e.2) (0, 0) e.1) [] okey acc) pre
      = pre ++ [(okey, inner)] := by
  cases inner with
  | nil => exact absurd rfl hne
  | cons e rest =>
    rw [List.foldl_cons]
    rw [alInsertWith_append_gt _ _ _ pre hpre]
    rw [show alInsertWith (addC e.2) (0, 0) e.1 ([] : FlatMap) = [e] from by
      rw [show alInsertWith (addC e.2) (0, 0) e.1 ([] : FlatMap)
          = [(e.1, addC e.2 (0, 0))] from rfl, addC_right_zero]]
    rw [foldl_insert_rep_inner rest [e] pre okey hpre
      (by rw [List.singleton_append]; exact hp)]
    rw [List.singleton_append]

theorem foldl_insert_rep_sorted : ∀ (blocks : RepMap) (pre : RepMap),
    List.Pairwise (fun a b => strLt a.1 b.1 = true) (pre ++ blocks) →
    (∀ e ∈ blocks, List.Pairwise (fun a b => strLt a.1 b.1 = true) e.2) →
    (∀ e ∈ blocks, e.2 ≠ []) →
    blocks.foldl (fun acc blk =>
        blk.2.foldl (fun acc e =>
          alInsertWith (alInsertWith (addC e.2) (0, 0) e.1) [] blk.1 acc) acc) pre
      = pre ++ blocks := by
  intro blocks
  induction blocks with
  | nil =>
    intro pre _ _ _
    rw [List.foldl_nil, List.append_nil]
  | cons blk blocks ih =>
    intro pre hp hin hne
    rw [List.foldl_cons]
    have hpre : ∀ x ∈ pre, strLt x.1 blk.1 = true := fun x hx =>
      (List.pairwise_append.mp hp).2.2 x hx blk (List.mem_cons_self _ _)
    rw [foldl_insert_rep_block blk.2 pre blk.1 hpre (hin blk (List.mem_cons_self _ _))
      (hne blk (List.mem_cons_self _ _))]
    have hEta : ((blk.1, blk.2) : Str × FlatMap) = blk := rfl
    rw [hEta]
    rw [ih (pre ++ [blk]) (by rw [List.append_assoc, List.singleton_append]; exact hp)
      (fun e he => hin e (List.mem_cons_of_mem _ he))
      (fun e he => hne e (List.mem_cons_of_mem _ he))]
    rw [List.append_assoc, List.singleton_append]

theorem loadRepOuter_replay : ∀ (blocks : RepMap) (md : Model) (rest : Str),
    blocks.all (fun e => goodKey e.1 && e.2.all (fun p => goodKey p.1)) = true →
    blocks.all (fun e => !e.2.isEmpty) = true →
    loadRepOuter blocks.length md (10 :: (saveReps blocks ++ rest))
      = some (blocks.foldl (fun md blk =>
          blk.2.foldl (fun md e => md.update_replacement blk.1 e.1 e.2.1 e.2.2) md) md,
        10 :: rest) := by
  intro blocks
  induction blocks with
  | nil =>
    intro md rest _ _
    rw [show saveReps [] = ([] : Str) from rfl, List.nil_append]
    rfl
  | cons blk blocks ih =>
    intro md rest hall hne
    rw [List.all_cons, Bool.and_eq_true] at hall hne
    rw [Bool.and_eq_true] at hall
    obtain ⟨⟨hgk, hinner⟩, hblocks⟩ := hall
    have htab : (10 :: blk.1).all (fun c => c != 9) = true := by
      rw [List.all_cons, goodKey_no_tab hgk]
      rfl
    have hlen1024 : (10 :: blk.1).length ≤ 1024 := by
      rw [List.length_cons]
      have := goodKey_len hgk
      omega
    rw [List.length_cons, saveReps_cons]
    simp only [List.append_assoc, List.cons_append]
    rw [← List.cons_append]
    rw [loadRepOuter, parseKeyField_pre (10 :: blk.1) _ (List.cons_ne_nil _ _)
      htab hlen1024]
    simp only []
    rw [parseLong_tab, parseLong_natDec blk.2.length (show isDigit 10 = false from rfl)]
    simp only []
    rw [List.dropWhile_cons, if_neg (by decide)]
    rw [trimStr_nl_goodKey hgk]
    rw [show ((blk.2.length : Int)).toNat = blk.2.length from by omega]
    rw [loadFlatEntries_replay _ blk.2 md (saveReps blocks ++ rest) hinner]
    simp only []
    rw [ih _ rest hblocks hne.2]
    rw [List.foldl_cons]

theorem loadRepOuter_replay_first (blocks : RepMap) (md : Model) (rest : Str)
    (hall : blocks.all (fun e => goodKey e.1 && e.2.all (fun p => goodKey p.1)) = true)
    (hnein : blocks.all (fun e => !e.2.isEmpty) = true) (hne : blocks ≠ []) :
    loadRepOuter blocks.length md (saveReps blocks ++ rest)
      = some (blocks.foldl (fun md blk =>
          blk.2.foldl (fun md e => md.update_replacement blk.1 e.1 e.2.1 e.2.2) md) md,
        10 :: rest) := by
  cases blocks with
  | nil => exact absurd rfl hne
  | cons blk blocks =>
    rw [List.all_cons, Bool.and_eq_true] at hall hnein
    rw [Bool.and_eq_true] at hall
    obtain ⟨⟨hgk, hinner⟩, hblocks⟩ := hall
    rw [List.length_cons, saveReps_cons]
    simp only [List.append_assoc, List.cons_append]
    rw [loadRepOuter, parseKeyField_pre blk.1 _ (goodKey_ne_nil hgk)
      (goodKey_no_tab hgk) (le_trans (goodKey_len hgk) (by norm_num))]
    simp only []
    rw [parseLong_tab, parseLong_natDec blk.2.length (show isDigit 10 = false from rfl)]
    simp only []
    rw [List.dropWhile_cons, if_neg (by decide)]
    rw [trimStr_goodKey hgk]
    rw [show ((blk.2.length : Int)).toNat = blk.2.length from by omega]
    rw [loadFlatEntries_replay _ blk.2 md (saveReps blocks ++ rest) hinner]
    simp only []
    rw [loadRepOuter_replay blocks _ rest hblocks hnein.2]
    rw [List.foldl_cons]

theorem dropWhile_nl_natDec (n : Nat) (s : Str) :
    (natDec n ++ s).dropWhile (fun c => c == 10) = natDec n ++ s := by
  obtain ⟨d, tl, hnd, hd⟩ := natDec_cons n
  rw [isDigit, Bool.and_eq_true, decide_eq_true_eq, decide_eq_true_eq] at hd
  rw [hnd, List.cons_append, List.dropWhile_cons, if_neg (by
    intro h
    rw [beq_iff_eq] at h
    omega)]

theorem goodKey_head_nl {k : Str} (hg : goodKey k = true) :
    ∃ a k', k = a :: k' ∧ ((a == 10) = false) := by
  simp only [goodKey, Bool.and_eq_true] at hg
  obtain ⟨⟨⟨⟨hne, hlen⟩, hnl⟩, hhead⟩, hlast⟩ := hg
  cases k with
  | nil => exact absurd hne (by decide)
  | cons a k' =>
    refine ⟨a, k', rfl, ?_⟩
    have hsp : isSpace a = false := by
      have hb := bnot_true hhead
      rwa [List.headD_cons] at hb
    cases hq : (a == 10) with
    | false => rfl
    | true =>
      rw [beq_iff_eq] at hq
      subst hq
      exact absurd hsp (by decide)

theorem dropWhile_nl_saveFlat_cons (e : Str × Counts) (t : FlatMap) (R : Str)
    (hg : goodKey e.1 = true) :
    (saveFlat (e :: t) ++ R).dropWhile (fun c => c == 10) = saveFlat (e :: t) ++ R := by
  obtain ⟨a, k', hk, ha⟩ := goodKey_head_nl hg
  rw [saveFlat_cons, hk]
  simp only [List.append_assoc, List.cons_append]
  rw [List.dropWhile_cons, if_neg (by rw [ha]; exact Bool.false_ne_true)]

theorem dropWhile_nl_saveReps_cons (e : Str × FlatMap) (t : RepMap)
    (hg : goodKey e.1 = true) :
    (saveReps (e :: t)).dropWhile (fun c => c == 10) = saveReps (e :: t) := by
  obtain ⟨a, k', hk, ha⟩ := goodKey_head_nl hg
  rw [saveReps_cons, hk]
  simp only [List.append_assoc, List.cons_append]
  rw [List.dropWhile_cons, if_neg (by rw [ha]; exact Bool.false_ne_true)]

theorem loadFlat_section (app : Model → Str → Int → Int → Model) (t : FlatMap)
    (md : Model) (n : Nat) (z : Str)
    (hall : t.all (fun e => goodKey e.1) = true) :
    loadFlatEntries app t.length md
        ((10 :: (saveFlat t ++ (natDec n ++ 10 :: z))).dropWhile (fun c => c == 10))
      = some (t.foldl (fun md e => app md e.1 e.2.1 e.2.2) md,
          if t.isEmpty then natDec n ++ 10 :: z else 10 :: (natDec n ++ 10 :: z)) := by
  rw [List.dropWhile_cons, if_pos (show ((10 : Nat) == 10) = true from rfl)]
  cases t with
  | nil =>
    rw [show saveFlat [] = ([] : Str) from rfl, List.nil_append, dropWhile_nl_natDec]
    rfl
  | cons e t =>
    have hgk : goodKey e.1 = true := by
      have h := hall
      rw [List.all_cons, Bool.and_eq_true] at h
      exact h.1
    rw [dropWhile_nl_saveFlat_cons e t _ hgk]
    rw [loadFlatEntries_replay_first app (e :: t) md (natDec n ++ 10 :: z) hall
      (List.cons_ne_nil _ _)]
    rfl

theorem parseLong_ite_nl (b : Bool) (s : Str) :
    parseLong (if b then s else 10 :: s) = parseLong s := by
  cases b with
  | false =>
    rw [if_neg Bool.false_ne_true]
    exact parseLong_nl s
  | true =>
    rw [if_pos rfl]

theorem find?_eq_some_of_mem {α : Type} : ∀ {t : List (Str × α)},
    (t.map (fun x => x.1)).Nodup → ∀ {k : Str} {e : Str × α}, e ∈ t → k = e.1 →
    t.find? (fun x => decide (k = x.1)) = some e := by
  intro t
  induction t with
  | nil =>
    intro _ k e he _
    exact absurd he (List.not_mem_nil e)
  | cons a t ih =>
    intro hnd k e he hk
    obtain ⟨ha, ht⟩ := List.nodup_cons.mp hnd
    rcases List.mem_cons.mp he with rfl | hmem
    · exact List.find?_cons_of_pos _ (by rw [decide_eq_true_eq]; exact hk)
    · have hne : k ≠ a.1 := by
        intro hka
        exact ha (List.mem_map.mpr ⟨e, hmem, show e.1 = a.1 from by rw [← hk]; exact hka⟩)
      rw [@List.find?_cons_of_neg _ (fun x => decide (k = x.1)) a t
        (by rw [decide_eq_true_eq]; exact hne)]
      exact ih ht hmem hk

theorem alFind_eq_find? {α : Type} : ∀ (t : List (Str × α)) (k : Str),
    alFind k t = Option.map (fun e => e.2) (t.find? (fun e => decide (k = e.1))) := by
  intro t k
  induction t with
  | nil => rfl
  | cons e t ih =>
    obtain ⟨k', v⟩ := e
    rw [alFind]
    by_cases h : k = k'
    · rw [if_pos h, @List.find?_cons_of_pos _ (fun e => decide (k = e.1)) (k', v) t
        (by rw [decide_eq_true_eq]; exact h)]
      rfl
    · rw [if_neg h, @List.find?_cons_of_neg _ (fun e => decide (k = e.1)) (k', v) t
        (by rw [decide_eq_true_eq]; exact h)]
      exact ih

theorem foldl_ins_pairwise : ∀ (L : FlatMap) (init : FlatMap),
    List.Pairwise (fun a b => strLt a.1 b.1 = true) init →
    List.Pairwise (fun a b => strLt a.1 b.1 = true)
      (L.foldl (fun acc e => alInsertWith (addC e.2) (0, 0) e.1 acc) init) := by
  intro L
  induction L with
  | nil =>
    intro init hp
    exact hp
  | cons e L ih =>
    intro init hp
    rw [List.foldl_cons]
    exact ih _ (pairwise_alInsertWith hp)

theorem keys_nodup_of_pairwise {α : Type} {t : List (Str × α)}
    (hp : List.Pairwise (fun a b => strLt a.1 b.1 = true) t) :
    (t.map (fun e => e.1)).Nodup :=
  List.pairwise_map.mpr (hp.imp (fun h => strLt_ne h))

theorem alFind_foldl_ins : ∀ (L : FlatMap) (init : FlatMap) (k : Str),
    List.Pairwise (fun a b => strLt a.1 b.1 = true) init →
    (L.map (fun e => e.1)).Nodup →
    (∀ e ∈ L, alFind e.1 init = none) →
    alFind k (L.foldl (fun acc e => alInsertWith (addC e.2) (0, 0) e.1 acc) init)
      = (L.find? (fun e => decide (k = e.1))).elim (alFind k init) (fun e => some e.2) := by
  intro L
  induction L with
  | nil =>
    intro init k _ _ _
    rfl
  | cons e L ih =>
    intro init k hp hnd hinit
    obtain ⟨hhd, htl⟩ := List.nodup_cons.mp hnd
    have hne_tail : ∀ e' ∈ L, e'.1 ≠ e.1 := by
      intro e' he' heq
      exact hhd (List.mem_map.mpr ⟨e', he', show e'.1 = e.1 from heq⟩)
    rw [List.foldl_cons]
    rw [ih (alInsertWith (addC e.2) (0, 0) e.1 init) k (pairwise_alInsertWith hp) htl
      (fun e' he' => by
        rw [alFind_insert_other _ _ _ _ _ (hne_tail e' he')]
        exact hinit e' (List.mem_cons_of_mem _ he'))]
    by_cases hk : k = e.1
    · rw [@List.find?_cons_of_pos _ (fun x => decide (k = x.1)) e L
        (by rw [decide_eq_true_eq]; exact hk)]
      have hnone : L.find? (fun x => decide (k = x.1)) = none :=
        List.find?_eq_none.mpr (fun x hx => by
          rw [decide_eq_true_eq]
          intro hkx
          exact hne_tail x hx (by rw [← hkx, hk]))
      rw [hnone]
      show alFind k (alInsertWith (addC e.2) (0, 0) e.1 init) = some e.2
      rw [hk, alFind_insert_self _ _ _ hp, hinit e (List.mem_cons_self _ _),
        Option.getD_none, addC_right_zero]
    · rw [@List.find?_cons_of_neg _ (fun x => decide (k = x.1)) e L
        (by rw [decide_eq_true_eq]; exact hk)]
      rw [alFind_insert_other _ _ _ _ _ hk]

theorem foldl_ins_perm (L t : FlatMap) (hperm : L.Perm t)
    (hp : List.Pairwise (fun a b => strLt a.1 b.1 = true) t) :
    L.foldl (fun acc e => alInsertWith (addC e.2) (0, 0) e.1 acc) [] = t := by
  have hndt : (t.map (fun e => e.1)).Nodup := keys_nodup_of_pairwise hp
  have hndL : (L.map (fun e => e.1)).Nodup := ((hperm.map (fun e => e.1)).nodup_iff).mpr hndt
  apply alExt (foldl_ins_pairwise L [] List.Pairwise.nil) hp
  intro k
  rw [alFind_foldl_ins L [] k List.Pairwise.nil hndL (fun e _ => rfl)]
  rw [alFind_eq_find? t k]
  cases hf : t.find? (fun e => decide (k = e.1)) with
  | none =>
    have hLn : L.find? (fun e => decide (k = e.1)) = none :=
      List.find?_eq_none.mpr (fun x hx => List.find?_eq_none.mp hf x (hperm.subset hx))
    rw [hLn]
    rfl
  | some e =>
    have hmem := List.mem_of_find?_eq_some hf
    have hpred := List.find?_some hf
    rw [decide_eq_true_eq] at hpred
    rw [find?_eq_some_of_mem hndL (hperm.symm.subset hmem) hpred]
    rfl

theorem nested_fold_present : ∀ (restO : FlatMap) (acc : RepMap) (okey : Str)
    (cur : FlatMap),
    List.Pairwise (fun a b => strLt a.1 b.1 = true) acc →
    alFind okey acc = some cur →
    (∀ k, alFind k (restO.foldl (fun acc e =>
        alInsertWith (alInsertWith (addC e.2) (0, 0) e.1) [] okey acc) acc)
      = if k = okey
        then some (restO.foldl (fun c e => alInsertWith (addC e.2) (0, 0) e.1 c) cur)
        else alFind k acc)
    ∧ List.Pairwise (fun a b => strLt a.1 b.1 = true)
        (restO.foldl (fun acc e =>
          alInsertWith (alInsertWith (addC e.2) (0, 0) e.1) [] okey acc) acc) := by
  intro restO
  induction restO with
  | nil =>
    intro acc okey cur hp hfind
    refine ⟨fun k => ?_, hp⟩
    by_cases hk : k = okey
    · rw [if_pos hk, hk]
      exact hfind
    · rw [if_neg hk]
      rfl
  | cons e restO ih =>
    intro acc okey cur hp hfind
    have hacc' : alFind okey (alInsertWith (alInsertWith (addC e.2) (0, 0) e.1) [] okey acc)
        = some (alInsertWith (addC e.2) (0, 0) e.1 cur) := by
      rw [alFind_insert_self _ _ _ hp, hfind]
      rfl
    obtain ⟨hk', hp'⟩ := ih _ okey _ (pairwise_alInsertWith hp) hacc'
    rw [List.foldl_cons]
    refine ⟨fun k => ?_, hp'⟩
    rw [hk' k]
    by_cases hk : k = okey
    · rw [if_pos hk, if_pos hk, List.foldl_cons]
    · rw [if_neg hk, if_neg hk]
      exact alFind_insert_other _ _ _ _ _ hk

theorem nested_block_fold (e0 : Str × Counts) (restO : FlatMap) (okey : Str)
    (acc : RepMap)
    (hp : List.Pairwise (fun a b => strLt a.1 b.1 = true) acc)
    (habs : alFind okey acc = none) :
    (∀ k, alFind k ((e0 :: restO).foldl (fun acc e =>
        alInsertWith (alInsertWith (addC e.2) (0, 0) e.1) [] okey acc) acc)
      = if k = okey
        then some ((e0 :: restO).foldl (fun c e => alInsertWith (addC e.2) (0, 0) e.1 c) [])
        else alFind k acc)
    ∧ List.Pairwise (fun a b => strLt a.1 b.1 = true)
        ((e0 :: restO).foldl (fun acc e =>
          alInsertWith (alInsertWith (addC e.2) (0, 0) e.1) [] okey acc) acc) := by
  have hacc1 : alFind okey (alInsertWith (alInsertWith (addC e0.2) (0, 0) e0.1) [] okey acc)
      = some (alInsertWith (addC e0.2) (0, 0) e0.1 []) := by
    rw [alFind_insert_self _ _ _ hp, habs]
    rfl
  obtain ⟨hk', hp'⟩ := nested_fold_present restO _ okey _ (pairwise_alInsertWith hp) hacc1
  rw [List.foldl_cons]
  refine ⟨fun k => ?_, hp'⟩
  rw [hk' k]
  by_cases hk : k = okey
  · rw [if_pos hk, if_pos hk, List.foldl_cons]
  · rw [if_neg hk, if_neg hk]
    exact alFind_insert_other _ _ _ _ _ hk

theorem blocks_fold_char : ∀ (blocksO : RepMap) (acc : RepMap),
    List.Pairwise (fun a b => strLt a.1 b.1 = true) acc →
    (blocksO.map (fun b => b.1)).Nodup →
    (∀ b ∈ blocksO, alFind b.1 acc = none) →
    (∀ b ∈ blocksO, b.2 ≠ []) →
    (∀ k, alFind k (blocksO.foldl (fun acc blk =>
        blk.2.foldl (fun acc e =>
          alInsertWith (alInsertWith (addC e.2) (0, 0) e.1) [] blk.1 acc) acc) acc)
      = (blocksO.find? (fun b => decide (k = b.1))).elim (alFind k acc)
          (fun b => some (b.2.foldl (fun c e => alInsertWith (addC e.2) (0, 0) e.1 c) [])))
    ∧ List.Pairwise (fun a b => strLt a.1 b.1 = true)
        (blocksO.foldl (fun acc blk =>
          blk.2.foldl (fun acc e =>
            alInsertWith (alInsertWith (addC e.2) (0, 0) e.1) [] blk.1 acc) acc) acc) := by
  intro blocksO
  induction blocksO with
  | nil =>
    intro acc hp _ _ _
    exact ⟨fun k => rfl, hp⟩
  | cons b blocksO ih =>
    intro acc hp hnd habs hne
    obtain ⟨hhd, htl⟩ := List.nodup_cons.mp hnd
    have hne_tail : ∀ b' ∈ blocksO, b'.1 ≠ b.1 := by
      intro b' hb' heq
      exact hhd (List.mem_map.mpr ⟨b', hb', show b'.1 = b.1 from heq⟩)
    cases hb2 : b.2 with
    | nil => exact absurd hb2 (hne b (List.mem_cons_self _ _))
    | cons e0 restO =>
      obtain ⟨hstep, hp1⟩ := nested_block_fold e0 restO b.1 acc hp
        (habs b (List.mem_cons_self _ _))
      rw [List.foldl_cons]
      have hb2fold : b.2.foldl (fun acc e =>
          alInsertWith (alInsertWith (addC e.2) (0, 0) e.1) [] b.1 acc) acc
          = (e0 :: restO).foldl (fun acc e =>
            alInsertWith (alInsertWith (addC e.2) (0, 0) e.1) [] b.1 acc) acc := by
        rw [hb2]
      rw [hb2fold]
      obtain ⟨hrest, hp2⟩ := ih _ hp1 htl
        (fun b' hb' => by
          rw [hstep b'.1, if_neg (hne_tail b' hb')]
          exact habs b' (List.mem_cons_of_mem _ hb'))
        (fun b' hb' => hne b' (List.mem_cons_of_mem _ hb'))
      refine ⟨fun k => ?_, hp2⟩
      rw [hrest k]
      by_cases hk : k = b.1
      · rw [@List.find?_cons_of_pos _ (fun x => decide (k = x.1)) b blocksO
          (by rw [decide_eq_true_eq]; exact hk)]
        have hnone : blocksO.find? (fun x => decide (k = x.1)) = none :=
          List.find?_eq_none.mpr (fun x hx => by
            rw [decide_eq_true_eq]
            intro hkx
            exact hne_tail x hx (by rw [← hkx, hk]))
        rw [hnone]
        show alFind k ((e0 :: restO).foldl (fun acc e =>
          alInsertWith (alInsertWith (addC e.2) (0, 0) e.1) [] b.1 acc) acc)
          = some (b.2.foldl (fun c e => alInsertWith (addC e.2) (0, 0) e.1 c) [])
        rw [hstep k, if_pos hk, hb2]
      · rw [@List.find?_cons_of_neg _ (fun x => decide (k = x.1)) b blocksO
          (by rw [decide_eq_true_eq]; exact hk)]
        show (blocksO.find? (fun x => decide (k = x.1))).elim
            (alFind k ((e0 :: restO).foldl (fun acc e =>
              alInsertWith (alInsertWith (addC e.2) (0, 0) e.1) [] b.1 acc) acc)) _
          = (blocksO.find? (fun x => decide (k = x.1))).elim (alFind k acc) _
        rw [hstep k, if_neg hk]

theorem entry_eq_of_key_eq {α : Type} {t : List (Str × α)}
    (hnd : (t.map (fun e => e.1)).Nodup) {e e' : Str × α}
    (he : e ∈ t) (he' : e' ∈ t) (hk : e.1 = e'.1) : e = e' := by
  have h1 := find?_eq_some_of_mem hnd he rfl
  have h2 := find?_eq_some_of_mem hnd he' hk
  rw [h1] at h2
  exact Option.some.inj h2

theorem reps_fold_perm (repO t : RepMap)
    (hrk : (repO.map (fun e => e.1)).Perm (t.map (fun e => e.1)))
    (hrv : ∀ e ∈ repO, ∃ e' ∈ t, e.1 = e'.1 ∧ e.2.Perm e'.2)
    (hp : List.Pairwise (fun a b => strLt a.1 b.1 = true) t)
    (hin : ∀ e ∈ t, List.Pairwise (fun a b => strLt a.1 b.1 = true) e.2)
    (hne : ∀ e ∈ t, e.2 ≠ []) :
    repO.foldl (fun acc blk =>
        blk.2.foldl (fun acc e =>
          alInsertWith (alInsertWith (addC e.2) (0, 0) e.1) [] blk.1 acc) acc) []
      = t := by
  have hndt : (t.map (fun e => e.1)).Nodup := keys_nodup_of_pairwise hp
  have hndO : (repO.map (fun e => e.1)).Nodup := hrk.nodup_iff.mpr hndt
  have hneO : ∀ e ∈ repO, e.2 ≠ [] := by
    intro e he hnil
    obtain ⟨e', he', _, hperm2⟩ := hrv e he
    rw [hnil] at hperm2
    exact hne e' he' (hperm2.symm.eq_nil)
  obtain ⟨hchar, hpO⟩ := blocks_fold_char repO [] List.Pairwise.nil hndO
    (fun b _ => rfl) hneO
  apply alExt hpO hp
  intro k
  rw [hchar k, alFind_eq_find? t k]
  cases hf : t.find? (fun e => decide (k = e.1)) with
  | none =>
    have hOn : repO.find? (fun b => decide (k = b.1)) = none := by
      rw [List.find?_eq_none]
      intro b hb
      rw [decide_eq_true_eq]
      intro hkb
      obtain ⟨e', he', hk', _⟩ := hrv b hb
      have := List.find?_eq_none.mp hf e' he'
      rw [decide_eq_true_eq] at this
      exact this (by rw [hkb, hk'])
    rw [hOn]
    rfl
  | some e' =>
    have hmem := List.mem_of_find?_eq_some hf
    have hpred := List.find?_some hf
    rw [decide_eq_true_eq] at hpred
    have hkmem : k ∈ repO.map (fun e => e.1) := by
      rw [hrk.mem_iff]
      exact List.mem_map.mpr ⟨e', hmem, hpred.symm⟩
    obtain ⟨b, hbmem, hb1⟩ := List.mem_map.mp hkmem
    rw [find?_eq_some_of_mem hndO hbmem hb1.symm]
    obtain ⟨e'', he''mem, hk'', hperm2⟩ := hrv b hbmem
    have he''e' : e'' = e' :=
      entry_eq_of_key_eq hndt he''mem hmem (by rw [← hk'', hb1, ← hpred])
    show some (b.2.foldl (fun c e => alInsertWith (addC e.2) (0, 0) e.1 c) [])
      = some e'.2
    rw [foldl_ins_perm b.2 e'.2 (by rw [← he''e']; exact hperm2) (hin e' hmem)]

theorem loadRep_section (blocks : RepMap) (md : Model)
    (hall : blocks.all (fun e => goodKey e.1 && e.2.all (fun p => goodKey p.1)) = true)
    (hne : blocks.all (fun e => !e.2.isEmpty) = true) :
    loadRepOuter blocks.length md ((10 :: saveReps blocks).dropWhile (fun c => c == 10))
      = some (blocks.foldl (fun md blk =>
          blk.2.foldl (fun md e => md.update_replacement blk.1 e.1 e.2.1 e.2.2) md) md,
        if blocks.isEmpty then [] else [10]) := by
  rw [List.dropWhile_cons, if_pos (show ((10 : Nat) == 10) = true from rfl)]
  cases blocks with
  | nil =>
    rw [show saveReps [] = ([] : Str) from rfl]
    rfl
  | cons blk blocks =>
    have hgk : goodKey blk.1 = true := by
      have h := hall
      rw [List.all_cons, Bool.and_eq_true, Bool.and_eq_true] at h
      exact h.1.1
    rw [dropWhile_nl_saveReps_cons blk blocks hgk]
    rw [show saveReps (blk :: blocks) = saveReps (blk :: blocks) ++ [] from
      (List.append_nil _).symm]
    rw [loadRepOuter_replay_first (blk :: blocks) md [] hall hne (List.cons_ne_nil _ _)]
    rfl

theorem load_save_aux (m : Model) (lemO infO : FlatMap) (repO : RepMap)
    (tb : Nat) (hdig : isDigit tb = true)
    (hkl : lemO.all (fun e => goodKey e.1) = true)
    (hki : infO.all (fun e => goodKey e.1) = true)
    (hkr : repO.all (fun e => goodKey e.1 && e.2.all (fun p => goodKey p.1)) = true)
    (hinne : repO.all (fun e => !e.2.isEmpty) = true)
    (hge1 : 1 ≤ m.max_suffix_size) (hle : m.max_suffix_size ≤ 1024)
    (htrv : decide ((((0 * 10 + (tb - 48) : Nat)) : Int) ≠ 0) = m.is_trimmed)
    (hL : lemO.foldl (fun acc e => alInsertWith (addC e.2) (0, 0) e.1 acc) []
        = m.lemcounts)
    (hI : infO.foldl (fun acc e => alInsertWith (addC e.2) (0, 0) e.1 acc) []
        = m.infcounts)
    (hR : repO.foldl (fun acc blk =>
        blk.2.foldl (fun acc e =>
          alInsertWith (alInsertWith (addC e.2) (0, 0) e.1) [] blk.1 acc) acc) []
        = m.replacements) :
    Model.load (natDec m.max_suffix_size ++ 9 :: tb :: 10 ::
        (natDec lemO.length ++ 10 ::
          (saveFlat lemO ++ (natDec infO.length ++ 10 ::
            (saveFlat infO ++ (natDec repO.length ++ 10 ::
              saveReps repO))))))
      = some m := by
  rw [Model.load]
  rw [parseLong_natDec m.max_suffix_size (show isDigit 9 = false from rfl) _]
  try simp only []
  rw [parseLong_tab, parseLong_digit hdig]
  rw [parseDigits, if_pos hdig]
  rw [parseDigits_nonDigit (show isDigit 10 = false from rfl)]
  try simp only []
  rw [if_neg (show ¬((m.max_suffix_size : Int) < 1
      ∨ (1024 : Int) < (m.max_suffix_size : Int)) from by omega)]
  try simp only []
  rw [htrv]
  rw [show ((m.max_suffix_size : Int)).toNat = m.max_suffix_size from by omega]
  rw [List.dropWhile_cons, if_pos (show ((10 : Nat) == 10) = true from rfl)]
  rw [dropWhile_nl_natDec]
  rw [parseLong_natDec lemO.length (show isDigit 10 = false from rfl)]
  try simp only []
  rw [show ((lemO.length : Int)).toNat = lemO.length from by omega]
  rw [loadFlat_section _ lemO _ infO.length _ hkl]
  try simp only []
  rw [parseLong_ite_nl]
  rw [parseLong_natDec infO.length (show isDigit 10 = false from rfl)]
  try simp only []
  rw [show ((infO.length : Int)).toNat = infO.length from by omega]
  rw [loadFlat_section _ infO _ repO.length _ hki]
  try simp only []
  rw [parseLong_ite_nl]
  rw [parseLong_natDec repO.length (show isDigit 10 = false from rfl)]
  try simp only []
  rw [show ((repO.length : Int)).toNat = repO.length from by omega]
  rw [loadRep_section repO _ hkr hinne]
  try simp only []
  rw [replay_lemma_fields, replay_inflected_fields, replay_reps_fields]
  try simp only []
  rw [hL, hI, hR]

theorem load_save_any (m mp : Model) (hg : Model.goodB m = true)
    (hmax : mp.max_suffix_size = m.max_suffix_size)
    (htrm : mp.is_trimmed = m.is_trimmed)
    (hl : mp.lemcounts.Perm m.lemcounts)
    (hi : mp.infcounts.Perm m.infcounts)
    (hrk : (mp.replacements.map (fun e => e.1)).Perm (m.replacements.map (fun e => e.1)))
    (hrv : ∀ e ∈ mp.replacements, ∃ e' ∈ m.replacements, e.1 = e'.1 ∧ e.2.Perm e'.2) :
    Model.load (Model.save mp) = some m := by
  simp only [Model.goodB, Bool.and_eq_true] at hg
  obtain ⟨⟨⟨⟨hsort, hkeys⟩, hinne⟩, hge1⟩, hle⟩ := hg
  simp only [Model.goodKeys, Bool.and_eq_true] at hkeys
  obtain ⟨⟨hkl, hki⟩, hkr⟩ := hkeys
  obtain ⟨hlB, hiB, hrB, hr2B⟩ := sortedB_parts hsort
  have h1 := of_decide_eq_true hge1
  have h2 := of_decide_eq_true hle
  have hrne : ∀ e ∈ m.replacements, e.2 ≠ [] := by
    intro e he hnil
    have hb := bnot_true (List.all_eq_true.mp hinne e he)
    rw [hnil] at hb
    exact absurd hb (by decide)
  have hklO : mp.lemcounts.all (fun e => goodKey e.1) = true := by
    rw [List.all_eq_true] at hkl ⊢
    exact fun e he => hkl e (hl.subset he)
  have hkiO : mp.infcounts.all (fun e => goodKey e.1) = true := by
    rw [List.all_eq_true] at hki ⊢
    exact fun e he => hki e (hi.subset he)
  have hkrO : mp.replacements.all
      (fun e => goodKey e.1 && e.2.all (fun p => goodKey p.1)) = true := by
    rw [List.all_eq_true] at hkr ⊢
    intro e he
    obtain ⟨e', he', hk', hperm2⟩ := hrv e he
    have hm := hkr e' he'
    rw [Bool.and_eq_true] at hm ⊢
    refine ⟨by rw [hk']; exact hm.1, ?_⟩
    rw [List.all_eq_true] at hm ⊢
    exact fun p hp => hm.2 p (hperm2.subset hp)
  have hinneO : mp.replacements.all (fun e => !e.2.isEmpty) = true := by
    rw [List.all_eq_true]
    intro e he
    obtain ⟨e', he', _, hperm2⟩ := hrv e he
    cases he2 : e.2 with
    | nil =>
      rw [he2] at hperm2
      exact absurd hperm2.symm.eq_nil (hrne e' he')
    | cons a t => rfl
  have hLf := foldl_ins_perm mp.lemcounts m.lemcounts hl (keysSortedB_pairwise hlB)
  have hIf := foldl_ins_perm mp.infcounts m.infcounts hi (keysSortedB_pairwise hiB)
  have hRf := reps_fold_perm mp.replacements m.replacements hrk hrv
    (keysSortedB_pairwise hrB) (fun e he => keysSortedB_pairwise (hr2B e he)) hrne
  rw [Model.save, hmax, htrm]
  cases htr : m.is_trimmed with
  | false =>
    rw [if_neg Bool.false_ne_true]
    simp only [List.append_assoc, List.cons_append, List.nil_append]
    exact load_save_aux m mp.lemcounts mp.infcounts mp.replacements 48 rfl
      hklO hkiO hkrO hinneO h1 h2 (by rw [htr]; decide) hLf hIf hRf
  | true =>
    rw [if_pos rfl]
    simp only [List.append_assoc, List.cons_append, List.nil_append]
    exact load_save_aux m mp.lemcounts mp.infcounts mp.replacements 49 rfl
      hklO hkiO hkrO hinneO h1 h2 (by rw [htr]; decide) hLf hIf hRf

theorem load_save_good (m : Model) (hg : Model.goodB m = true) :
    Model.load (Model.save m) = some m :=
  load_save_any m m hg rfl rfl (List.Perm.refl _) (List.Perm.refl _) (List.Perm.refl _)
    (fun e he => ⟨e, he, rfl, List.Perm.refl _⟩)

theorem parseLong_bad_head {c : Nat} (hs : isSpace c = false) (hd : isDigit c = false)
    (h43 : c ≠ 43) (h45 : c ≠ 45) (s : Str) : parseLong (c :: s) = none := by
  rw [parseLong]
  rw [show (c :: s).dropWhile isSpace = c :: s from by
    rw [List.dropWhile_cons, if_neg (by rw [hs]; exact Bool.false_ne_true)]]
  split
  case _ h => rfl
  case _ r h =>
    injection h with h' _
    exact absurd h' h43
  case _ r h =>
    injection h with h' _
    exact absurd h' h45
  case _ c2 r h1 h2 h3 =>
    injection h3 with h' h''
    rw [← h']
    rw [if_neg (by rw [hd]; exact Bool.false_ne_true)]

theorem parseKeyField_tab (s : Str) : parseKeyField (9 :: s) = none := by
  have h : spanNonTab 1024 (9 :: s) = ([], 9 :: s) := by
    rw [show (1024 : Nat) = 1023 + 1 from rfl, spanNonTab,
      if_pos (show ((9 : Nat) == 9) = true from rfl)]
  simp [parseKeyField, h]

theorem loadFlatEntries_bad (app : Model → Str → Int → Int → Model) (k : Nat)
    (md : Model) (pre : Str) (c : Nat) (suf : Str) (v : Counts) (z : Str)
    (htab : pre.all (fun b => b != 9) = true) (hlen : pre.length ≤ 1023)
    (hs : isSpace c = false) (hd : isDigit c = false) (h43 : c ≠ 43) (h45 : c ≠ 45) :
    loadFlatEntries app (k + 1) md
        (pre ++ 9 :: c :: (suf ++ 9 :: (intDec v.1 ++ 9 :: (intDec v.2 ++ 10 :: z))))
      = none
    ∧ loadFlatEntries app (k + 1) md
        (10 :: (pre ++ 9 :: c :: (suf ++ 9 :: (intDec v.1 ++ 9 :: (intDec v.2
          ++ 10 :: z)))))
      = none := by
  constructor
  · cases pre with
    | nil =>
      rw [List.nil_append]
      rw [loadFlatEntries, parseKeyField_tab]
    | cons a pre' =>
      rw [loadFlatEntries, parseKeyField_pre (a :: pre') _ (List.cons_ne_nil _ _) htab
        (le_trans hlen (by norm_num))]
      try simp only []
      rw [parseLong_tab, parseLong_bad_head hs hd h43 h45]
  · rw [← List.cons_append]
    rw [loadFlatEntries, parseKeyField_pre (10 :: pre) _ (List.cons_ne_nil _ _)
      (by rw [List.all_cons, htab]; rfl)
      (by rw [List.length_cons]; omega)]
    try simp only []
    rw [parseLong_tab, parseLong_bad_head hs hd h43 h45]

theorem loadFlatEntries_empty_first (app : Model → Str → Int → Int → Model) (k : Nat)
    (md : Model) (v : Counts) (z : Str) :
    loadFlatEntries app (k + 1) md (9 :: (intDec v.1 ++ 9 :: (intDec v.2 ++ 10 :: z)))
      = none := by
  rw [loadFlatEntries, parseKeyField_tab]

theorem loadFlatEntries_empty_mid (app : Model → Str → Int → Int → Model) (k : Nat)
    (md : Model) (v : Counts) (z : Str) :
    loadFlatEntries app (k + 1) md
        (10 :: 9 :: (intDec v.1 ++ 9 :: (intDec v.2 ++ 10 :: z)))
      = loadFlatEntries app k (app md [] v.1 v.2) (10 :: z) := by
  rw [show (10 :: 9 :: (intDec v.1 ++ 9 :: (intDec v.2 ++ 10 :: z)) : Str)
      = [10] ++ 9 :: (intDec v.1 ++ 9 :: (intDec v.2 ++ 10 :: z)) from rfl]
  rw [loadFlatEntries, parseKeyField_pre [10] _ (List.cons_ne_nil _ _) (by decide)
    (by decide)]
  try simp only []
  rw [parseLong_tab, parseLong_intDec v.1 (show isDigit 9 = false from rfl)]
  try simp only []
  rw [parseLong_tab, parseLong_intDec v.2 (show isDigit 10 = false from rfl)]
  try simp only []
  rw [List.dropWhile_cons, if_neg (by decide)]
  rw [show trimStr [10] = [] from rfl]

theorem loadFlatEntries_good_step (app : Model → Str → Int → Int → Model)
    (e : Str × Counts) (t' : FlatMap) (md : Model) (rest : Str)
    (hg : goodKey e.1 = true) :
    loadFlatEntries app (e :: t').length md (saveFlat (e :: t') ++ rest)
      = loadFlatEntries app t'.length (app md e.1 e.2.1 e.2.2)
          (10 :: (saveFlat t' ++ rest))
    ∧ loadFlatEntries app (e :: t').length md (10 :: (saveFlat (e :: t') ++ rest))
      = loadFlatEntries app t'.length (app md e.1 e.2.1 e.2.2)
          (10 :: (saveFlat t' ++ rest)) := by
  have htab : (10 :: e.1).all (fun c => c != 9) = true := by
    rw [List.all_cons, goodKey_no_tab hg]
    rfl
  have hlen1024 : (10 :: e.1).length ≤ 1024 := by
    rw [List.length_cons]
    have := goodKey_len hg
    omega
  constructor
  · rw [List.length_cons, saveFlat_cons]
    simp only [List.append_assoc, List.cons_append]
    rw [loadFlatEntries, parseKeyField_pre e.1 _ (goodKey_ne_nil hg)
      (goodKey_no_tab hg) (le_trans (goodKey_len hg) (by norm_num))]
    try simp only []
    rw [parseLong_tab, parseLong_intDec e.2.1 (show isDigit 9 = false from rfl)]
    try simp only []
    rw [parseLong_tab, parseLong_intDec e.2.2 (show isDigit 10 = false from rfl)]
    try simp only []
    rw [List.dropWhile_cons, if_neg (by decide)]
    rw [trimStr_goodKey hg]
  · rw [List.length_cons, saveFlat_cons]
    simp only [List.append_assoc, List.cons_append]
    rw [← List.cons_append]
    rw [loadFlatEntries, parseKeyField_pre (10 :: e.1) _ (List.cons_ne_nil _ _)
      htab hlen1024]
    try simp only []
    rw [parseLong_tab, parseLong_intDec e.2.1 (show isDigit 9 = false from rfl)]
    try simp only []
    rw [parseLong_tab, parseLong_intDec e.2.2 (show isDigit 10 = false from rfl)]
    try simp only []
    rw [List.dropWhile_cons, if_neg (by decide)]
    rw [trimStr_nl_goodKey hg]

theorem loadFlat_scan_fails (app : Model → Str → Int → Int → Model) :
    ∀ (t : FlatMap),
    (∀ e ∈ t, goodKey e.1 = true ∨ e.1 = []
      ∨ ∃ pre c suf, e.1 = pre ++ 9 :: c :: suf
          ∧ pre.all (fun b => b != 9) = true ∧ pre.length ≤ 1023
          ∧ isSpace c = false ∧ isDigit c = false ∧ c ≠ 43 ∧ c ≠ 45) →
    (∃ e ∈ t, ∃ pre c suf, e.1 = pre ++ 9 :: c :: suf
        ∧ pre.all (fun b => b != 9) = true ∧ pre.length ≤ 1023
        ∧ isSpace c = false ∧ isDigit c = false ∧ c ≠ 43 ∧ c ≠ 45) →
    ∀ (md : Model) (rest : Str),
    loadFlatEntries app t.length md (saveFlat t ++ rest) = none
    ∧ loadFlatEntries app t.length md (10 :: (saveFlat t ++ rest)) = none := by
  intro t
  induction t with
  | nil =>
    intro _ hbad md rest
    obtain ⟨e, he, _⟩ := hbad
    exact absurd he (List.not_mem_nil e)
  | cons e t' ih =>
    intro hclass hbad md rest
    rcases hclass e (List.mem_cons_self _ _) with hg | hem | hb
    · have hbad' : ∃ e' ∈ t', ∃ pre c suf, e'.1 = pre ++ 9 :: c :: suf
          ∧ pre.all (fun b => b != 9) = true ∧ pre.length ≤ 1023
          ∧ isSpace c = false ∧ isDigit c = false ∧ c ≠ 43 ∧ c ≠ 45 := by
        obtain ⟨e', he', hsh⟩ := hbad
        rcases List.mem_cons.mp he' with rfl | hmem
        · exfalso
          obtain ⟨pre, c, suf, he1, _⟩ := hsh
          have hnt := goodKey_no_tab hg
          rw [List.all_eq_true] at hnt
          have h9 : (9 : Nat) ∈ e'.1 := by
            rw [he1]
            exact List.mem_append.mpr (Or.inr (List.mem_cons_self _ _))
          exact absurd (hnt 9 h9) (by decide)
        · exact ⟨e', hmem, hsh⟩
      obtain ⟨h1, h2⟩ := loadFlatEntries_good_step app e t' md rest hg
      have hrec := (ih (fun x hx => hclass x (List.mem_cons_of_mem _ hx)) hbad'
        (app md e.1 e.2.1 e.2.2) rest).2
      exact ⟨by rw [h1]; exact hrec, by rw [h2]; exact hrec⟩
    · have hbad' : ∃ e' ∈ t', ∃ pre c suf, e'.1 = pre ++ 9 :: c :: suf
          ∧ pre.all (fun b => b != 9) = true ∧ pre.length ≤ 1023
          ∧ isSpace c = false ∧ isDigit c = false ∧ c ≠ 43 ∧ c ≠ 45 := by
        obtain ⟨e', he', hsh⟩ := hbad
        rcases List.mem_cons.mp he' with rfl | hmem
        · exfalso
          obtain ⟨pre, c, suf, he1, _⟩ := hsh
          rw [hem] at he1
          have hlen0 := congrArg List.length he1
          rw [List.length_nil, List.length_append, List.length_cons,
            List.length_cons] at hlen0
          omega
        · exact ⟨e', hmem, hsh⟩
      constructor
      · rw [List.length_cons, saveFlat_cons, hem]
        simp only [List.append_assoc, List.cons_append, List.nil_append]
        exact loadFlatEntries_empty_first app t'.length md e.2 _
      · rw [List.length_cons, saveFlat_cons, hem]
        simp only [List.append_assoc, List.cons_append, List.nil_append]
        rw [loadFlatEntries_empty_mid app t'.length md e.2 _]
        exact (ih (fun x hx => hclass x (List.mem_cons_of_mem _ hx)) hbad'
          (app md [] e.2.1 e.2.2) rest).2
    · obtain ⟨pre, c, suf, he1, htab, hlen, hs, hd, h43, h45⟩ := hb
      constructor
      · rw [List.length_cons, saveFlat_cons, he1]
        simp only [List.append_assoc, List.cons_append]
        exact (loadFlatEntries_bad app t'.length md pre c suf e.2 _
          htab hlen hs hd h43 h45).1
      · rw [List.length_cons, saveFlat_cons, he1]
        simp only [List.append_assoc, List.cons_append]
        exact (loadFlatEntries_bad app t'.length md pre c suf e.2 _
          htab hlen hs hd h43 h45).2

theorem dropWhile_nl_saveFlat_head (e0 : Str × Counts) (t' : FlatMap) (R : Str)
    (hh : e0.1.headD 9 ≠ 10) :
    (saveFlat (e0 :: t') ++ R).dropWhile (fun c => c == 10) = saveFlat (e0 :: t') ++ R := by
  rw [saveFlat_cons]
  cases hk : e0.1 with
  | nil =>
    simp only [List.append_assoc, List.cons_append, List.nil_append]
    rw [List.dropWhile_cons, if_neg (by decide)]
  | cons a k' =>
    rw [hk, List.headD_cons] at hh
    simp only [List.append_assoc, List.cons_append]
    rw [List.dropWhile_cons, if_neg (by
      intro hq
      rw [beq_iff_eq] at hq
      exact hh hq)]

theorem load_tab_any_order (lemO : FlatMap) (hperm : lemO.Perm exTrainedTab.lemcounts)
    (infO : FlatMap) (repO : RepMap) :
    Model.load (Model.save
      { replacements := repO, lemcounts := lemO, infcounts := infO,
        max_suffix_size := 4, is_trimmed := false }) = none := by
  have hexp : exTrainedTab.lemcounts
      = [([], (2, 0)), ([9, 98], (0, 1)), ([36, 97], (1, 0)), ([36, 97, 9, 98], (0, 1)),
         ([97], (1, 0)), ([97, 9, 98], (0, 1)), ([98], (0, 1))] := by decide
  have hclassC : ∀ e ∈ exTrainedTab.lemcounts, goodKey e.1 = true ∨ e.1 = []
      ∨ ∃ pre c suf, e.1 = pre ++ 9 :: c :: suf
          ∧ pre.all (fun b => b != 9) = true ∧ pre.length ≤ 1023
          ∧ isSpace c = false ∧ isDigit c = false ∧ c ≠ 43 ∧ c ≠ 45 := by
    intro e he
    rw [hexp] at he
    simp only [List.mem_cons, List.not_mem_nil, or_false] at he
    rcases he with rfl | rfl | rfl | rfl | rfl | rfl | rfl
    · exact Or.inr (Or.inl rfl)
    · exact Or.inr (Or.inr ⟨[], 98, [], rfl, rfl, by decide, rfl, rfl, by decide, by decide⟩)
    · exact Or.inl (by decide)
    · exact Or.inr (Or.inr ⟨[36, 97], 98, [], rfl, rfl, by decide, rfl, rfl,
        by decide, by decide⟩)
    · exact Or.inl (by decide)
    · exact Or.inr (Or.inr ⟨[97], 98, [], rfl, rfl, by decide, rfl, rfl,
        by decide, by decide⟩)
    · exact Or.inl (by decide)
  have hclass : ∀ e ∈ lemO, goodKey e.1 = true ∨ e.1 = []
      ∨ ∃ pre c suf, e.1 = pre ++ 9 :: c :: suf
          ∧ pre.all (fun b => b != 9) = true ∧ pre.length ≤ 1023
          ∧ isSpace c = false ∧ isDigit c = false ∧ c ≠ 43 ∧ c ≠ 45 :=
    fun e he => hclassC e (hperm.subset he)
  have hbad : ∃ e ∈ lemO, ∃ pre c suf, e.1 = pre ++ 9 :: c :: suf
      ∧ pre.all (fun b => b != 9) = true ∧ pre.length ≤ 1023
      ∧ isSpace c = false ∧ isDigit c = false ∧ c ≠ 43 ∧ c ≠ 45 :=
    ⟨([9, 98], (0, 1)), hperm.mem_iff.mpr (by rw [hexp]; decide),
      ⟨[], 98, [], rfl, rfl, by decide, rfl, rfl, by decide, by decide⟩⟩
  have hall10 : ∀ x ∈ exTrainedTab.lemcounts, x.1.headD 9 ≠ 10 := by decide
  cases lemO with
  | nil =>
    exfalso
    have hlen := hperm.length_eq
    rw [hexp] at hlen
    exact absurd hlen (by decide)
  | cons e0 t' =>
    have hh : e0.1.headD 9 ≠ 10 :=
      hall10 e0 (hperm.subset (List.mem_cons_self _ _))
    rw [Model.save]
    try simp only []
    rw [if_neg Bool.false_ne_true]
    simp only [List.append_assoc, List.cons_append, List.nil_append]
    rw [Model.load]
    rw [parseLong_natDec 4 (show isDigit 9 = false from rfl) _]
    try simp only []
    rw [parseLong_tab, parseLong_digit (show isDigit 48 = true from rfl)]
    rw [parseDigits, if_pos (show isDigit 48 = true from rfl)]
    rw [parseDigits_nonDigit (show isDigit 10 = false from rfl)]
    try simp only []
    rw [if_neg (show ¬(((4 : Nat) : Int) < 1 ∨ (1024 : Int) < ((4 : Nat) : Int))
      from by omega)]
    try simp only []
    rw [List.dropWhile_cons, if_pos (show ((10 : Nat) == 10) = true from rfl)]
    rw [dropWhile_nl_natDec]
    rw [parseLong_natDec (e0 :: t').length (show isDigit 10 = false from rfl)]
    try simp only []
    rw [show (((e0 :: t').length : Int)).toNat = (e0 :: t').length from by omega]
    rw [List.dropWhile_cons, if_pos (show ((10 : Nat) == 10) = true from rfl)]
    rw [dropWhile_nl_saveFlat_head e0 t' _ hh]
    rw [(loadFlat_scan_fails _ (e0 :: t') hclass hbad _ _).1]

/-- C3 counterexample: the round-trip fails outright, and the failure does not
depend on the unspecified `std::unordered_map` iteration order.  Training
`("a\tb", "a", 1)` — an inflected word containing a tab byte — stores suffix
keys that embed a tab (such as `"\tb"`).  `Model::save` writes each such key
raw, and on reload the `%1024[^\t]` key conversion stops at the embedded tab,
leaving a non-numeric byte where `%ld` expects the tp field, so `Model::load`
throws instead of producing a model.  A line with an embedded-tab key aborts
the scan at whatever position the emission order puts it; the companion
theorem `load_tab_any_order` proves the failure for every permutation of the
lemma-table entries (with the other sections arbitrary), and this theorem
computes it for the canonical order. -/
theorem C3_counterexample :
    ((emptyModel 4).update [97, 9, 98] [97] 1).toOption = some exTrainedTab
    ∧ alFind [9, 98] exTrainedTab.lemcounts = some (0, 1)
    ∧ Model.load (Model.save exTrainedTab) = none := by decide

/-- C3 (amended): content-level round-trip.  For every model `m` with sorted
canonical tables, format-safe keys (non-empty, at most 1023 bytes, free of
tab and newline, no leading or trailing whitespace), no empty inner
replacement map, and `max_suffix_size` in the loader-accepted range 1..1024,
and for EVERY emission order of the unordered tables — modelled as a model
`mp` whose table lists are arbitrary permutations of `m`'s (outer replacement
keys permuted, each inner map permuted) — loading the bytes saved in that
order reconstructs exactly the canonical model `m`.  Consequently the loaded
store's lemmatization and its canonical re-serialization agree with `m`'s;
byte-identity of an uncontrolled re-save is not claimed, since the source's
iteration order is unspecified. -/
theorem C3_amended (m mp : Model) (hg : Model.goodB m = true)
    (hmax : mp.max_suffix_size = m.max_suffix_size)
    (htrm : mp.is_trimmed = m.is_trimmed)
    (hl : mp.lemcounts.Perm m.lemcounts)
    (hi : mp.infcounts.Perm m.infcounts)
    (hrk : (mp.replacements.map (fun e => e.1)).Perm
      (m.replacements.map (fun e => e.1)))
    (hrv : ∀ e ∈ mp.replacements, ∃ e' ∈ m.replacements, e.1 = e'.1 ∧ e.2.Perm e'.2) :
    Model.load (Model.save mp) = some m :=
  load_save_any m mp hg hmax htrm hl hi hrk hrv

/-- Witness for C3 (amended): a concrete well-formed store, serialized in a
different iteration order than the canonical one, reloads to the canonical
store. -/
theorem C3_amended_witness :
    Model.goodB exGood = true
    ∧ exGoodPerm.infcounts.Perm exGood.infcounts
    ∧ (exGoodPerm.replacements.map (fun e => e.1)).Perm
        (exGood.replacements.map (fun e => e.1))
    ∧ Model.load (Model.save exGoodPerm) = some exGood :=
  ⟨by decide, by decide, by decide,
    C3_amended exGood exGoodPerm (by decide) rfl rfl (by decide) (by decide)
      (by decide) (by decide)⟩

end Suflem
